import Mathlib

/-!
Michael–Scott queue (`ms_queue.h`) and its sequential-consistency test (`sc_test.cpp`).

A shallow embedding of the two source files.

* Pointers are `Option Nat`: `none` is `nullptr`, `some a` is the address `a`.
* Memory is a list of cells; the cell at index `a` is the object at address `a`.
  `new` appends a cell (a fresh address), `delete` clears the `live` flag of a cell.
  Dereferencing `nullptr`, an address never allocated, or a deleted object is
  undefined behaviour in C++ and is reported as `failure.invalid_access`.
* A value holder `T*` is identified with its pointee: `value_ = some v` is a pointer to a
  live holder containing `v`, `value_ = none` is `nullptr`.  `T` is `int`, as in the test.
* The `while (true)` loops take a fuel argument that bounds the number of iterations.
-/

deriving instance DecidableEq for Except

namespace MSQueue

/-! ## Memory -/

/-- The `struct node` of `ms_queue.h`: `std::atomic<T*> value_` and `std::atomic<node*> next_`. -/
structure node where
  value_ : Option Int
  next_ : Option Nat
deriving DecidableEq, Repr

/-- One allocation: the object stored there and whether it has not been deleted yet. -/
structure cell where
  obj : node
  live : Bool
deriving DecidableEq, Repr

/-- Ways in which running the code can fail to produce a result. -/
inductive failure where
  | bad_alloc
  | invalid_access
  | out_of_fuel
deriving DecidableEq, Repr

/-- The object a pointer refers to, if the pointer is valid. -/
def deref (mem : List cell) (p : Option Nat) : Option node :=
  match p with
  | none => none
  | some a =>
    match mem[a]? with
    | none => none
    | some c => if c.live then some c.obj else none

/-- Overwrite the object at address `a`. -/
def store (mem : List cell) (a : Nat) (n : node) : List cell :=
  mem.set a { obj := n, live := true }

/-- Expression `new node(value)`: the constructor sets `value_` and leaves `next_` null. -/
def new_node (mem : List cell) (value : Option Int) : List cell × Option Nat :=
  (mem ++ [{ obj := { value_ := value, next_ := none }, live := true }], some mem.length)

/-- Statement `delete p` for a node pointer. -/
def delete_node (mem : List cell) (p : Option Nat) : Option (List cell) :=
  match p with
  | none => some mem
  | some a =>
    match mem[a]? with
    | none => none
    | some c => if c.live then some (mem.set a { obj := c.obj, live := false }) else none

/-- Member `compare_exchange_strong(expected, desired)` of an atomic pointer holding `cur`:
the new content of the atomic, the new content of `expected`, and the returned flag. -/
def compare_exchange_strong (cur expected desired : Option Nat) :
    Option Nat × Option Nat × Bool :=
  if cur = expected then (desired, expected, true) else (cur, cur, false)

/-- Load `p->next_.load()`. -/
def load_next (mem : List cell) (p : Option Nat) : Option (Option Nat) :=
  (deref mem p).map (fun n => n.next_)

/-- Method `node::cas_next`, called as `p->cas_next(next)`. -/
def cas_next (mem : List cell) (p : Option Nat) (next : Option Nat) :
    Option (List cell × Bool) :=
  match p, deref mem p with
  | some a, some n =>
    let r := compare_exchange_strong n.next_ none next
    some (store mem a { n with next_ := r.1 }, r.2.2)
  | _, _ => none

/-- Call `p->value_.exchange(nullptr)`: the new memory and the old content of the slot. -/
def exchange_value (mem : List cell) (p : Option Nat) : Option (List cell × Option Int) :=
  match p, deref mem p with
  | some a, some n => some (store mem a { n with value_ := none }, n.value_)
  | _, _ => none

/-! ## `ms_queue` run by one thread -/

/-- The state of an `ms_queue<int>`: the two atomics `head`, `tail` and the memory
holding its nodes. -/
structure ms_queue where
  mem : List cell
  head : Option Nat
  tail : Option Nat
deriving DecidableEq, Repr

/-- Constructor `ms_queue()`: `head = tail = new node(nullptr)`. -/
def ms_queue.new : ms_queue :=
  let r := new_node [] none
  { mem := r.1, head := r.2, tail := r.2 }

/-- The `while (true)` loop of `push` (lines 28-36); the second component of the result
is the number of iterations made. -/
def push_loop : Nat → ms_queue → Option Nat → Option Nat → Except failure (ms_queue × Nat)
  | 0, _, _, _ => .error .out_of_fuel
  | fuel + 1, q, new_node, cur_tail =>
    match load_next q.mem cur_tail with
    | none => .error .invalid_access
    | some cur_tail_next =>
      if cur_tail_next ≠ none then
        let r := compare_exchange_strong q.tail cur_tail cur_tail_next
        match push_loop fuel { q with tail := r.1 } new_node r.2.1 with
        | .ok (q', k) => .ok (q', k + 1)
        | .error e => .error e
      else
        match cas_next q.mem cur_tail new_node with
        | none => .error .invalid_access
        | some (mem', true) =>
          let r := compare_exchange_strong q.tail cur_tail new_node
          .ok ({ q with mem := mem', tail := r.1 }, 1)
        | some (mem', false) =>
          match push_loop fuel { q with mem := mem' } new_node cur_tail with
          | .ok (q', k) => .ok (q', k + 1)
          | .error e => .error e

/-- Method `push(value)`.  `holder_ok` and `node_ok` say whether `new T(value)` and
`new node(value_holder)` succeed; when one of them throws `std::bad_alloc` the exception
leaves `push` (the handler deletes the holder and rethrows).  The result is the state after
the call, and either the number of loop iterations or the failure. -/
def push_with (holder_ok node_ok : Bool) (fuel : Nat) (q : ms_queue) (value : Int) :
    ms_queue × Except failure Nat :=
  if holder_ok then
    if node_ok then
      let r := new_node q.mem (some value)
      let q1 : ms_queue := { q with mem := r.1 }
      let cur_tail := q1.tail
      match push_loop fuel q1 r.2 cur_tail with
      | .ok (q', k) => (q', .ok k)
      | .error e => (q1, .error e)
    else (q, .error .bad_alloc)
  else (q, .error .bad_alloc)

/-- Method `push(value)` with a working allocator. -/
def push (fuel : Nat) (q : ms_queue) (value : Int) : Except failure ms_queue :=
  match push_with true true fuel q value with
  | (q', .ok _) => .ok q'
  | (_, .error e) => .error e

/-- The `while (true)` loop of `pop` (lines 44-61): the state after the call, the returned
optional and the number of iterations made. -/
def pop_loop : Nat → ms_queue → Except failure (ms_queue × Option Int × Nat)
  | 0, _ => .error .out_of_fuel
  | fuel + 1, q =>
    let cur_head := q.head
    let cur_tail := q.tail
    match load_next q.mem cur_head with
    | none => .error .invalid_access
    | some cur_head_next =>
      if cur_head = cur_tail then
        if cur_head_next ≠ none then
          let r := compare_exchange_strong q.tail cur_tail cur_head_next
          .ok ({ q with tail := r.1 }, none, 1)
        else .ok (q, none, 1)
      else
        let r := compare_exchange_strong q.head cur_head cur_head_next
        if r.2.2 then
          match exchange_value q.mem cur_head_next with
          | none => .error .invalid_access
          | some (mem1, res_ptr) =>
            match res_ptr with
            | none => .error .invalid_access
            | some res =>
              match delete_node mem1 cur_head with
              | none => .error .invalid_access
              | some mem2 => .ok ({ mem := mem2, head := r.1, tail := q.tail }, some res, 1)
        else
          match pop_loop fuel { q with head := r.1 } with
          | .ok (q', v, k) => .ok (q', v, k + 1)
          | .error e => .error e

/-- Method `pop()`. -/
def pop (fuel : Nat) (q : ms_queue) : Except failure (ms_queue × Option Int) :=
  match pop_loop fuel q with
  | .ok (q', v, _) => .ok (q', v)
  | .error e => .error e

/-! ## The reference queue of `sc_test.cpp` -/

/-- The `seq_queue<int>` of the test: a `std::queue<int>`, front of the queue first. -/
structure seq_queue where
  q : List Int
deriving DecidableEq, Repr

/-- Method `seq_queue::push`. -/
def seq_queue.push (s : seq_queue) (value : Int) : seq_queue :=
  { q := s.q ++ [value] }

/-- Method `seq_queue::pop`. -/
def seq_queue.pop (s : seq_queue) : seq_queue × Option Int :=
  match s.q with
  | [] => (s, none)
  | res :: rest => ({ q := rest }, some res)

/-! ## Sequences of operations -/

/-- One call on a queue. -/
inductive op where
  | push (v : Int)
  | pop
deriving DecidableEq, Repr

/-- Run calls one after another on an `ms_queue`; the list holds what each `pop` returned. -/
def run_ms (fuel : Nat) : ms_queue → List op → Except failure (ms_queue × List (Option Int))
  | q, [] => .ok (q, [])
  | q, .push v :: rest =>
    match push fuel q v with
    | .error e => .error e
    | .ok q1 => run_ms fuel q1 rest
  | q, .pop :: rest =>
    match pop fuel q with
    | .error e => .error e
    | .ok (q1, r) =>
      match run_ms fuel q1 rest with
      | .error e => .error e
      | .ok (q2, rs) => .ok (q2, r :: rs)

/-- Run the same calls on the reference queue. -/
def run_seq : seq_queue → List op → seq_queue × List (Option Int)
  | s, [] => (s, [])
  | s, .push v :: rest => run_seq (s.push v) rest
  | s, .pop :: rest =>
    let r := s.pop
    let r2 := run_seq r.1 rest
    (r2.1, r.2 :: r2.2)

/-- Call `pop()` until it returns an empty optional, at most `n` calls (the loop
`while (pop()) {}` of the destructor); the values returned, in order. -/
def drain (fuel : Nat) : Nat → ms_queue → Except failure (ms_queue × List Int)
  | 0, _ => .error .out_of_fuel
  | n + 1, q =>
    match pop fuel q with
    | .error e => .error e
    | .ok (q1, none) => .ok (q1, [])
    | .ok (q1, some v) =>
      match drain fuel n q1 with
      | .error e => .error e
      | .ok (q2, vs) => .ok (q2, v :: vs)

/-- The values pushed by a sequence of calls, in order. -/
def pushed : List op → List Int
  | [] => []
  | .push v :: rest => v :: pushed rest
  | .pop :: rest => pushed rest

/-! ## The states one thread can reach -/

/-- The cell at address `i` when `m` values have been popped and the slots of the nodes
from `head` on are `xs`: retired nodes below `m`, the list from `head` above. -/
def canon_cell (m : Nat) (xs : List (Option Int)) (i : Nat) : cell :=
  if i < m then { obj := { value_ := none, next_ := some (i + 1) }, live := false }
  else { obj := { value_ := xs.getD (i - m) none,
                  next_ := if i + 1 < m + xs.length then some (i + 1) else none },
         live := true }

/-- The memory made of `canon_cell`s. -/
def canon_mem (m : Nat) (xs : List (Option Int)) : List cell :=
  (List.range (m + xs.length)).map (canon_cell m xs)

/-- The queue state after `m` successful pops, holding the values `vs`, oldest first. -/
def canon (m : Nat) (vs : List Int) : ms_queue :=
  { mem := canon_mem m (none :: vs.map some), head := some m, tail := some (m + vs.length) }

/-! ## The validator of `sc_test.cpp` -/

/-- The type `thread_action_r<int>`, a `std::variant<std::monostate, std::optional<int>>`. -/
inductive thread_action_r where
  | monostate
  | optional (r : Option Int)
deriving DecidableEq, Repr

/-- The two closures `generate_scenario` stores in `thread_action::action`: the one that
captures `val` and pushes it (line 100) and the one that pops (line 106). -/
inductive action_fn where
  | push_fn (val : Int)
  | pop_fn
deriving DecidableEq, Repr

/-- Calling the closure on a `seq_queue`: the queue afterwards and the returned variant. -/
def action_fn.call : action_fn → seq_queue → seq_queue × thread_action_r
  | .push_fn val, q => (q.push val, .monostate)
  | .pop_fn, q => ((q.pop).1, .optional (q.pop).2)

/-- The `struct thread_action<int>`. -/
structure thread_action where
  action : action_fn
  result : thread_action_r
  value : Int
deriving DecidableEq, Repr

/-- The `for` loop of the lambda inside `validate` (lines 122-135) over the thread indexes
still to visit, with the flag `is_final_state` and the cursor vector `thread_action`
threaded through; `self` is the recursive call `validate(new_q)`.  The result is the
returned flag and the cursor vector at the return. -/
def validate_loop (scenario : List (List thread_action))
    (self : List Nat → seq_queue → Option (Bool × List Nat)) (q : seq_queue) :
    List Nat → Bool → List Nat → Option (Bool × List Nat)
  | [], is_final_state, cursors => some (is_final_state, cursors)
  | t :: ts, is_final_state, cursors =>
    let i := cursors.getD t 0
    match (scenario.getD t [])[i]? with
    | none => validate_loop scenario self q ts is_final_state cursors
    | some a =>
      let new_q := a.action.call q
      if new_q.2 = a.result then
        match self (cursors.set t (i + 1)) new_q.1 with
        | none => none
        | some (true, cursors1) => some (true, cursors1)
        | some (false, cursors1) =>
          validate_loop scenario self q ts false (cursors1.set t (cursors1.getD t 0 - 1))
      else validate_loop scenario self q ts false cursors

/-- The recursive lambda inside `validate`, with a bound on the recursion depth. -/
def validate_rec (scenario : List (List thread_action)) :
    Nat → List Nat → seq_queue → Option (Bool × List Nat)
  | 0 => fun _ _ => none
  | fuel + 1 => fun cursors q =>
    validate_loop scenario (validate_rec scenario fuel) q (List.range scenario.length) true
      cursors

/-- The number of actions not yet consumed, for cursors `cursors`. -/
def remaining : List (List thread_action) → List Nat → Nat
  | row :: rows, c :: cs => (row.length - c) + remaining rows cs
  | _, _ => 0

/-- The call `validate(seq_queue<int>())` on zeroed cursors: the returned flag and the
cursor vector `thread_action` when it returns. -/
def validate_run (scenario : List (List thread_action)) : Option (Bool × List Nat) :=
  validate_rec scenario (remaining scenario (List.replicate scenario.length 0) + 1)
    (List.replicate scenario.length 0) { q := [] }

/-- Function `validate(scenario)`. -/
def validate (scenario : List (List thread_action)) : Option Bool :=
  (validate_run scenario).map Prod.fst

/-! ## Linearizations, in the words of the specification -/

/-- The action at position `e = (thread, index)` of a scenario. -/
def action_at (scenario : List (List thread_action)) (e : Nat × Nat) : Option thread_action :=
  (scenario.getD e.1 [])[e.2]?

/-- Replaying the actions at the positions `ord`, in that order, against the reference queue
`q` yields for every action an outcome equal to its recorded result. -/
def replay (scenario : List (List thread_action)) : seq_queue → List (Nat × Nat) → Prop
  | _, [] => True
  | q, e :: rest =>
    ∃ a, action_at scenario e = some a ∧ (a.action.call q).2 = a.result ∧
      replay scenario (a.action.call q).1 rest

/-- The list `ord` is a total order of the actions not yet consumed under `cursors` that
preserves each thread's own order. -/
structure is_order_from (scenario : List (List thread_action)) (cursors : List Nat)
    (ord : List (Nat × Nat)) : Prop where
  nodup : ord.Nodup
  all : ∀ t i, (t, i) ∈ ord ↔ cursors.getD t 0 ≤ i ∧ i < (scenario.getD t []).length
  thread_order : ord.Pairwise (fun e1 e2 => e1.1 = e2.1 → e1.2 < e2.2)

/-- The list `ord` is a total order of all actions of the scenario (every position occurs
exactly once) that preserves each thread's own order. -/
structure is_total_order (scenario : List (List thread_action)) (ord : List (Nat × Nat)) :
    Prop where
  nodup : ord.Nodup
  all : ∀ t i, (t, i) ∈ ord ↔ i < (scenario.getD t []).length
  thread_order : ord.Pairwise (fun e1 e2 => e1.1 = e2.1 → e1.2 < e2.2)

/-- Some total order of all actions preserves each thread's order and replays, against a
fresh reference queue, to the recorded results. -/
def linearizable (scenario : List (List thread_action)) : Prop :=
  ∃ ord, is_total_order scenario ord ∧ replay scenario { q := [] } ord

/-- The search tree of the validator, as a relation: from the cursors and the reference
queue, either no thread has an action left, or some thread's next action matches and the
search succeeds after it. -/
inductive search_ok (scenario : List (List thread_action)) : List Nat → seq_queue → Prop
  | done (cursors : List Nat) (q : seq_queue)
      (h : ∀ t, t < scenario.length → (scenario.getD t []).length ≤ cursors.getD t 0) :
      search_ok scenario cursors q
  | step (cursors : List Nat) (q : seq_queue) (t : Nat) (a : thread_action)
      (ht : t < scenario.length)
      (ha : (scenario.getD t [])[cursors.getD t 0]? = some a)
      (hr : (a.action.call q).2 = a.result)
      (hrest : search_ok scenario (cursors.set t (cursors.getD t 0 + 1)) (a.action.call q).1) :
      search_ok scenario cursors q

/-- The scenario of two threads: thread A pushes 1 then 2, thread B pops twice with the
recorded results `r1`, `r2`. -/
def scenario_AB (r1 r2 : Option Int) : List (List thread_action) :=
  [[{ action := .push_fn 1, result := .monostate, value := 1 },
    { action := .push_fn 2, result := .monostate, value := 2 }],
   [{ action := .pop_fn, result := .optional r1, value := 0 },
    { action := .pop_fn, result := .optional r2, value := 0 }]]

/-- The value pushed by the action at a position, if that action is a push. -/
def pushed_value (scenario : List (List thread_action)) (e : Nat × Nat) : Option Int :=
  match action_at scenario e with
  | some x =>
    match x.action with
    | .push_fn v => some v
    | .pop_fn => none
  | none => none

/-- The value recorded as returned by the action at a position, if that action is a pop
recorded with a value. -/
def popped_value (scenario : List (List thread_action)) (e : Nat × Nat) : Option Int :=
  match action_at scenario e with
  | some x =>
    match x.action, x.result with
    | .pop_fn, .optional (some v) => some v
    | _, _ => none
  | none => none

/-! ## Threads running `push` and `pop` concurrently

Each thread is at a program point of `push` or `pop`, holding its local variables.  One step
of a thread is one access to shared memory (a load, a compare-exchange, an exchange, a `new`
or a `delete`) together with the local computation that follows it up to the next access.
The atomics use the default sequentially consistent order, so an execution is an
interleaving of such steps. -/

/-- The program point of a thread and its local variables. -/
inductive thread where
  /-- Not inside a call, none made yet. -/
  | idle
  /-- The last call returned `r` (`monostate` for a `push`, as in the test's closures). -/
  | returned (r : thread_action_r)
  /-- The thread has run into undefined behaviour (access through an invalid pointer). -/
  | crashed
  /-- In `push(value)`, before `new node(value_holder)` (line 26). -/
  | push_new (value : Int)
  /-- Before `tail.load()` (line 27). -/
  | push_load_tail (new_node : Option Nat)
  /-- Before `cur_tail->next_.load()` (line 29). -/
  | push_load_next (new_node cur_tail : Option Nat)
  /-- Before `tail.compare_exchange_strong(cur_tail, cur_tail_next)` (line 31). -/
  | push_swing_stale (new_node cur_tail cur_tail_next : Option Nat)
  /-- Before `cur_tail->cas_next(new_node)` (line 32). -/
  | push_cas_next (new_node cur_tail : Option Nat)
  /-- Before `tail.compare_exchange_strong(cur_tail, new_node)` (line 33). -/
  | push_swing_new (new_node cur_tail : Option Nat)
  /-- In `pop()`, before `head.load()` (line 45). -/
  | pop_load_head
  /-- Before `tail.load()` (line 46). -/
  | pop_load_tail (cur_head : Option Nat)
  /-- Before `cur_head->next_.load()` (line 47). -/
  | pop_load_next (cur_head cur_tail : Option Nat)
  /-- Before `tail.compare_exchange_strong(cur_tail, cur_head_next)` (line 50). -/
  | pop_help (cur_tail cur_head_next : Option Nat)
  /-- Before `head.compare_exchange_strong(cur_head, cur_head_next)` (line 54). -/
  | pop_cas_head (cur_head cur_head_next : Option Nat)
  /-- Before `cur_head_next->value_.exchange(nullptr)` (line 55). -/
  | pop_exchange (cur_head cur_head_next : Option Nat)
  /-- Before `delete cur_head` (line 57), holding `res`. -/
  | pop_delete (cur_head : Option Nat) (res : Int)
deriving DecidableEq, Repr

/-- The next step of a thread inside a call: the shared state and the thread afterwards.
A thread that is not inside a call has no step. -/
def thread_step (q : ms_queue) : thread → Option (ms_queue × thread)
  | .idle => none
  | .returned _ => none
  | .crashed => none
  | .push_new value =>
    let r := new_node q.mem (some value)
    some ({ q with mem := r.1 }, .push_load_tail r.2)
  | .push_load_tail new_node => some (q, .push_load_next new_node q.tail)
  | .push_load_next new_node cur_tail =>
    match load_next q.mem cur_tail with
    | none => some (q, .crashed)
    | some cur_tail_next =>
      if cur_tail_next ≠ none then some (q, .push_swing_stale new_node cur_tail cur_tail_next)
      else some (q, .push_cas_next new_node cur_tail)
  | .push_swing_stale new_node cur_tail cur_tail_next =>
    let r := compare_exchange_strong q.tail cur_tail cur_tail_next
    some ({ q with tail := r.1 }, .push_load_next new_node r.2.1)
  | .push_cas_next new_node cur_tail =>
    match cas_next q.mem cur_tail new_node with
    | none => some (q, .crashed)
    | some (mem', true) => some ({ q with mem := mem' }, .push_swing_new new_node cur_tail)
    | some (mem', false) => some ({ q with mem := mem' }, .push_load_next new_node cur_tail)
  | .push_swing_new new_node cur_tail =>
    let r := compare_exchange_strong q.tail cur_tail new_node
    some ({ q with tail := r.1 }, .returned .monostate)
  | .pop_load_head => some (q, .pop_load_tail q.head)
  | .pop_load_tail cur_head => some (q, .pop_load_next cur_head q.tail)
  | .pop_load_next cur_head cur_tail =>
    match load_next q.mem cur_head with
    | none => some (q, .crashed)
    | some cur_head_next =>
      if cur_head = cur_tail then
        if cur_head_next ≠ none then some (q, .pop_help cur_tail cur_head_next)
        else some (q, .returned (.optional none))
      else some (q, .pop_cas_head cur_head cur_head_next)
  | .pop_help cur_tail cur_head_next =>
    let r := compare_exchange_strong q.tail cur_tail cur_head_next
    some ({ q with tail := r.1 }, .returned (.optional none))
  | .pop_cas_head cur_head cur_head_next =>
    let r := compare_exchange_strong q.head cur_head cur_head_next
    if r.2.2 then some ({ q with head := r.1 }, .pop_exchange cur_head cur_head_next)
    else some ({ q with head := r.1 }, .pop_load_head)
  | .pop_exchange cur_head cur_head_next =>
    match exchange_value q.mem cur_head_next with
    | none => some (q, .crashed)
    | some (mem1, none) => some ({ q with mem := mem1 }, .crashed)
    | some (mem1, some res) => some ({ q with mem := mem1 }, .pop_delete cur_head res)
  | .pop_delete cur_head res =>
    match delete_node q.mem cur_head with
    | none => some (q, .crashed)
    | some mem2 => some ({ q with mem := mem2 }, .returned (.optional (some res)))

/-- The queue shared by the threads, and the threads. -/
structure system where
  q : ms_queue
  threads : List thread
deriving DecidableEq, Repr

/-- A fresh queue and `n` threads that have not called anything yet. -/
def system.init (n : Nat) : system :=
  { q := ms_queue.new, threads := List.replicate n .idle }

/-- What the scheduler can do: let thread `t` enter a call, or let it make its next step. -/
inductive event where
  | call (t : Nat) (o : op)
  | step (t : Nat)
deriving DecidableEq, Repr

/-- The first program point of a call. -/
def op.enter : op → thread
  | .push v => .push_new v
  | .pop => .pop_load_head

/-- The effect of an event, when it is enabled. -/
def system.next (s : system) : event → Option system
  | .call t o =>
    match s.threads[t]? with
    | some .idle => some { s with threads := s.threads.set t o.enter }
    | some (.returned _) => some { s with threads := s.threads.set t o.enter }
    | _ => none
  | .step t =>
    match s.threads[t]? with
    | none => none
    | some l =>
      match thread_step s.q l with
      | none => none
      | some (q', l') => some { q := q', threads := s.threads.set t l' }

/-- Run a schedule. -/
def system.run : system → List event → Option system
  | s, [] => some s
  | s, e :: es =>
    match s.next e with
    | none => none
    | some s' => s'.run es

/-- The states reachable from a fresh queue shared by `n` threads. -/
def reachable (n : Nat) (s : system) : Prop :=
  ∃ es, (system.init n).run es = some s

/-- Following `next_` pointers of live nodes from `p` leads to `p'`. -/
inductive reaches (mem : List cell) : Option Nat → Option Nat → Prop
  | here (p : Option Nat) : reaches mem p p
  | next (p p1 p' : Option Nat) (h : load_next mem p = some p1) (hr : reaches mem p1 p') :
      reaches mem p p'

/-- The node at `tail` is the last node of the list. -/
def tail_is_last (q : ms_queue) : Prop :=
  load_next q.mem q.tail = some none

/-- The node at `tail` is reachable from `head` and is the last node of the list or the
node immediately before the last. -/
def tail_ok (q : ms_queue) : Prop :=
  reaches q.mem q.head q.tail ∧
  (load_next q.mem q.tail = some none ∨
    ∃ n, load_next q.mem q.tail = some (some n) ∧ load_next q.mem (some n) = some none)

/-- Schedule: thread 0 enters `push(1)` and reads `tail`; thread 1 runs `push(2)` and then
`pop()` to the end, which deletes the node thread 0 has read; thread 0 makes its next step,
the load `cur_tail->next_`. -/
def schedule_uaf : List event :=
  [.call 0 (.push 1), .step 0, .step 0,
   .call 1 (.push 2), .step 1, .step 1, .step 1, .step 1, .step 1,
   .call 1 .pop, .step 1, .step 1, .step 1, .step 1, .step 1, .step 1,
   .step 0]

/-- Schedule: thread 0 completes `push(1)`; thread 1 runs `push(2)` until its node is linked
but `tail` not yet advanced. -/
def schedule_lag : List event :=
  [.call 0 (.push 1), .step 0, .step 0, .step 0, .step 0, .step 0,
   .call 1 (.push 2), .step 1, .step 1, .step 1, .step 1]

/-! ## The invariant of concurrent executions -/

/-- The `next_` field stored at address `a`, deleted or not. -/
def nxt (mem : List cell) (a : Nat) : Option (Option Nat) :=
  (mem[a]?).map (fun c => c.obj.next_)

/-- The `value_` field stored at address `a`, deleted or not. -/
def val (mem : List cell) (a : Nat) : Option (Option Int) :=
  (mem[a]?).map (fun c => c.obj.value_)

/-- The node at address `a` is allocated and not deleted. -/
def alive (mem : List cell) (a : Nat) : Prop :=
  (mem[a]?).map (fun c => c.live) = some true

/-- The shape of the shared state: `chain` lists every node ever linked, from the first
dummy on; `head` is the node at index `h` and `tail` the node at index `t` of the chain. -/
structure shape (q : ms_queue) (chain : List Nat) (h t : Nat) : Prop where
  nodup : chain.Nodup
  link : ∀ k a b, chain[k]? = some a → chain[k + 1]? = some b → nxt q.mem a = some (some b)
  last : ∀ a, chain[chain.length - 1]? = some a → nxt q.mem a = some none
  head_eq : q.head = chain[h]?
  tail_eq : q.tail = chain[t]?
  h_le_t : h ≤ t
  t_lt : t < chain.length
  lag : chain.length ≤ t + 2
  unlinked : ∀ a, a < q.mem.length → a ∉ chain →
    nxt q.mem a = some none ∧ alive q.mem a ∧ ∃ v, val q.mem a = some (some v)
  live : ∀ k a, h ≤ k → chain[k]? = some a → alive q.mem a
  vals : ∀ k a, h < k → chain[k]? = some a → ∃ v, val q.mem a = some (some v)
  bound : ∀ a ∈ chain, a < q.mem.length

/-- The node a thread has allocated and not yet linked. -/
def thread.fresh : thread → Option Nat
  | .push_load_tail new_node => new_node
  | .push_load_next new_node _ => new_node
  | .push_swing_stale new_node _ _ => new_node
  | .push_cas_next new_node _ => new_node
  | _ => none

/-- The pointer `p` is an allocated node that is not linked. -/
def is_fresh (chain : List Nat) (n : Nat) (p : Option Nat) : Prop :=
  ∃ a, p = some a ∧ a < n ∧ a ∉ chain

/-- What the local variables of a thread satisfy, for a chain, the indexes of `head` and
`tail` in it, and the number `n` of allocated cells. -/
def thread.ok (chain : List Nat) (h t n : Nat) : thread → Prop
  | .idle => True
  | .returned _ => True
  | .crashed => True
  | .push_new _ => True
  | .push_load_tail new_node => is_fresh chain n new_node
  | .push_load_next new_node cur_tail =>
    is_fresh chain n new_node ∧ ∃ i, i ≤ t ∧ i < chain.length ∧ cur_tail = chain[i]?
  | .push_swing_stale new_node cur_tail cur_tail_next =>
    is_fresh chain n new_node ∧
      ∃ i, i ≤ t ∧ i + 1 < chain.length ∧ cur_tail = chain[i]? ∧ cur_tail_next = chain[i + 1]?
  | .push_cas_next new_node cur_tail =>
    is_fresh chain n new_node ∧ ∃ i, i ≤ t ∧ i < chain.length ∧ cur_tail = chain[i]?
  | .push_swing_new new_node cur_tail =>
    ∃ i, i ≤ t ∧ i + 1 < chain.length ∧ cur_tail = chain[i]? ∧ new_node = chain[i + 1]?
  | .pop_load_head => True
  | .pop_load_tail cur_head => ∃ i, i ≤ h ∧ i < chain.length ∧ cur_head = chain[i]?
  | .pop_load_next cur_head cur_tail =>
    ∃ i j, i ≤ h ∧ i ≤ j ∧ j ≤ t ∧ j < chain.length ∧ cur_head = chain[i]? ∧
      cur_tail = chain[j]?
  | .pop_help cur_tail cur_head_next =>
    ∃ j, j ≤ t ∧ j + 1 < chain.length ∧ cur_tail = chain[j]? ∧ cur_head_next = chain[j + 1]?
  | .pop_cas_head cur_head cur_head_next =>
    ∃ i, i ≤ h ∧ i < t ∧ i + 1 < chain.length ∧ cur_head = chain[i]? ∧
      cur_head_next = chain[i + 1]?
  | .pop_exchange cur_head cur_head_next =>
    ∃ i, i < h ∧ i + 1 < chain.length ∧ cur_head = chain[i]? ∧ cur_head_next = chain[i + 1]?
  | .pop_delete cur_head _ => ∃ i, i < h ∧ i < chain.length ∧ cur_head = chain[i]?

/-- The invariant of the system: the shape of the shared state, the local variables of
every thread, and no two threads holding the same unlinked node. -/
structure system.inv (s : system) (chain : List Nat) (h t : Nat) : Prop where
  shape : shape s.q chain h t
  locals : ∀ (i : Nat) (l : thread), s.threads[i]? = some l →
    l.ok chain h t s.q.mem.length
  distinct : ∀ (i j : Nat) (li lj : thread) (a : Nat), i ≠ j →
    s.threads[i]? = some li → s.threads[j]? = some lj →
    li.fresh = some a → lj.fresh ≠ some a

/-- The nodes a step appends to the chain, the node the thread holds afterwards, and the
growth of the indexes, as a step of a thread in the invariant allows them. -/
structure step_frame (q q' : ms_queue) (l l' : thread) (chain chain' : List Nat)
    (h t h' t' : Nat) : Prop where
  shape : shape q' chain' h' t'
  ok : l'.ok chain' h' t' q'.mem.length
  h_le : h ≤ h'
  t_le : t ≤ t'
  n_le : q.mem.length ≤ q'.mem.length
  ext : chain' = chain ∨ ∃ a, l.fresh = some a ∧ chain' = chain ++ [a]
  fresh : l'.fresh = none ∨ l'.fresh = l.fresh ∨
    (l'.fresh = some q.mem.length ∧ q.mem.length < q'.mem.length)
/-- The state reached by `schedule_lag`: the node of `push(2)` is linked behind the node
`tail` points at. -/
def state_lag : system :=
  { q := { mem := [{ obj := { value_ := none, next_ := some 1 }, live := true },
                   { obj := { value_ := some 1, next_ := some 2 }, live := true },
                   { obj := { value_ := some 2, next_ := none }, live := true }],
           head := some 0, tail := some 1 },
    threads := [.returned .monostate, .push_swing_new (some 2) (some 1)] }

/-- The queue after a `pop()` run alone from `state_lag`. -/
def queue_lag_popped : ms_queue :=
  { mem := [{ obj := { value_ := none, next_ := some 1 }, live := false },
            { obj := { value_ := none, next_ := some 2 }, live := true },
            { obj := { value_ := some 2, next_ := none }, live := true }],
    head := some 1, tail := some 1 }

/-- The state reached by `schedule_uaf` before its last step, with a third thread that has
not started: thread 0 holds in `cur_tail` the address 0 of a node that has been deleted. -/
def state_uaf : system :=
  { q := { mem := [{ obj := { value_ := none, next_ := some 2 }, live := false },
                   { obj := { value_ := some 1, next_ := none }, live := true },
                   { obj := { value_ := none, next_ := none }, live := true }],
           head := some 2, tail := some 2 },
    threads := [.push_load_next (some 1) (some 0), .returned (.optional (some 2)), .idle] }

/-- Let one thread make `k` steps in a row, no other thread stepping in between. -/
def solo : Nat → ms_queue → thread → Option (ms_queue × thread)
  | 0, q, l => some (q, l)
  | k + 1, q, l =>
    match thread_step q l with
    | none => none
    | some (q', l') => solo k q' l'

/-- The `value_` slots of the nodes from `p` on, following `next_` through live nodes up to
the null pointer; `n` bounds the number of nodes visited. -/
def slots_from (mem : List cell) : Nat → Option Nat → Option (List (Option Int))
  | _, none => some []
  | 0, some _ => none
  | n + 1, some a =>
    match deref mem (some a) with
    | none => none
    | some nd => (slots_from mem n nd.next_).map (fun r => nd.value_ :: r)

/-! ## The test body, with the calls of the threads executing one at a time -/

/-- The `conq_queue<int>` of the test: an `ms_queue<int>` behind the `abstract_queue`
interface. -/
structure conq_queue where
  q : ms_queue
deriving DecidableEq, Repr

/-- Method `conq_queue::push`. -/
def conq_queue.push (fuel : Nat) (c : conq_queue) (value : Int) : Except failure conq_queue :=
  match MSQueue.push fuel c.q value with
  | .ok q' => .ok { q := q' }
  | .error e => .error e

/-- Method `conq_queue::pop`. -/
def conq_queue.pop (fuel : Nat) (c : conq_queue) : Except failure (conq_queue × Option Int) :=
  match MSQueue.pop fuel c.q with
  | .ok (q', r) => .ok ({ q := q' }, r)
  | .error e => .error e

/-- Calling the closure of an action on a `conq_queue`: the queue afterwards and the
returned variant. -/
def action_fn.call_conq (fuel : Nat) :
    action_fn → conq_queue → Except failure (conq_queue × thread_action_r)
  | .push_fn val, c =>
    match c.push fuel val with
    | .ok c' => .ok (c', .monostate)
    | .error e => .error e
  | .pop_fn, c =>
    match c.pop fuel with
    | .ok (c', r) => .ok (c', .optional r)
    | .error e => .error e

/-- Method `thread_action::set_result`: `result = action(res)`. -/
def thread_action.set_result (fuel : Nat) (a : thread_action) (res : conq_queue) :
    Except failure (thread_action × conq_queue) :=
  match a.action.call_conq fuel res with
  | .ok (res', r) => .ok ({ a with result := r }, res')
  | .error e => .error e

/-- The scenario with the action at position `e` replaced. -/
def set_action (scenario : List (List thread_action)) (e : Nat × Nat) (a : thread_action) :
    List (List thread_action) :=
  scenario.set e.1 ((scenario.getD e.1 []).set e.2 a)

/-- One invocation of the test body (lines 168-182) when the calls `action.set_result(conq)`
of the threads execute one at a time, in the order `ord` of positions: the annotated
scenario and the queue at the end. -/
def harness_run (fuel : Nat) :
    List (List thread_action) → conq_queue → List (Nat × Nat) →
      Except failure (List (List thread_action) × conq_queue)
  | scenario, conq, [] => .ok (scenario, conq)
  | scenario, conq, e :: rest =>
    match action_at scenario e with
    | none => .error .invalid_access
    | some a =>
      match a.set_result fuel conq with
      | .error err => .error err
      | .ok (a', conq') => harness_run fuel (set_action scenario e a') conq' rest

/-! ## The scenario generator of `sc_test.cpp`

The generator `std::mt19937 rnd` is library code.  A generator is a state of a type `G`
together with a function `next` giving, for a state, the number returned by `rnd()` and the
state afterwards. -/

/-- The constant `ACTIONS_PER_THREAD`. -/
def ACTIONS_PER_THREAD : Nat := 4

/-- The constant `THREADS_COUNT`. -/
def THREADS_COUNT : Nat := 3

/-- The inner loop of `generate_scenario` (lines 96-112): `n` iterations appending to
`thread_scenario`. -/
def generate_thread {G : Type} (next : G → Nat × G) :
    Nat → G → List thread_action → List thread_action × G
  | 0, g, thread_scenario => (thread_scenario, g)
  | n + 1, g, thread_scenario =>
    let r1 := next g
    let val : Int := ((r1.1 % 10 : Nat) : Int)
    let r2 := next r1.2
    match r2.1 % 2 with
    | 0 =>
      generate_thread next n r2.2
        (thread_scenario ++ [{ action := .push_fn val, result := .monostate, value := val }])
    | 1 =>
      generate_thread next n r2.2
        (thread_scenario ++ [{ action := .pop_fn, result := .monostate, value := val }])
    | _ + 2 => generate_thread next n r2.2 thread_scenario

/-- The outer loop of `generate_scenario` (lines 93-114): `n` iterations appending to
`scenario`. -/
def generate_threads {G : Type} (next : G → Nat × G) :
    Nat → G → List (List thread_action) → List (List thread_action) × G
  | 0, g, scenario => (scenario, g)
  | n + 1, g, scenario =>
    let r := generate_thread next ACTIONS_PER_THREAD g []
    generate_threads next n r.2 (scenario ++ [r.1])

/-- Function `generate_scenario()`: the scenario and the generator state afterwards. -/
def generate_scenario {G : Type} (next : G → Nat × G) (g : G) :
    List (List thread_action) × G :=
  generate_threads next THREADS_COUNT g []

/-- The generator state after `n` calls of `rnd()`. -/
def advance {G : Type} (next : G → Nat × G) : Nat → G → G
  | 0, g => g
  | n + 1, g => advance next n (next g).2

/-- The numbers returned by the next `n` calls of `rnd()`. -/
def draws {G : Type} (next : G → Nat × G) : Nat → G → List Nat
  | 0, _ => []
  | n + 1, g => (next g).1 :: draws next n (next g).2

/-- What `generate_scenario` yields for every action: an unset result, and either the pop
closure or the push closure of a value in 0..9. -/
def generated_action (a : thread_action) : Prop :=
  a.result = .monostate ∧
    (a.action = .pop_fn ∨ ∃ v : Int, a.action = .push_fn v ∧ 0 ≤ v ∧ v ≤ 9)

/-- A generator for examples: the state is a counter `g`, `rnd()` returns `7 * g + 3`. -/
def counter_next (g : Nat) : Nat × Nat := (7 * g + 3, g + 1)

/-- A generator for examples: the state is the list of numbers still to be returned. -/
def list_next (l : List Nat) : Nat × List Nat := (l.headD 0, l.tail)

/-! # Theorems -/

/-! ## One thread: the reachable states -/

theorem canon_mem_length (m : Nat) (xs : List (Option Int)) :
    (canon_mem m xs).length = m + xs.length := by
  simp [canon_mem]

theorem canon_mem_get (m : Nat) (xs : List (Option Int)) (i : Nat) :
    (canon_mem m xs)[i]? = if i < m + xs.length then some (canon_cell m xs i) else none := by
  simp only [canon_mem, List.getElem?_map, List.getElem?_range]
  by_cases h : i < m + xs.length
  · simp [h, List.getElem?_range]
  · simp [h, List.getElem?_eq_none (l := List.range (m + xs.length)) (by simpa using h)]

theorem new_eq_canon : ms_queue.new = canon 0 [] := by decide

theorem canon_cell_tail (m : Nat) (xs : List (Option Int)) (h : xs ≠ []) :
    canon_cell m xs (m + xs.length - 1) =
      { obj := { value_ := xs[xs.length - 1]?.getD none, next_ := none }, live := true } := by
  have hl : 0 < xs.length := List.length_pos.mpr h
  have h1 : ¬ (m + xs.length - 1 < m) := by omega
  have h2 : ¬ (m + xs.length - 1 + 1 < m + xs.length) := by omega
  have h3 : m + xs.length - 1 - m = xs.length - 1 := by omega
  simp only [canon_cell, h1, h2, h3, if_false, List.getD_eq_getElem?_getD]

theorem canon_mem_push (m : Nat) (xs : List (Option Int)) (h : xs ≠ []) (y : Option Int) :
    store (canon_mem m xs ++ [{ obj := { value_ := y, next_ := none }, live := true }])
        (m + xs.length - 1)
        { value_ := xs[xs.length - 1]?.getD none, next_ := some (m + xs.length) }
      = canon_mem m (xs ++ [y]) := by
  have hl : 0 < xs.length := List.length_pos.mpr h
  apply List.ext_getElem?
  intro i
  simp only [store, List.getElem?_set, canon_mem_get, List.getElem?_append, canon_mem_length,
    List.length_append, List.length_singleton, canon_cell, List.getD_eq_getElem?_getD]
  by_cases h1 : m + xs.length - 1 = i
  · subst h1
    have h2 : ¬ (m + xs.length - 1 < m) := by omega
    have h3 : m + xs.length - 1 - m = xs.length - 1 := by omega
    have h4 : m + xs.length - 1 + 1 = m + xs.length := by omega
    have h5 : m + xs.length - 1 < m + xs.length + 1 := by omega
    have h6 : m + xs.length - 1 < m + (xs.length + 1) := by omega
    have h7 : m + xs.length < m + (xs.length + 1) := by omega
    have h8 : xs.length - 1 < xs.length := by omega
    simp only [h2, h3, h4, h5, h6, h7, h8, if_true, if_false]
  · by_cases h2 : i < m + xs.length
    · have h3 : i < m + (xs.length + 1) := by omega
      simp only [h1, h2, h3, if_true, if_false]
      by_cases h4 : i < m
      · simp only [h4, if_true]
      · have h5 : i - m < xs.length := by omega
        have h6 : i + 1 < m + xs.length := by omega
        have h7 : i + 1 < m + (xs.length + 1) := by omega
        simp only [h4, h6, h7, h5, if_true, if_false]
    · by_cases h3 : i = m + xs.length
      · subst h3
        have h4 : ¬ (m + xs.length < m) := by omega
        have h5 : ¬ (m + xs.length + 1 < m + (xs.length + 1)) := by omega
        have h6 : m + xs.length < m + (xs.length + 1) := by omega
        have h7 : ¬ (m + xs.length - m < xs.length) := by omega
        have h8 : m + xs.length - m - xs.length = 0 := by omega
        simp [h1, h2, h4, h5, h6, h7, h8]
      · have h4 : ¬ i < m + (xs.length + 1) := by omega
        have h5 : ¬ i - (m + xs.length) = 0 := by omega
        have h6 : (1 : Nat) ≤ i - (m + xs.length) := by omega
        simp [h1, h2, h4, h5, h6]

theorem push_canon (fuel m : Nat) (vs : List Int) (v : Int) :
    push (fuel + 1) (canon m vs) v = .ok (canon m (vs ++ [v])) := by
  have hx : (none :: vs.map some : List (Option Int)) ≠ [] := by simp
  have hm := canon_mem_push m (none :: vs.map some) hx (some v)
  have hc := canon_cell_tail m (none :: vs.map some) hx
  simp only [List.length_cons, List.length_map, Nat.add_sub_cancel] at hm hc
  have hidx : m + (vs.length + 1) - 1 = m + vs.length := by omega
  rw [hidx] at hm hc
  have hd : deref (canon_mem m (none :: vs.map some) ++
      [{ obj := { value_ := some v, next_ := none }, live := true }]) (some (m + vs.length))
      = some { value_ := (none :: vs.map some : List (Option Int))[vs.length]?.getD none,
               next_ := none } := by
    have hlt : m + vs.length < (canon_mem m (none :: vs.map some)).length := by
      simp [canon_mem_length]
    simp only [deref, List.getElem?_append_left hlt, canon_mem_get, hc]
    simp
  simp only [push, push_with, new_node, canon, push_loop, load_next, hd, cas_next,
    compare_exchange_strong, canon_mem_length, List.length_cons, List.length_map,
    Option.map_some', ne_eq, not_true_eq_false, if_false, if_true, hm, List.map_append,
    List.map_cons, List.map_nil, List.cons_append, List.length_append, List.length_singleton,
    List.length_nil, Nat.add_assoc]

theorem pop_canon_nil (fuel m : Nat) :
    pop (fuel + 1) (canon m []) = .ok (canon m [], none) := by
  have hd : deref (canon_mem m [none]) (some m) = some { value_ := none, next_ := none } := by
    simp [deref, canon_mem_get, canon_cell]
  simp [pop, pop_loop, canon, load_next, hd]

theorem canon_mem_pop (m : Nat) (y : Option Int) (xs : List (Option Int)) (nx : Option Nat)
    (hnx : nx = if 0 < xs.length then some (m + 2) else none) :
    ((canon_mem m (none :: y :: xs)).set (m + 1)
        { obj := { value_ := none, next_ := nx }, live := true }).set m
        { obj := { value_ := none, next_ := some (m + 1) }, live := false }
      = canon_mem (m + 1) (none :: xs) := by
  subst hnx
  apply List.ext_getElem?
  intro i
  simp only [List.getElem?_set, canon_mem_get, List.length_set, canon_mem_length,
    List.length_cons, canon_cell, List.getD_eq_getElem?_getD]
  by_cases h1 : m = i
  · subst h1
    have h2 : m < m + (xs.length + 1 + 1) := by omega
    have h3 : m < m + 1 + (xs.length + 1) := by omega
    simp [h2, h3]
  · by_cases h2 : m + 1 = i
    · subst h2
      have h3 : (m + 1 + 1 < m + 1 + (xs.length + 1)) ↔ 0 < xs.length := by omega
      simp [h3]
    · by_cases h3 : i < m
      · have h4 : i < m + 1 := by omega
        have h5 : i < m + (xs.length + 1 + 1) := by omega
        have h6 : i < m + 1 + (xs.length + 1) := by omega
        simp [h1, h2, h3, h4, h5, h6]
      · have h4 : ¬ i < m + 1 := by omega
        have h7 : i - m = (i - (m + 1)) + 1 := by omega
        have h8 : i - (m + 1) = (i - (m + 1) - 1) + 1 := by omega
        by_cases h5 : i < m + (xs.length + 1 + 1)
        · have h6 : i < m + 1 + (xs.length + 1) := by omega
          simp only [h1, h2, h3, h4, h5, h6, if_true, if_false]
          rw [h7, List.getElem?_cons_succ, h8, List.getElem?_cons_succ, List.getElem?_cons_succ]
          have h9 : (i + 1 < m + (xs.length + 1 + 1)) ↔ (i + 1 < m + 1 + (xs.length + 1)) := by
            omega
          simp only [h9]
        · have h6 : ¬ i < m + 1 + (xs.length + 1) := by omega
          simp [h1, h2, h5, h6]

theorem pop_canon_cons (fuel m : Nat) (v : Int) (vs : List Int) :
    pop (fuel + 1) (canon m (v :: vs)) = .ok (canon (m + 1) vs, some v) := by
  have hd : deref (canon_mem m (none :: some v :: vs.map some)) (some m)
      = some { value_ := none, next_ := some (m + 1) } := by
    simp [deref, canon_mem_get, canon_cell]
  have hd1 : deref (canon_mem m (none :: some v :: vs.map some)) (some (m + 1))
      = some { value_ := some v,
               next_ := if m + 1 + 1 < m + (vs.length + 1 + 1) then some (m + 1 + 1)
                        else none } := by
    simp [deref, canon_mem_get, canon_cell]
  have hne : ¬ (m = m + (vs.length + 1)) := by omega
  simp [pop, pop_loop, canon, load_next, hd, hne, compare_exchange_strong, exchange_value,
    hd1, store, delete_node]
  have hg : (canon_mem m (none :: some v :: vs.map some))[m]?
      = some { obj := { value_ := none, next_ := some (m + 1) }, live := true } := by
    simp [canon_mem_get, canon_cell]
  simp only [hg]
  simp only [Nat.add_assoc, Nat.add_comm 1 vs.length]
  rw [canon_mem_pop m (some v) (vs.map some) _ (by simp)]
  simp

theorem run_seq_pushed (ops : List op) (s : seq_queue) :
    s.q ++ pushed ops = (run_seq s ops).2.filterMap id ++ (run_seq s ops).1.q := by
  induction ops generalizing s with
  | nil => simp [pushed, run_seq]
  | cons o rest ih =>
    cases o with
    | push v =>
      have := ih (s.push v)
      simp only [seq_queue.push, List.append_assoc, List.singleton_append] at this
      simpa [pushed, run_seq] using this
    | pop =>
      cases hq : s.q with
      | nil =>
        have := ih s
        simp [pushed, run_seq, seq_queue.pop, hq] at this ⊢
        exact this
      | cons x xs =>
        have := ih { q := xs }
        simp [pushed, run_seq, seq_queue.pop, hq] at this ⊢
        exact this

theorem run_ms_canon (fuel : Nat) (ops : List op) (m : Nat) (vs : List Int) :
    ∃ m', run_ms (fuel + 1) (canon m vs) ops
      = .ok (canon m' (run_seq { q := vs } ops).1.q, (run_seq { q := vs } ops).2) := by
  induction ops generalizing m vs with
  | nil => exact ⟨m, rfl⟩
  | cons o rest ih =>
    cases o with
    | push v =>
      obtain ⟨m', h⟩ := ih m (vs ++ [v])
      exact ⟨m', by simp [run_ms, push_canon, run_seq, seq_queue.push, h]⟩
    | pop =>
      cases vs with
      | nil =>
        obtain ⟨m', h⟩ := ih m []
        exact ⟨m', by simp [run_ms, pop_canon_nil, run_seq, seq_queue.pop, h]⟩
      | cons x xs =>
        obtain ⟨m', h⟩ := ih (m + 1) xs
        exact ⟨m', by simp [run_ms, pop_canon_cons, run_seq, seq_queue.pop, h]⟩

theorem drain_canon (fuel k m : Nat) (vs : List Int) :
    drain (fuel + 1) (vs.length + 1 + k) (canon m vs) = .ok (canon (m + vs.length) [], vs) := by
  induction vs generalizing m with
  | nil =>
    have e : ([] : List Int).length + 1 + k = k + 1 := by simp; omega
    rw [e]
    simp [drain, pop_canon_nil]
  | cons x xs ih =>
    have h := ih (m + 1)
    have e : (x :: xs).length + 1 + k = (xs.length + 1 + k) + 1 := by simp; omega
    rw [e]
    simp only [drain, pop_canon_cons, h]
    simp [Nat.add_assoc, Nat.add_comm 1 xs.length]

theorem run_seq_append (a b : List op) (s : seq_queue) :
    run_seq s (a ++ b)
      = ((run_seq (run_seq s a).1 b).1, (run_seq s a).2 ++ (run_seq (run_seq s a).1 b).2) := by
  induction a generalizing s with
  | nil => simp [run_seq]
  | cons o rest ih =>
    cases o with
    | push v => simp [run_seq, ih]
    | pop => simp [run_seq, ih]

theorem run_seq_pushes (vs : List Int) (s : seq_queue) :
    run_seq s (vs.map op.push) = ({ q := s.q ++ vs }, []) := by
  induction vs generalizing s with
  | nil => simp [run_seq]
  | cons v rest ih => simp [run_seq, ih, seq_queue.push]

theorem run_seq_pops_empty (k : Nat) :
    run_seq { q := [] } (List.replicate k op.pop) = ({ q := [] }, List.replicate k none) := by
  induction k with
  | zero => simp [run_seq]
  | succ k ih => simp [List.replicate_succ, run_seq, seq_queue.pop, ih]

theorem run_seq_pops (vs rest : List Int) :
    run_seq { q := vs ++ rest } (List.replicate vs.length op.pop)
      = ({ q := rest }, vs.map some) := by
  induction vs with
  | nil => simp [run_seq]
  | cons v vs ih => simp [List.replicate_succ, run_seq, seq_queue.pop, ih]

/-! ## Claims about one thread -/

/-- C1: for every sequence of `push(v)` and `pop()` calls made one after another on a fresh
`ms_queue`, every call returns and each `pop` returns what the same call returns when the
sequence is applied to a fresh `seq_queue`; a `seq_queue::pop` returns the oldest value
present, or nothing when the reference queue is empty. -/
theorem ms_queue_refines_seq_queue (fuel : Nat) (ops : List op) :
    (∃ q', run_ms (fuel + 1) ms_queue.new ops = .ok (q', (run_seq { q := [] } ops).2)) ∧
    (∀ s : seq_queue, s.pop.2 = s.q.head?) := by
  refine ⟨?_, ?_⟩
  · obtain ⟨m', h⟩ := run_ms_canon fuel ops 0 []
    exact ⟨_, by rw [new_eq_canon]; exact h⟩
  · intro s
    cases hq : s.q <;> simp [seq_queue.pop, hq]

/-- C4: for every single-threaded sequence of calls on a fresh `ms_queue`, the values
returned by the successful pops, followed by the values obtained by then calling `pop`
until it returns nothing, are exactly the pushed values in push order; the number of
successful pops is at most the number of pushes. -/
theorem pops_then_drain_eq_pushed (fuel k : Nat) (ops : List op) :
    ∃ q1 rs q2 ds,
      run_ms (fuel + 1) ms_queue.new ops = .ok (q1, rs) ∧
      drain (fuel + 1) ((pushed ops).length + 1 + k) q1 = .ok (q2, ds) ∧
      rs.filterMap id ++ ds = pushed ops ∧
      (rs.filterMap id).length ≤ (pushed ops).length := by
  obtain ⟨m', h⟩ := run_ms_canon fuel ops 0 []
  have hp := run_seq_pushed ops { q := [] }
  simp only [List.nil_append] at hp
  have hlen : (pushed ops).length
      = ((run_seq { q := [] } ops).2.filterMap id).length
        + (run_seq { q := [] } ops).1.q.length := by
    rw [hp, List.length_append]
  have hk : (pushed ops).length + 1 + k
      = (run_seq { q := [] } ops).1.q.length + 1
        + (((run_seq { q := [] } ops).2.filterMap id).length + k) := by omega
  refine ⟨canon m' (run_seq { q := [] } ops).1.q, (run_seq { q := [] } ops).2,
    canon (m' + (run_seq { q := [] } ops).1.q.length) [], (run_seq { q := [] } ops).1.q,
    by rw [new_eq_canon]; exact h, ?_, hp.symm, by omega⟩
  rw [hk]
  exact drain_canon fuel _ m' _

/-- C5: `pop()` on a fresh `ms_queue` returns nothing, and after `n` pushes followed by `n`
pops every further `pop`, any number of them, returns nothing. -/
theorem pop_empty_returns_none (fuel k : Nat) (vs : List Int) :
    (∃ q', pop (fuel + 1) ms_queue.new = .ok (q', none)) ∧
    (∃ q', run_ms (fuel + 1) ms_queue.new
        (vs.map op.push ++ List.replicate vs.length op.pop ++ List.replicate k op.pop)
      = .ok (q', vs.map some ++ List.replicate k none)) := by
  refine ⟨⟨ms_queue.new, ?_⟩, ?_⟩
  · rw [new_eq_canon]; exact pop_canon_nil fuel 0
  · obtain ⟨m', h⟩ := run_ms_canon fuel
      (vs.map op.push ++ List.replicate vs.length op.pop ++ List.replicate k op.pop) 0 []
    have e := run_seq_pops vs []
    have e2 := run_seq_pushes vs { q := [] }
    simp only [List.nil_append, List.append_nil] at e e2
    have e3 : (run_seq { q := [] }
        (vs.map op.push ++ List.replicate vs.length op.pop ++ List.replicate k op.pop)).2
        = vs.map some ++ List.replicate k none := by
      simp only [run_seq_append, e2, e, run_seq_pops_empty, List.nil_append]
    rw [e3] at h
    exact ⟨_, by rw [new_eq_canon]; exact h⟩

/-- C6: in every state in which the queue is empty (`head` equals `tail` and the `next_` of
the node at `head` is null), in particular in every such state reached by single-threaded
calls, `pop()` returns nothing and leaves `head`, `tail` and every node unchanged, so that a
second `pop()` sees the same state and returns nothing as well. -/
theorem pop_on_empty_is_noop (fuel fuel2 : Nat) (q : ms_queue)
    (hht : q.head = q.tail) (hnext : load_next q.mem q.head = some none) :
    pop (fuel + 1) q = .ok (q, none) ∧
    (match pop (fuel + 1) q with
     | .ok (q1, _) => pop (fuel2 + 1) q1
     | .error e => .error e) = .ok (q, none) := by
  have h : pop (fuel + 1) q = .ok (q, none) := by
    simp [pop, pop_loop, hnext, ← hht]
  have h2 : pop (fuel2 + 1) q = .ok (q, none) := by
    simp [pop, pop_loop, hnext, ← hht]
  exact ⟨h, by rw [h]; exact h2⟩

theorem pop_on_empty_is_noop_witness :
    pop 1 (canon 2 []) = .ok (canon 2 [], none) ∧
    (match pop 1 (canon 2 []) with
     | .ok (q1, _) => pop 1 q1
     | .error e => .error e) = .ok (canon 2 [], none) :=
  pop_on_empty_is_noop 0 0 (canon 2 []) (by decide) (by decide)

/-- C7: when the allocation of the value holder or the allocation of the node fails,
`push` passes `std::bad_alloc` on to its caller and `head`, `tail` and every node are what
they were before the call. -/
theorem push_bad_alloc_leaves_queue (fuel : Nat) (q : ms_queue) (value : Int) (node_ok : Bool) :
    push_with false node_ok fuel q value = (q, .error .bad_alloc) ∧
    push_with true false fuel q value = (q, .error .bad_alloc) := by
  constructor <;> simp [push_with]

/-! ## The validator -/

theorem remaining_set (scenario : List (List thread_action)) (cursors : List Nat) (t : Nat)
    (hlen : cursors.length = scenario.length)
    (hlt : cursors.getD t 0 < (scenario.getD t []).length) :
    remaining scenario (cursors.set t (cursors.getD t 0 + 1)) + 1 = remaining scenario cursors := by
  induction scenario generalizing cursors t with
  | nil => simp at hlt
  | cons row rows ih =>
    cases cursors with
    | nil => simp at hlen
    | cons c cs =>
      cases t with
      | zero =>
        simp only [List.getD_cons_zero] at hlt
        simp only [List.set_cons_zero, remaining, List.getD_cons_zero]
        omega
      | succ t =>
        simp only [List.getD_cons_succ] at hlt
        have := ih cs t (by simpa using hlen) hlt
        simp only [List.set_cons_succ, remaining, List.getD_cons_succ]
        omega

theorem cursors_restore (cursors : List Nat) (t x : Nat) (ht : t < cursors.length) :
    (cursors.set t x).set t (cursors.getD t 0) = cursors := by
  rw [List.set_set]
  apply List.ext_getElem?
  intro i
  rw [List.getElem?_set]
  by_cases h : t = i
  · subst h
    simp [ht, List.getD_eq_getElem?_getD, List.getElem?_eq_getElem ht]
  · simp [h]

theorem cursors_getD_set (cursors : List Nat) (t x : Nat) (ht : t < cursors.length) :
    (cursors.set t x).getD t 0 = x := by
  simp [List.getD_eq_getElem?_getD, List.getElem?_set, ht]

theorem cursors_getD_set_ite (cursors : List Nat) (t x : Nat) (ht : t < cursors.length)
    (t' : Nat) :
    (cursors.set t x).getD t' 0 = if t' = t then x else cursors.getD t' 0 := by
  by_cases e : t' = t
  · subst e
    rw [cursors_getD_set _ _ _ ht]
    simp
  · simp [List.getD_eq_getElem?_getD, List.getElem?_set, e, Ne.symm e]

theorem validate_loop_spec (scenario : List (List thread_action))
    (self : List Nat → seq_queue → Option (Bool × List Nat)) (q : seq_queue)
    (cursors : List Nat) (hlen : cursors.length = scenario.length)
    (hself : ∀ t a, t < scenario.length →
      (scenario.getD t [])[cursors.getD t 0]? = some a →
      ∃ b c, self (cursors.set t (cursors.getD t 0 + 1)) (a.action.call q).1 = some (b, c) ∧
        (b = true ↔ search_ok scenario (cursors.set t (cursors.getD t 0 + 1))
          (a.action.call q).1) ∧
        (b = false → c = cursors.set t (cursors.getD t 0 + 1)))
    (ts : List Nat) (hts : ∀ t ∈ ts, t < scenario.length) (fin : Bool) :
    ∃ b c, validate_loop scenario self q ts fin cursors = some (b, c) ∧
      (b = false → c = cursors) ∧
      (b = true ↔
        (∃ t ∈ ts, ∃ a, (scenario.getD t [])[cursors.getD t 0]? = some a ∧
          (a.action.call q).2 = a.result ∧
          search_ok scenario (cursors.set t (cursors.getD t 0 + 1)) (a.action.call q).1) ∨
        (fin = true ∧ ∀ t ∈ ts, (scenario.getD t []).length ≤ cursors.getD t 0)) := by
  induction ts generalizing fin with
  | nil => exact ⟨fin, cursors, rfl, fun _ => rfl, by simp⟩
  | cons t ts ih =>
    have ht : t < scenario.length := hts t (List.mem_cons_self _ _)
    have hts' : ∀ t ∈ ts, t < scenario.length := fun x hx => hts x (List.mem_cons_of_mem _ hx)
    cases ha : (scenario.getD t [])[cursors.getD t 0]? with
    | none =>
      obtain ⟨b, c, h1, h2, h3⟩ := ih hts' fin
      refine ⟨b, c, by simp only [validate_loop, ha, h1], h2, ?_⟩
      have hge : (scenario.getD t []).length ≤ cursors.getD t 0 := by
        simpa [List.getElem?_eq_none_iff] using ha
      rw [h3]
      constructor
      · rintro (⟨t', ht', hx⟩ | ⟨hf, hall⟩)
        · exact Or.inl ⟨t', List.mem_cons_of_mem _ ht', hx⟩
        · refine Or.inr ⟨hf, ?_⟩
          intro x hx
          rcases List.mem_cons.mp hx with rfl | hx
          · exact hge
          · exact hall x hx
      · rintro (⟨t', ht', a, hx1, hx2⟩ | ⟨hf, hall⟩)
        · rcases List.mem_cons.mp ht' with rfl | ht'
          · rw [ha] at hx1; cases hx1
          · exact Or.inl ⟨t', ht', a, hx1, hx2⟩
        · exact Or.inr ⟨hf, fun x hx => hall x (List.mem_cons_of_mem _ hx)⟩
    | some a =>
      have hlt : cursors.getD t 0 < (scenario.getD t []).length := by
        by_contra hc
        have : (scenario.getD t [])[cursors.getD t 0]? = none :=
          List.getElem?_eq_none_iff.mpr (by omega)
        rw [this] at ha; cases ha
      obtain ⟨b0, c0, h01, h02, h03⟩ := ih hts' false
      have hno : ¬ (∀ x ∈ t :: ts, (scenario.getD x []).length ≤ cursors.getD x 0) := by
        intro hall
        have := hall t (List.mem_cons_self _ _)
        omega
      by_cases hr : (a.action.call q).2 = a.result
      · obtain ⟨b1, c1, h11, h12, h13⟩ := hself t a ht ha
        cases b1 with
        | true =>
          refine ⟨true, c1, by simp only [validate_loop, ha, hr, h11, if_true], by simp, ?_⟩
          simp only [true_iff]
          exact Or.inl ⟨t, List.mem_cons_self _ _, a, ha, hr, h12.mp rfl⟩
        | false =>
          have hc1 := h13 rfl
          have hrestore : c1.set t (c1.getD t 0 - 1) = cursors := by
            rw [hc1, cursors_getD_set _ _ _ (by omega), Nat.add_sub_cancel]
            exact cursors_restore _ _ _ (by omega)
          refine ⟨b0, c0, by simp only [validate_loop, ha, hr, h11, if_true, hrestore, h01],
            h02, ?_⟩
          rw [h03]
          have hnot : ¬ search_ok scenario (cursors.set t (cursors.getD t 0 + 1))
              (a.action.call q).1 := fun hs => by
            have := h12.mpr hs
            cases this
          constructor
          · rintro (⟨t', ht', hx⟩ | ⟨hf, _⟩)
            · exact Or.inl ⟨t', List.mem_cons_of_mem _ ht', hx⟩
            · cases hf
          · rintro (⟨t', ht', a', hx1, hx2, hx3⟩ | ⟨_, hall⟩)
            · rcases List.mem_cons.mp ht' with rfl | ht'
              · rw [ha] at hx1; cases hx1
                exact absurd hx3 hnot
              · exact Or.inl ⟨t', ht', a', hx1, hx2, hx3⟩
            · exact absurd hall hno
      · refine ⟨b0, c0, by simp only [validate_loop, ha, hr, if_false, h01], h02, ?_⟩
        rw [h03]
        constructor
        · rintro (⟨t', ht', hx⟩ | ⟨hf, _⟩)
          · exact Or.inl ⟨t', List.mem_cons_of_mem _ ht', hx⟩
          · cases hf
        · rintro (⟨t', ht', a', hx1, hx2, hx3⟩ | ⟨_, hall⟩)
          · rcases List.mem_cons.mp ht' with rfl | ht'
            · rw [ha] at hx1; cases hx1
              exact absurd hx2 hr
            · exact Or.inl ⟨t', ht', a', hx1, hx2, hx3⟩
          · exact absurd hall hno

theorem search_ok_iff (scenario : List (List thread_action)) (cursors : List Nat)
    (q : seq_queue) :
    search_ok scenario cursors q ↔
      (∃ t ∈ List.range scenario.length, ∃ a,
          (scenario.getD t [])[cursors.getD t 0]? = some a ∧
          (a.action.call q).2 = a.result ∧
          search_ok scenario (cursors.set t (cursors.getD t 0 + 1)) (a.action.call q).1) ∨
        ((true : Bool) = true ∧
          ∀ t ∈ List.range scenario.length, (scenario.getD t []).length ≤ cursors.getD t 0) := by
  constructor
  · intro h
    cases h with
    | done _ _ h => exact Or.inr ⟨rfl, fun t ht => h t (List.mem_range.mp ht)⟩
    | step _ _ t a ht ha hr hrest => exact Or.inl ⟨t, List.mem_range.mpr ht, a, ha, hr, hrest⟩
  · rintro (⟨t, ht, a, ha, hr, hrest⟩ | ⟨_, hall⟩)
    · exact search_ok.step _ _ t a (List.mem_range.mp ht) ha hr hrest
    · exact search_ok.done _ _ (fun t ht => hall t (List.mem_range.mpr ht))

theorem validate_rec_spec (scenario : List (List thread_action)) (fuel : Nat)
    (cursors : List Nat) (q : seq_queue) (hlen : cursors.length = scenario.length)
    (hfuel : remaining scenario cursors < fuel) :
    ∃ b c, validate_rec scenario fuel cursors q = some (b, c) ∧
      (b = true ↔ search_ok scenario cursors q) ∧ (b = false → c = cursors) := by
  induction fuel generalizing cursors q with
  | zero => omega
  | succ fuel ih =>
    have hself : ∀ t a, t < scenario.length →
        (scenario.getD t [])[cursors.getD t 0]? = some a →
        ∃ b c, validate_rec scenario fuel (cursors.set t (cursors.getD t 0 + 1))
            (a.action.call q).1 = some (b, c) ∧
          (b = true ↔ search_ok scenario (cursors.set t (cursors.getD t 0 + 1))
            (a.action.call q).1) ∧
          (b = false → c = cursors.set t (cursors.getD t 0 + 1)) := by
      intro t a _ ha
      have hlt : cursors.getD t 0 < (scenario.getD t []).length := by
        by_contra hc
        have : (scenario.getD t [])[cursors.getD t 0]? = none :=
          List.getElem?_eq_none_iff.mpr (by omega)
        rw [this] at ha; cases ha
      have hrem := remaining_set scenario cursors t hlen hlt
      exact ih _ _ (by simpa using hlen) (by omega)
    obtain ⟨b, c, h1, h2, h3⟩ := validate_loop_spec scenario (validate_rec scenario fuel) q
      cursors hlen hself (List.range scenario.length) (fun t ht => List.mem_range.mp ht) true
    exact ⟨b, c, h1, by rw [h3, search_ok_iff], h2⟩

theorem search_ok_order (scenario : List (List thread_action)) (cursors : List Nat)
    (q : seq_queue) (hlen : cursors.length = scenario.length)
    (h : search_ok scenario cursors q) :
    ∃ ord, is_order_from scenario cursors ord ∧ replay scenario q ord := by
  induction h with
  | done cursors q h =>
    refine ⟨[], ⟨List.nodup_nil, ?_, List.Pairwise.nil⟩, trivial⟩
    intro t i
    simp only [List.not_mem_nil, false_iff, not_and, not_lt]
    intro hi
    by_cases ht : t < scenario.length
    · exact le_trans (h t ht) hi
    · simp [List.getD_eq_getElem?_getD, List.getElem?_eq_none (not_lt.mp ht)]
  | step cursors q t a ht ha hr _ ih =>
    have hlt : cursors.getD t 0 < (scenario.getD t []).length := by
      by_contra hc
      have : (scenario.getD t [])[cursors.getD t 0]? = none :=
        List.getElem?_eq_none_iff.mpr (by omega)
      rw [this] at ha; cases ha
    have htc : t < cursors.length := by omega
    obtain ⟨ord, ⟨hnd, hall, hpw⟩, hrep⟩ := ih (by simpa using hlen)
    have hget := cursors_getD_set_ite cursors t (cursors.getD t 0 + 1) htc
    refine ⟨(t, cursors.getD t 0) :: ord, ⟨?_, ?_, ?_⟩, ⟨a, ha, hr, hrep⟩⟩
    · refine List.nodup_cons.mpr ⟨?_, hnd⟩
      intro hmem
      have := (hall t (cursors.getD t 0)).mp hmem
      rw [hget] at this
      simp at this
    · intro t' i
      rw [List.mem_cons, hall, hget]
      by_cases e : t' = t
      · subst e
        simp only [if_true, Prod.mk.injEq, true_and]
        constructor
        · rintro (rfl | ⟨h1, h2⟩)
          · exact ⟨le_refl _, hlt⟩
          · exact ⟨by omega, h2⟩
        · rintro ⟨h1, h2⟩
          by_cases e2 : i = cursors.getD t' 0
          · exact Or.inl e2
          · exact Or.inr ⟨by omega, h2⟩
      · simp [e]
    · refine List.pairwise_cons.mpr ⟨?_, hpw⟩
      rintro ⟨t', i⟩ hmem heq
      simp only at heq
      subst heq
      have := (hall t i).mp hmem
      rw [hget] at this
      simp only [if_true] at this
      simp only
      omega

theorem order_search_ok (scenario : List (List thread_action)) (ord : List (Nat × Nat))
    (cursors : List Nat) (q : seq_queue) (hlen : cursors.length = scenario.length)
    (ho : is_order_from scenario cursors ord) (hrep : replay scenario q ord) :
    search_ok scenario cursors q := by
  induction ord generalizing cursors q with
  | nil =>
    refine search_ok.done _ _ ?_
    intro t _
    by_contra hc
    have := (ho.all t (cursors.getD t 0)).mpr ⟨le_refl _, by omega⟩
    simp at this
  | cons e rest ih =>
    obtain ⟨t, i⟩ := e
    obtain ⟨a, ha, hr, hrest⟩ := hrep
    have hmem := (ho.all t i).mp (List.mem_cons_self _ _)
    have hpw := List.pairwise_cons.mp ho.thread_order
    have hnd := List.nodup_cons.mp ho.nodup
    have hi : i = cursors.getD t 0 := by
      by_contra hne
      have h2 := (ho.all t (cursors.getD t 0)).mpr ⟨le_refl _, by omega⟩
      rcases List.mem_cons.mp h2 with h3 | h3
      · simp only [Prod.mk.injEq, true_and] at h3
        exact hne h3.symm
      · have := hpw.1 _ h3 rfl
        simp only at this
        omega
    subst hi
    have ht : t < scenario.length := by
      by_contra hc
      simp [List.getD_eq_getElem?_getD, List.getElem?_eq_none (not_lt.mp hc)] at hmem
    have htc : t < cursors.length := by omega
    have hget := cursors_getD_set_ite cursors t (cursors.getD t 0 + 1) htc
    refine search_ok.step _ _ t a ht ha hr (ih _ _ (by simpa using hlen) ⟨hnd.2, ?_, hpw.2⟩ hrest)
    intro t' i'
    rw [hget]
    have hall := ho.all t' i'
    rw [List.mem_cons] at hall
    by_cases e : t' = t
    · subst e
      simp only [if_true]
      constructor
      · intro h
        have h1 := hall.mp (Or.inr h)
        have h2 : i' ≠ cursors.getD t' 0 := by
          rintro rfl
          exact hnd.1 h
        exact ⟨by omega, h1.2⟩
      · rintro ⟨h1, h2⟩
        rcases hall.mpr ⟨by omega, h2⟩ with h3 | h3
        · simp only [Prod.mk.injEq, true_and] at h3
          omega
        · exact h3
    · simp only [e, if_false]
      constructor
      · intro h
        exact hall.mp (Or.inr h)
      · intro h
        rcases hall.mpr h with h3 | h3
        · simp only [Prod.mk.injEq] at h3
          exact absurd h3.1 e
        · exact h3

theorem getD_replicate_zero (n t : Nat) : (List.replicate n 0).getD t 0 = 0 := by
  by_cases h : t < n
  · simp [List.getD_eq_getElem?_getD, List.getElem?_replicate, h]
  · simp [List.getD_eq_getElem?_getD, List.getElem?_replicate, h]

theorem is_order_from_zero (scenario : List (List thread_action)) (ord : List (Nat × Nat)) :
    is_order_from scenario (List.replicate scenario.length 0) ord ↔
      is_total_order scenario ord := by
  constructor
  · rintro ⟨h1, h2, h3⟩
    exact ⟨h1, fun t i => by rw [h2, getD_replicate_zero]; simp, h3⟩
  · rintro ⟨h1, h2, h3⟩
    exact ⟨h1, fun t i => by rw [h2, getD_replicate_zero]; simp, h3⟩

theorem validate_run_spec (scenario : List (List thread_action)) :
    ∃ b c, validate_run scenario = some (b, c) ∧
      (b = true ↔ linearizable scenario) ∧
      (b = false → c = List.replicate scenario.length 0) := by
  have hlen : (List.replicate scenario.length 0).length = scenario.length := by simp
  obtain ⟨b, c, h1, h2, h3⟩ := validate_rec_spec scenario
    (remaining scenario (List.replicate scenario.length 0) + 1)
    (List.replicate scenario.length 0) { q := [] } hlen (Nat.lt_succ_self _)
  refine ⟨b, c, h1, ?_, h3⟩
  rw [h2]
  constructor
  · intro h
    obtain ⟨ord, ho, hr⟩ := search_ok_order scenario _ _ hlen h
    exact ⟨ord, (is_order_from_zero scenario ord).mp ho, hr⟩
  · rintro ⟨ord, ho, hr⟩
    exact order_search_ok scenario ord _ _ hlen ((is_order_from_zero scenario ord).mpr ho) hr

theorem validate_spec (scenario : List (List thread_action)) :
    (∃ b, validate scenario = some b) ∧
    (validate scenario = some true ↔ linearizable scenario) := by
  obtain ⟨b, c, h1, h2, _⟩ := validate_run_spec scenario
  refine ⟨⟨b, by simp [validate, h1]⟩, ?_⟩
  rw [← h2]
  simp [validate, h1]

/-- C2: for every annotated scenario (any number of threads, any finite action sequences,
any recorded results) `validate` returns, and it returns true if and only if some total
order of all actions preserves each thread's own order and replays, against a fresh
reference queue, to an outcome equal to the recorded result for every action. -/
theorem validate_true_iff_linearizable (scenario : List (List thread_action)) :
    (∃ b, validate scenario = some b) ∧
    (validate scenario = some true ↔
      ∃ ord : List (Nat × Nat),
        is_total_order scenario ord ∧ replay scenario { q := [] } ord) :=
  validate_spec scenario

theorem validate_AB (r1 r2 : Option Int) :
    validate (scenario_AB r1 r2) = some (decide
      ((r1 = none ∧ r2 = none) ∨ (r1 = some 1 ∧ r2 = none) ∨ (r1 = none ∧ r2 = some 1) ∨
        (r1 = some 1 ∧ r2 = some 2))) := by
  rcases r1 with _ | a <;> rcases r2 with _ | b
  · decide
  · by_cases hb1 : b = 1
    · subst hb1; decide
    · have hb1' : ¬ (1 = b) := fun h => hb1 h.symm
      simp [validate, validate_run, validate_rec, validate_loop, remaining, scenario_AB,
        action_fn.call, seq_queue.pop, seq_queue.push, hb1, hb1', List.range_succ]
  · by_cases ha1 : a = 1
    · subst ha1; decide
    · have ha1' : ¬ (1 = a) := fun h => ha1 h.symm
      simp [validate, validate_run, validate_rec, validate_loop, remaining, scenario_AB,
        action_fn.call, seq_queue.pop, seq_queue.push, ha1, ha1', List.range_succ]
  · by_cases ha1 : a = 1
    · subst ha1
      by_cases hb2 : b = 2
      · subst hb2; decide
      · have hb2' : ¬ (2 = b) := fun h => hb2 h.symm
        simp [validate, validate_run, validate_rec, validate_loop, remaining, scenario_AB,
          action_fn.call, seq_queue.pop, seq_queue.push, hb2, hb2', List.range_succ]
    · have ha1' : ¬ (1 = a) := fun h => ha1 h.symm
      simp [validate, validate_run, validate_rec, validate_loop, remaining, scenario_AB,
        action_fn.call, seq_queue.pop, seq_queue.push, ha1, ha1', List.range_succ]

/-- C8: for thread A = [push(1), push(2)], thread B = [pop, pop] and every pair of recorded
results of the two pops, if `validate` accepts then the values among the two results, in
order, form a subsequence of [1, 2]; `validate` accepts (none, none), (1, none), (1, 2) and
(none, 1), and rejects (2, 1). -/
theorem scenario_AB_outcomes :
    (∀ r1 r2 : Option Int, validate (scenario_AB r1 r2) = some true →
      List.Sublist ([r1, r2].filterMap id) [1, 2]) ∧
    validate (scenario_AB none none) = some true ∧
    validate (scenario_AB (some 1) none) = some true ∧
    validate (scenario_AB (some 1) (some 2)) = some true ∧
    validate (scenario_AB none (some 1)) = some true ∧
    validate (scenario_AB (some 2) (some 1)) = some false := by
  refine ⟨?_, by decide, by decide, by decide, by decide, by decide⟩
  intro r1 r2 h
  rw [validate_AB] at h
  simp only [Option.some.injEq, decide_eq_true_eq] at h
  rcases h with ⟨rfl, rfl⟩ | ⟨rfl, rfl⟩ | ⟨rfl, rfl⟩ | ⟨rfl, rfl⟩ <;> decide

theorem scenario_AB_outcomes_witness :
    validate (scenario_AB (some 1) (some 2)) = some true ∧
    List.Sublist ([some 1, some 2].filterMap id) ([1, 2] : List Int) :=
  ⟨by decide, scenario_AB_outcomes.1 (some 1) (some 2) (by decide)⟩

/-! ## FIFO order of the replay -/

theorem replay_fifo (scenario : List (List thread_action)) (ord : List (Nat × Nat))
    (q : seq_queue) (h : replay scenario q ord) :
    ∃ q' : List Int, q.q ++ ord.filterMap (pushed_value scenario)
      = ord.filterMap (popped_value scenario) ++ q' := by
  induction ord generalizing q with
  | nil => exact ⟨q.q, by simp⟩
  | cons e rest ih =>
    obtain ⟨x, hx, hr, hrest⟩ := h
    obtain ⟨q', hq'⟩ := ih _ hrest
    cases hact : x.action with
    | push_fn v =>
      have h1 : pushed_value scenario e = some v := by simp [pushed_value, hx, hact]
      have h2 : popped_value scenario e = none := by simp [popped_value, hx, hact]
      rw [hact] at hq'
      refine ⟨q', ?_⟩
      simp only [List.filterMap_cons, h1, h2]
      simpa [action_fn.call, seq_queue.push] using hq'
    | pop_fn =>
      have h1 : pushed_value scenario e = none := by simp [pushed_value, hx, hact]
      rw [hact] at hq' hr
      cases hq : q.q with
      | nil =>
        have h2 : popped_value scenario e = none := by
          simp [popped_value, hx, hact, ← hr, action_fn.call, seq_queue.pop, hq]
        refine ⟨q', ?_⟩
        simp only [List.filterMap_cons, h1, h2]
        simpa [action_fn.call, seq_queue.pop, hq] using hq'
      | cons v vs =>
        have h2 : popped_value scenario e = some v := by
          simp [popped_value, hx, hact, ← hr, action_fn.call, seq_queue.pop, hq]
        refine ⟨q', ?_⟩
        simp only [List.filterMap_cons, h1, h2]
        simpa [action_fn.call, seq_queue.pop, hq] using hq'

theorem mem_after_first {α : Type} (U V P S : List α) (a b : α) (hab : a ≠ b)
    (h : U ++ b :: V = P ++ b :: S) (hb : b ∉ U) (ha : a ∈ S) : a ∈ V := by
  rcases List.append_eq_append_iff.mp h with ⟨w, _, h2⟩ | ⟨w, h1, h2⟩
  · have : a ∈ b :: V := by
      rw [h2]
      exact List.mem_append_right _ (List.mem_cons_of_mem _ ha)
    rcases List.mem_cons.mp this with h3 | h3
    · exact absurd h3 hab
    · exact h3
  · cases w with
    | nil =>
      simp only [List.nil_append, List.cons.injEq, true_and] at h2
      rw [← h2]; exact ha
    | cons c w =>
      simp only [List.cons_append, List.cons.injEq] at h2
      exfalso
      apply hb
      rw [h1, ← h2.1]
      exact List.mem_append_right _ (List.mem_cons_self _ _)

/-- C9: in an annotated scenario let one thread push `a` at index `i` and later push `b` at
index `j`, with no pop of its own in between, `a` and `b` distinct and pushed nowhere else,
and let one pop be recorded as returning `a` and another as returning `b`.  Then in every
total order of the actions that preserves thread order and replays, against the reference
queue, to the recorded results, the pop returning `a` occurs before the pop returning `b`. -/
theorem pop_order_follows_push_order (scenario : List (List thread_action))
    (ord : List (Nat × Nat)) (t i j : Nat) (a b : Int) (pa pb : Nat × Nat)
    (x y za zb : thread_action)
    (hij : i < j)
    (hx : action_at scenario (t, i) = some x) (_hxa : x.action = .push_fn a)
    (hy : action_at scenario (t, j) = some y) (hyb : y.action = .push_fn b)
    (_hnopop : ∀ k z, i < k → k < j → action_at scenario (t, k) = some z →
      z.action ≠ .pop_fn)
    (hab : a ≠ b)
    (honly_a : ∀ e z, action_at scenario e = some z → z.action = .push_fn a → e = (t, i))
    (honly_b : ∀ e z, action_at scenario e = some z → z.action = .push_fn b → e = (t, j))
    (hpa : action_at scenario pa = some za) (hza : za.action = .pop_fn)
    (hra : za.result = .optional (some a))
    (hpb : action_at scenario pb = some zb) (hzb : zb.action = .pop_fn)
    (hrb : zb.result = .optional (some b))
    (hord : is_total_order scenario ord) (hrep : replay scenario { q := [] } ord) :
    ∃ l1 l2 l3, ord = l1 ++ pa :: (l2 ++ pb :: l3) := by
  -- positions are in the order
  have mem_of : ∀ (e : Nat × Nat) (z : thread_action), action_at scenario e = some z →
      e ∈ ord := by
    rintro ⟨t', i'⟩ z hz
    refine (hord.all t' i').mpr ?_
    by_contra hc
    have : action_at scenario (t', i') = none := by
      simp only [action_at]
      exact List.getElem?_eq_none_iff.mpr (by omega)
    rw [this] at hz; cases hz
  have hpush_a : ∀ e, pushed_value scenario e = some a → e = (t, i) := by
    intro e he
    simp only [pushed_value] at he
    cases hz : action_at scenario e with
    | none => simp [hz] at he
    | some z =>
      cases hact : z.action with
      | push_fn v =>
        simp only [hz, hact, Option.some.injEq] at he
        exact honly_a e z hz (by rw [hact, he])
      | pop_fn => simp [hz, hact] at he
  have hpush_b : ∀ e, pushed_value scenario e = some b → e = (t, j) := by
    intro e he
    simp only [pushed_value] at he
    cases hz : action_at scenario e with
    | none => simp [hz] at he
    | some z =>
      cases hact : z.action with
      | push_fn v =>
        simp only [hz, hact, Option.some.injEq] at he
        exact honly_b e z hz (by rw [hact, he])
      | pop_fn => simp [hz, hact] at he
  have hpv_b : pushed_value scenario (t, j) = some b := by simp [pushed_value, hy, hyb]
  have hpop_a : popped_value scenario pa = some a := by simp [popped_value, hpa, hza, hra]
  have hpop_b : popped_value scenario pb = some b := by simp [popped_value, hpb, hzb, hrb]
  -- split the order at the push of `b`
  obtain ⟨A, C, hAC⟩ := List.append_of_mem (mem_of (t, j) y hy)
  have hnd := hord.nodup
  have hpw := hord.thread_order
  rw [hAC] at hnd hpw
  have hnd' := List.nodup_append.mp hnd
  have htiA : (t, i) ∈ A := by
    have hm : (t, i) ∈ ord := mem_of (t, i) x hx
    rw [hAC] at hm
    rcases List.mem_append.mp hm with h | h
    · exact h
    · rcases List.mem_cons.mp h with h | h
      · simp only [Prod.mk.injEq, true_and] at h; omega
      · have := (List.pairwise_cons.mp (List.pairwise_append.mp hpw).2.1).1 _ h rfl
        simp only at this
        omega
  have hbA : b ∉ A.filterMap (pushed_value scenario) := by
    intro hm
    obtain ⟨e, he, hv⟩ := List.mem_filterMap.mp hm
    have := hpush_b e hv
    subst this
    exact hnd'.2.2 he (List.mem_cons_self _ _)
  have haC : a ∉ C.filterMap (pushed_value scenario) := by
    intro hm
    obtain ⟨e, he, hv⟩ := List.mem_filterMap.mp hm
    have := hpush_a e hv
    subst this
    exact hnd'.2.2 htiA (List.mem_cons_of_mem _ he)
  -- split the order at the pop of `b`
  obtain ⟨l1, l3, hl⟩ := List.append_of_mem (mem_of pb zb hpb)
  obtain ⟨q', hq'⟩ := replay_fifo scenario ord { q := [] } hrep
  have hpne : pa ≠ pb := by
    rintro rfl
    rw [hpop_a] at hpop_b
    simp only [Option.some.injEq] at hpop_b
    exact hab hpop_b
  have hpa1 : pa ∈ l1 := by
    have hm : pa ∈ ord := mem_of pa za hpa
    rw [hl] at hm
    rcases List.mem_append.mp hm with h | h
    · exact h
    · rcases List.mem_cons.mp h with h | h
      · exact absurd h hpne
      · exfalso
        apply haC
        have e1 : ord.filterMap (pushed_value scenario)
            = A.filterMap (pushed_value scenario)
              ++ b :: C.filterMap (pushed_value scenario) := by
          rw [hAC, List.filterMap_append, List.filterMap_cons, hpv_b]
        have e2 : ord.filterMap (popped_value scenario)
            = l1.filterMap (popped_value scenario)
              ++ b :: l3.filterMap (popped_value scenario) := by
          rw [hl, List.filterMap_append, List.filterMap_cons, hpop_b]
        simp only [List.nil_append] at hq'
        rw [e1, e2, List.append_assoc, List.cons_append] at hq'
        refine mem_after_first _ _ _ _ a b hab hq' hbA ?_
        exact List.mem_append_left _ (List.mem_filterMap.mpr ⟨pa, h, hpop_a⟩)
  obtain ⟨l1a, l1b, hl1⟩ := List.append_of_mem hpa1
  exact ⟨l1a, l1b, l3, by rw [hl, hl1]; simp⟩

theorem pop_order_follows_push_order_witness :
    ∃ l1 l2 l3, [((0 : Nat), (0 : Nat)), (0, 1), (1, 0), (1, 1)]
      = l1 ++ (1, 0) :: (l2 ++ (1, 1) :: l3) :=
  pop_order_follows_push_order (scenario_AB (some 1) (some 2)) [(0, 0), (0, 1), (1, 0), (1, 1)]
    0 0 1 1 2 (1, 0) (1, 1)
    { action := .push_fn 1, result := .monostate, value := 1 }
    { action := .push_fn 2, result := .monostate, value := 2 }
    { action := .pop_fn, result := .optional (some 1), value := 0 }
    { action := .pop_fn, result := .optional (some 2), value := 0 }
    (by decide) (by decide) rfl (by decide) rfl
    (by intro k z h1 h2; omega)
    (by decide)
    (by
      rintro ⟨t, i⟩ z hz hact
      rcases t with _ | _ | t <;> rcases i with _ | _ | i <;>
        simp [action_at, scenario_AB] at hz <;> subst hz <;> simp at hact ⊢)
    (by
      rintro ⟨t, i⟩ z hz hact
      rcases t with _ | _ | t <;> rcases i with _ | _ | i <;>
        simp [action_at, scenario_AB] at hz <;> subst hz <;> simp at hact ⊢)
    (by decide) rfl rfl (by decide) rfl rfl
    ⟨by decide,
     by
      intro t i
      rcases t with _ | _ | t <;> rcases i with _ | _ | i <;> simp [scenario_AB],
     by decide⟩
    ⟨_, rfl, rfl, _, rfl, rfl, _, rfl, rfl, _, rfl, rfl, trivial⟩

/-! ## Memory primitives in terms of `nxt`, `val`, `alive` -/

theorem load_next_of (mem : List cell) (a : Nat) (x : Option Nat)
    (hn : nxt mem a = some x) (hl : alive mem a) : load_next mem (some a) = some x := by
  simp only [nxt, alive, Option.map_eq_some'] at hn hl
  obtain ⟨c, hc, hx⟩ := hn
  obtain ⟨c', hc', hl⟩ := hl
  rw [hc] at hc'; cases hc'
  simp [load_next, deref, hc, hl, hx]

theorem load_next_inv (mem : List cell) (p : Option Nat) (x : Option Nat)
    (h : load_next mem p = some x) : ∃ a, p = some a ∧ nxt mem a = some x ∧ alive mem a := by
  cases p with
  | none => simp [load_next, deref] at h
  | some a =>
    refine ⟨a, rfl, ?_⟩
    simp only [load_next, deref] at h
    cases hc : mem[a]? with
    | none => simp [hc] at h
    | some c =>
      simp only [hc] at h
      by_cases hl : c.live = true
      · simp only [hl, if_true, Option.map_some', Option.some.injEq] at h
        simp [nxt, alive, hc, h, hl]
      · simp [hl] at h

theorem load_next_none_inv (mem : List cell) (a : Nat)
    (h : load_next mem (some a) = none) : ¬ alive mem a := by
  intro hl
  simp only [alive, Option.map_eq_some'] at hl
  obtain ⟨c, hc, hl⟩ := hl
  simp [load_next, deref, hc, hl] at h

theorem nxt_set (mem : List cell) (a b : Nat) (c : cell) (ha : a < mem.length) :
    nxt (mem.set a c) b = if a = b then some c.obj.next_ else nxt mem b := by
  simp only [nxt, List.getElem?_set, ha, if_true]
  split <;> rfl

theorem val_set (mem : List cell) (a b : Nat) (c : cell) (ha : a < mem.length) :
    val (mem.set a c) b = if a = b then some c.obj.value_ else val mem b := by
  simp only [val, List.getElem?_set, ha, if_true]
  split <;> rfl

theorem alive_set (mem : List cell) (a b : Nat) (c : cell) (ha : a < mem.length) :
    alive (mem.set a c) b ↔ if a = b then c.live = true else alive mem b := by
  simp only [alive, List.getElem?_set, ha, if_true]
  split <;> simp

theorem nxt_append (mem : List cell) (c : cell) (b : Nat) :
    nxt (mem ++ [c]) b = if b = mem.length then some c.obj.next_ else nxt mem b := by
  simp only [nxt]
  by_cases h : b < mem.length
  · have : b ≠ mem.length := by omega
    simp [List.getElem?_append_left h, this]
  · by_cases h2 : b = mem.length
    · subst h2; simp
    · have h3 : mem.length < b := by omega
      rw [List.getElem?_eq_none, List.getElem?_eq_none]
      · simp [h2]
      · omega
      · simp; omega

theorem val_append (mem : List cell) (c : cell) (b : Nat) :
    val (mem ++ [c]) b = if b = mem.length then some c.obj.value_ else val mem b := by
  simp only [val]
  by_cases h : b < mem.length
  · have : b ≠ mem.length := by omega
    simp [List.getElem?_append_left h, this]
  · by_cases h2 : b = mem.length
    · subst h2; simp
    · have h3 : mem.length < b := by omega
      rw [List.getElem?_eq_none, List.getElem?_eq_none]
      · simp [h2]
      · omega
      · simp; omega

theorem alive_append (mem : List cell) (c : cell) (b : Nat) :
    alive (mem ++ [c]) b ↔ if b = mem.length then c.live = true else alive mem b := by
  simp only [alive]
  by_cases h : b < mem.length
  · have : b ≠ mem.length := by omega
    simp [List.getElem?_append_left h, this]
  · by_cases h2 : b = mem.length
    · subst h2; simp
    · have h3 : mem.length < b := by omega
      rw [List.getElem?_eq_none, List.getElem?_eq_none]
      · simp [h2]
      · omega
      · simp; omega

theorem cas_next_inv (mem : List cell) (p nn : Option Nat) (mem' : List cell) (b : Bool)
    (h : cas_next mem p nn = some (mem', b)) :
    ∃ a c, p = some a ∧ mem[a]? = some c ∧ c.live = true ∧
      ((c.obj.next_ = none ∧ b = true ∧
          mem' = mem.set a { obj := { c.obj with next_ := nn }, live := true }) ∨
       (c.obj.next_ ≠ none ∧ b = false ∧ mem' = mem)) := by
  cases p with
  | none => simp [cas_next, deref] at h
  | some a =>
    simp only [cas_next, deref] at h
    cases hc : mem[a]? with
    | none => simp [hc] at h
    | some c =>
      simp only [hc] at h
      by_cases hl : c.live = true
      · simp only [hl, if_true, Option.some.injEq, Prod.mk.injEq] at h
        refine ⟨a, c, rfl, hc, hl, ?_⟩
        obtain ⟨h1, h2⟩ := h
        by_cases hn : c.obj.next_ = none
        · left
          simp only [compare_exchange_strong, hn, if_true] at h1 h2
          exact ⟨hn, h2.symm, h1.symm⟩
        · right
          simp only [compare_exchange_strong, hn, if_false] at h1 h2
          refine ⟨hn, h2.symm, ?_⟩
          rw [← h1, store]
          have hlt : a < mem.length := (List.getElem?_eq_some.mp hc).1
          apply List.ext_getElem?
          intro i
          rw [List.getElem?_set]
          by_cases e : a = i
          · subst e
            simp only [if_true, hlt, hc]
            cases c with
            | mk obj live =>
              simp only at hl
              subst hl
              rfl
          · simp [e]
      · simp [hl] at h

theorem exchange_value_inv (mem : List cell) (p : Option Nat) (mem' : List cell)
    (r : Option Int) (h : exchange_value mem p = some (mem', r)) :
    ∃ a c, p = some a ∧ mem[a]? = some c ∧ c.live = true ∧ r = c.obj.value_ ∧
      mem' = mem.set a { obj := { c.obj with value_ := none }, live := true } := by
  cases p with
  | none => simp [exchange_value, deref] at h
  | some a =>
    simp only [exchange_value, deref] at h
    cases hc : mem[a]? with
    | none => simp [hc] at h
    | some c =>
      simp only [hc] at h
      by_cases hl : c.live = true
      · simp only [hl, if_true, Option.some.injEq, Prod.mk.injEq] at h
        exact ⟨a, c, rfl, hc, hl, h.2.symm, h.1.symm⟩
      · simp [hl] at h

theorem delete_node_inv (mem : List cell) (a : Nat) (mem' : List cell)
    (h : delete_node mem (some a) = some mem') :
    ∃ c, mem[a]? = some c ∧ c.live = true ∧
      mem' = mem.set a { obj := c.obj, live := false } := by
  simp only [delete_node] at h
  cases hc : mem[a]? with
  | none => simp [hc] at h
  | some c =>
    simp only [hc] at h
    by_cases hl : c.live = true
    · simp only [hl, if_true, Option.some.injEq] at h
      exact ⟨c, rfl, hl, h.symm⟩
    · simp [hl] at h

/-! ## Steps that preserve the shape -/

theorem chain_idx_inj (chain : List Nat) (hnd : chain.Nodup) (i j a : Nat)
    (hi : chain[i]? = some a) (hj : chain[j]? = some a) : i = j :=
  List.getElem?_inj (List.getElem?_eq_some.mp hi).1 hnd (hi.trans hj.symm)

theorem chain_mem_of_get (chain : List Nat) (i a : Nat) (hi : chain[i]? = some a) :
    a ∈ chain := by
  obtain ⟨h, rfl⟩ := List.getElem?_eq_some.mp hi
  exact List.getElem_mem h

theorem shape.last_idx {q : ms_queue} {chain : List Nat} {h t : Nat} (sh : shape q chain h t)
    (i a : Nat) (hi : chain[i]? = some a) (hn : nxt q.mem a = some none) :
    i + 1 = chain.length := by
  have hlt : i < chain.length := (List.getElem?_eq_some.mp hi).1
  by_contra hc
  have h2 : i + 1 < chain.length := by omega
  have := sh.link i a chain[i + 1] hi (List.getElem?_eq_getElem h2)
  rw [hn] at this
  cases this

theorem shape.tail_advance {q : ms_queue} {chain : List Nat} {h t : Nat}
    (sh : shape q chain h t) (ht : t + 1 < chain.length) :
    shape { q with tail := chain[t + 1]? } chain h (t + 1) :=
  { nodup := sh.nodup, link := sh.link, last := sh.last, head_eq := sh.head_eq, tail_eq := rfl,
    h_le_t := Nat.le_succ_of_le sh.h_le_t, t_lt := ht, lag := by have := sh.lag; omega,
    unlinked := sh.unlinked, live := sh.live, vals := sh.vals, bound := sh.bound }

theorem shape.head_advance {q : ms_queue} {chain : List Nat} {h t : Nat}
    (sh : shape q chain h t) (ht : h < t) :
    shape { q with head := chain[h + 1]? } chain (h + 1) t :=
  { nodup := sh.nodup, link := sh.link, last := sh.last, head_eq := rfl, tail_eq := sh.tail_eq,
    h_le_t := ht, t_lt := sh.t_lt, lag := sh.lag,
    unlinked := sh.unlinked,
    live := fun k a hk hka => sh.live k a (by omega) hka,
    vals := fun k a hk hka => sh.vals k a (by omega) hka,
    bound := sh.bound }

theorem shape.alloc {q : ms_queue} {chain : List Nat} {h t : Nat}
    (sh : shape q chain h t) (v : Int) :
    shape { q with mem := q.mem ++ [{ obj := { value_ := some v, next_ := none }, live := true }] }
      chain h t := by
  have hb : ∀ a ∈ chain, a ≠ q.mem.length := fun a ha => Nat.ne_of_lt (sh.bound a ha)
  refine
    { nodup := sh.nodup, link := ?_, last := ?_, head_eq := sh.head_eq, tail_eq := sh.tail_eq,
      h_le_t := sh.h_le_t, t_lt := sh.t_lt, lag := sh.lag, unlinked := ?_, live := ?_,
      vals := ?_, bound := ?_ }
  · intro k a b hk hk1
    simp only [nxt_append, hb a (chain_mem_of_get _ _ _ hk), if_false]
    exact sh.link k a b hk hk1
  · intro a ha
    simp only [nxt_append, hb a (chain_mem_of_get _ _ _ ha), if_false]
    exact sh.last a ha
  · intro a ha hnc
    simp only [List.length_append, List.length_singleton] at ha
    simp only [nxt_append, alive_append, val_append]
    by_cases e : a = q.mem.length
    · simp [e]
    · simp only [e, if_false]
      exact sh.unlinked a (by omega) hnc
  · intro k a hk hka
    simp only [alive_append, hb a (chain_mem_of_get _ _ _ hka), if_false]
    exact sh.live k a hk hka
  · intro k a hk hka
    simp only [val_append, hb a (chain_mem_of_get _ _ _ hka), if_false]
    exact sh.vals k a hk hka
  · intro a ha
    simp only [List.length_append, List.length_singleton]
    exact Nat.lt_succ_of_lt (sh.bound a ha)

theorem shape.exchange {q : ms_queue} {chain : List Nat} {h t : Nat}
    (sh : shape q chain h t) (k a : Nat) (c : cell) (hk : k ≤ h) (hka : chain[k]? = some a)
    (hc : q.mem[a]? = some c) :
    shape { q with mem := q.mem.set a { obj := { c.obj with value_ := none }, live := true } }
      chain h t := by
  have hlt : a < q.mem.length := (List.getElem?_eq_some.mp hc).1
  have hnx : nxt q.mem a = some c.obj.next_ := by simp [nxt, hc]
  have hin : a ∈ chain := chain_mem_of_get _ _ _ hka
  refine
    { nodup := sh.nodup, link := ?_, last := ?_, head_eq := sh.head_eq, tail_eq := sh.tail_eq,
      h_le_t := sh.h_le_t, t_lt := sh.t_lt, lag := sh.lag, unlinked := ?_, live := ?_,
      vals := ?_, bound := ?_ }
  · intro k' a' b hk' hk1
    simp only [nxt_set _ _ _ _ hlt]
    by_cases e : a = a'
    · subst e; simp only [if_true]; rw [← hnx]; exact sh.link k' a b hk' hk1
    · simp only [e, if_false]; exact sh.link k' a' b hk' hk1
  · intro a' ha'
    simp only [nxt_set _ _ _ _ hlt]
    by_cases e : a = a'
    · subst e; simp only [if_true]; rw [← hnx]; exact sh.last a ha'
    · simp only [e, if_false]; exact sh.last a' ha'
  · intro a' ha' hnc
    simp only [List.length_set] at ha'
    have e : a ≠ a' := fun e => hnc (e ▸ hin)
    simp only [nxt_set _ _ _ _ hlt, alive_set _ _ _ _ hlt, val_set _ _ _ _ hlt, e, if_false]
    exact sh.unlinked a' ha' hnc
  · intro k' a' hk' hka'
    simp only [alive_set _ _ _ _ hlt]
    by_cases e : a = a'
    · simp [e]
    · simp only [e, if_false]; exact sh.live k' a' hk' hka'
  · intro k' a' hk' hka'
    have e : a ≠ a' := by
      rintro rfl
      have := chain_idx_inj chain sh.nodup _ _ _ hka hka'
      omega
    simp only [val_set _ _ _ _ hlt, e, if_false]
    exact sh.vals k' a' hk' hka'
  · intro a' ha'
    simp only [List.length_set]
    exact sh.bound a' ha'

theorem shape.delete {q : ms_queue} {chain : List Nat} {h t : Nat}
    (sh : shape q chain h t) (k a : Nat) (c : cell) (hk : k < h) (hka : chain[k]? = some a)
    (hc : q.mem[a]? = some c) :
    shape { q with mem := q.mem.set a { obj := c.obj, live := false } } chain h t := by
  have hlt : a < q.mem.length := (List.getElem?_eq_some.mp hc).1
  have hnx : nxt q.mem a = some c.obj.next_ := by simp [nxt, hc]
  have hin : a ∈ chain := chain_mem_of_get _ _ _ hka
  refine
    { nodup := sh.nodup, link := ?_, last := ?_, head_eq := sh.head_eq, tail_eq := sh.tail_eq,
      h_le_t := sh.h_le_t, t_lt := sh.t_lt, lag := sh.lag, unlinked := ?_, live := ?_,
      vals := ?_, bound := ?_ }
  · intro k' a' b hk' hk1
    simp only [nxt_set _ _ _ _ hlt]
    by_cases e : a = a'
    · subst e; simp only [if_true]; rw [← hnx]; exact sh.link k' a b hk' hk1
    · simp only [e, if_false]; exact sh.link k' a' b hk' hk1
  · intro a' ha'
    simp only [nxt_set _ _ _ _ hlt]
    by_cases e : a = a'
    · subst e; simp only [if_true]; rw [← hnx]; exact sh.last a ha'
    · simp only [e, if_false]; exact sh.last a' ha'
  · intro a' ha' hnc
    simp only [List.length_set] at ha'
    have e : a ≠ a' := fun e => hnc (e ▸ hin)
    simp only [nxt_set _ _ _ _ hlt, alive_set _ _ _ _ hlt, val_set _ _ _ _ hlt, e, if_false]
    exact sh.unlinked a' ha' hnc
  · intro k' a' hk' hka'
    have e : a ≠ a' := by
      rintro rfl
      have := chain_idx_inj chain sh.nodup _ _ _ hka hka'
      omega
    simp only [alive_set _ _ _ _ hlt, e, if_false]
    exact sh.live k' a' hk' hka'
  · intro k' a' hk' hka'
    have e : a ≠ a' := by
      rintro rfl
      have := chain_idx_inj chain sh.nodup _ _ _ hka hka'
      omega
    simp only [val_set _ _ _ _ hlt, e, if_false]
    exact sh.vals k' a' hk' hka'
  · intro a' ha'
    simp only [List.length_set]
    exact sh.bound a' ha'

theorem getElem?_snoc (chain : List Nat) (nn k : Nat) :
    (chain ++ [nn])[k]? = if k < chain.length then chain[k]?
      else if k = chain.length then some nn else none := by
  by_cases h : k < chain.length
  · simp [List.getElem?_append_left h, h]
  · by_cases h2 : k = chain.length
    · subst h2; simp
    · rw [List.getElem?_eq_none]
      · simp [h, h2]
      · simp; omega

theorem getElem?_snoc_of_some (chain : List Nat) (nn k a : Nat) (h : chain[k]? = some a) :
    (chain ++ [nn])[k]? = some a := by
  rw [List.getElem?_append_left (List.getElem?_eq_some.mp h).1, h]

theorem snoc_cases (chain : List Nat) (nn k a : Nat) (h : (chain ++ [nn])[k]? = some a) :
    (k < chain.length ∧ chain[k]? = some a) ∨ (k = chain.length ∧ a = nn) := by
  rw [getElem?_snoc] at h
  by_cases h1 : k < chain.length
  · simp only [h1, if_true] at h
    exact Or.inl ⟨h1, h⟩
  · by_cases h2 : k = chain.length
    · subst h2
      simp only [lt_irrefl, if_true, if_false, Option.some.injEq] at h
      exact Or.inr ⟨rfl, h.symm⟩
    · simp [h1, h2] at h

theorem shape.link_new {q : ms_queue} {chain : List Nat} {h t : Nat}
    (sh : shape q chain h t) (i a nn : Nat) (c : cell) (hi : chain[i]? = some a) (hit : i ≤ t)
    (hc : q.mem[a]? = some c) (hnone : c.obj.next_ = none)
    (hnn : nn < q.mem.length) (hnc : nn ∉ chain) :
    shape { q with mem := q.mem.set a { obj := { c.obj with next_ := some nn }, live := true } }
      (chain ++ [nn]) h t ∧ i = t ∧ i + 1 = chain.length := by
  have hlt : a < q.mem.length := (List.getElem?_eq_some.mp hc).1
  have hnx : nxt q.mem a = some none := by simp [nxt, hc, hnone]
  have hval : val q.mem a = some c.obj.value_ := by simp [val, hc]
  have hin : a ∈ chain := chain_mem_of_get _ _ _ hi
  have hlen := sh.last_idx i a hi hnx
  have htl := sh.t_lt
  have hit' : i = t := by omega
  have hne : a ≠ nn := fun e => hnc (e ▸ hin)
  have hun := sh.unlinked nn hnn hnc
  refine ⟨?_, hit', hlen⟩
  refine
    { nodup := ?_, link := ?_, last := ?_, head_eq := ?_, tail_eq := ?_,
      h_le_t := sh.h_le_t, t_lt := ?_, lag := ?_, unlinked := ?_, live := ?_,
      vals := ?_, bound := ?_ }
  · exact List.Nodup.append sh.nodup (List.nodup_singleton _) (by simpa using hnc)
  · intro k a' b hk hk1
    simp only [nxt_set _ _ _ _ hlt]
    rcases snoc_cases _ _ _ _ hk with ⟨h2, hk'⟩ | ⟨h2, _⟩
    · rcases snoc_cases _ _ _ _ hk1 with ⟨h1, hk1'⟩ | ⟨h1, hb⟩
      · have e : a ≠ a' := by
          rintro rfl
          have := chain_idx_inj chain sh.nodup _ _ _ hi hk'
          omega
        simp only [e, if_false]
        exact sh.link k a' b hk' hk1'
      · have hki : k = i := by omega
        rw [hki, hi] at hk'
        simp only [Option.some.injEq] at hk'
        simp [hk', hb]
    · rcases snoc_cases _ _ _ _ hk1 with ⟨h1, _⟩ | ⟨h1, _⟩ <;> omega
  · intro a' ha'
    simp only [List.length_append, List.length_singleton, Nat.add_sub_cancel] at ha'
    rcases snoc_cases _ _ _ _ ha' with ⟨h1, _⟩ | ⟨_, rfl⟩
    · omega
    · simp only [nxt_set _ _ _ _ hlt, hne, if_false]
      exact hun.1
  · rw [sh.head_eq, List.getElem?_append_left (by have := sh.h_le_t; omega)]
  · rw [sh.tail_eq, List.getElem?_append_left sh.t_lt]
  · simp only [List.length_append, List.length_singleton]; omega
  · simp only [List.length_append, List.length_singleton]; omega
  · intro a' ha' hnc'
    simp only [List.length_set] at ha'
    simp only [List.mem_append, List.mem_singleton, not_or] at hnc'
    have e : a ≠ a' := fun e => hnc'.1 (e ▸ hin)
    simp only [nxt_set _ _ _ _ hlt, alive_set _ _ _ _ hlt, val_set _ _ _ _ hlt, e, if_false]
    exact sh.unlinked a' ha' hnc'.1
  · intro k a' hk hka'
    simp only [alive_set _ _ _ _ hlt]
    by_cases e : a = a'
    · simp [e]
    · simp only [e, if_false]
      rcases snoc_cases _ _ _ _ hka' with ⟨_, hka'⟩ | ⟨_, rfl⟩
      · exact sh.live k a' hk hka'
      · exact hun.2.1
  · intro k a' hk hka'
    simp only [val_set _ _ _ _ hlt]
    rcases snoc_cases _ _ _ _ hka' with ⟨_, hka'⟩ | ⟨_, rfl⟩
    · by_cases e : a = a'
      · subst e
        simp only [if_true]
        rw [← hval]
        exact sh.vals k a hk hka'
      · simp only [e, if_false]
        exact sh.vals k a' hk hka'
    · simp only [hne, if_false]
      exact hun.2.2
  · intro a' ha'
    simp only [List.length_set]
    rcases List.mem_append.mp ha' with h1 | h1
    · exact sh.bound a' h1
    · simp only [List.mem_singleton] at h1
      subst h1
      exact hnn

/-! ## Steps of a thread preserve the invariant -/

theorem is_fresh_mono (chain ext : List Nat) (n n' : Nat) (p : Option Nat)
    (hf : is_fresh chain n p) (hn : n ≤ n') (hext : ∀ a ∈ ext, p ≠ some a) :
    is_fresh (chain ++ ext) n' p := by
  obtain ⟨a, rfl, h1, h2⟩ := hf
  refine ⟨a, rfl, by omega, ?_⟩
  intro hm
  rcases List.mem_append.mp hm with h | h
  · exact h2 h
  · exact hext a h rfl

theorem thread.ok_mono (chain ext : List Nat) (h t n h' t' n' : Nat) (l : thread)
    (ok : l.ok chain h t n) (hh : h ≤ h') (ht : t ≤ t') (hn : n ≤ n')
    (hext : ∀ a ∈ ext, l.fresh ≠ some a) : l.ok (chain ++ ext) h' t' n' := by
  have hget : ∀ i, i < chain.length → (chain ++ ext)[i]? = chain[i]? :=
    fun i hi => List.getElem?_append_left hi
  have hlen : chain.length ≤ (chain ++ ext).length := by simp
  cases l with
  | idle => trivial
  | returned r => trivial
  | crashed => trivial
  | push_new v => trivial
  | push_load_tail nn => exact is_fresh_mono _ _ _ _ _ ok hn hext
  | push_load_next nn ct =>
    obtain ⟨hf, i, h1, h2, h3⟩ := ok
    exact ⟨is_fresh_mono _ _ _ _ _ hf hn hext, i, by omega, by omega, by rw [hget i h2]; exact h3⟩
  | push_swing_stale nn ct ctn =>
    obtain ⟨hf, i, h1, h2, h3, h4⟩ := ok
    exact ⟨is_fresh_mono _ _ _ _ _ hf hn hext, i, by omega, by omega,
      by rw [hget i (by omega)]; exact h3, by rw [hget (i + 1) h2]; exact h4⟩
  | push_cas_next nn ct =>
    obtain ⟨hf, i, h1, h2, h3⟩ := ok
    exact ⟨is_fresh_mono _ _ _ _ _ hf hn hext, i, by omega, by omega, by rw [hget i h2]; exact h3⟩
  | push_swing_new nn ct =>
    obtain ⟨i, h1, h2, h3, h4⟩ := ok
    exact ⟨i, by omega, by omega, by rw [hget i (by omega)]; exact h3,
      by rw [hget (i + 1) h2]; exact h4⟩
  | pop_load_head => trivial
  | pop_load_tail ch =>
    obtain ⟨i, h1, h2, h3⟩ := ok
    exact ⟨i, by omega, by omega, by rw [hget i h2]; exact h3⟩
  | pop_load_next ch ct =>
    obtain ⟨i, j, h1, h2, h3, h4, h5, h6⟩ := ok
    exact ⟨i, j, by omega, h2, by omega, by omega, by rw [hget i (by omega)]; exact h5,
      by rw [hget j h4]; exact h6⟩
  | pop_help ct chn =>
    obtain ⟨j, h1, h2, h3, h4⟩ := ok
    exact ⟨j, by omega, by omega, by rw [hget j (by omega)]; exact h3,
      by rw [hget (j + 1) h2]; exact h4⟩
  | pop_cas_head ch chn =>
    obtain ⟨i, h1, h2, h3, h4, h5⟩ := ok
    exact ⟨i, by omega, by omega, by omega, by rw [hget i (by omega)]; exact h4,
      by rw [hget (i + 1) h3]; exact h5⟩
  | pop_exchange ch chn =>
    obtain ⟨i, h1, h2, h3, h4⟩ := ok
    exact ⟨i, by omega, by omega, by rw [hget i (by omega)]; exact h3,
      by rw [hget (i + 1) h2]; exact h4⟩
  | pop_delete ch res =>
    obtain ⟨i, h1, h2, h3⟩ := ok
    exact ⟨i, by omega, by omega, by rw [hget i h2]; exact h3⟩

theorem shape.nxt_of_idx {q : ms_queue} {chain : List Nat} {h t : Nat}
    (sh : shape q chain h t) (i a : Nat) (x : Option Nat) (hi : chain[i]? = some a)
    (hx : nxt q.mem a = some x) :
    (i + 1 < chain.length ∧ x = chain[i + 1]?) ∨ (i + 1 = chain.length ∧ x = none) := by
  have hlt : i < chain.length := (List.getElem?_eq_some.mp hi).1
  by_cases h1 : i + 1 < chain.length
  · left
    have := sh.link i a chain[i + 1] hi (List.getElem?_eq_getElem h1)
    rw [hx] at this
    simp only [Option.some.injEq] at this
    exact ⟨h1, by rw [this, List.getElem?_eq_getElem h1]⟩
  · right
    have h2 : i + 1 = chain.length := by omega
    have h3 : chain[chain.length - 1]? = some a := by
      have : chain.length - 1 = i := by omega
      rw [this]; exact hi
    have := sh.last a h3
    rw [hx] at this
    simp only [Option.some.injEq] at this
    exact ⟨h2, this⟩

theorem shape.cas_tail {q : ms_queue} {chain : List Nat} {h t : Nat}
    (sh : shape q chain h t) (i : Nat) (cur nx : Option Nat) (hi : i ≤ t)
    (hi1 : i + 1 < chain.length) (hcur : cur = chain[i]?) (hnx : nx = chain[i + 1]?) :
    ∃ t', t ≤ t' ∧
      shape { q with tail := (compare_exchange_strong q.tail cur nx).1 } chain h t' ∧
      ∃ i', i' ≤ t' ∧ i' < chain.length ∧
        (compare_exchange_strong q.tail cur nx).2.1 = chain[i']? := by
  by_cases e : q.tail = cur
  · have hti : t = i := by
      have h1 : chain[t]? = chain[i]? := by rw [← sh.tail_eq, e, hcur]
      exact List.getElem?_inj sh.t_lt sh.nodup h1
    subst hti
    simp only [compare_exchange_strong, e, if_true]
    refine ⟨t + 1, Nat.le_succ _, ?_, t, Nat.le_succ _, by omega, hcur⟩
    rw [hnx]
    exact sh.tail_advance hi1
  · simp only [compare_exchange_strong, e, if_false]
    exact ⟨t, le_refl _, sh, t, le_refl _, sh.t_lt, sh.tail_eq⟩

theorem thread_step_inv (q q' : ms_queue) (l l' : thread) (chain : List Nat) (h t : Nat)
    (sh : shape q chain h t) (ok : l.ok chain h t q.mem.length)
    (hs : thread_step q l = some (q', l')) :
    ∃ chain' h' t', step_frame q q' l l' chain chain' h t h' t' := by
  cases l with
  | idle => simp [thread_step] at hs
  | returned r => simp [thread_step] at hs
  | crashed => simp [thread_step] at hs
  | push_new v =>
    simp only [thread_step, new_node, Option.some.injEq, Prod.mk.injEq] at hs
    obtain ⟨rfl, rfl⟩ := hs
    refine ⟨chain, h, t, sh.alloc v, ?_, le_refl _, le_refl _, by simp, Or.inl rfl, ?_⟩
    · refine ⟨q.mem.length, rfl, by simp, ?_⟩
      intro hm
      exact absurd (sh.bound _ hm) (lt_irrefl _)
    · right; right
      exact ⟨rfl, by simp⟩
  | push_load_tail nn =>
    simp only [thread_step, Option.some.injEq, Prod.mk.injEq] at hs
    obtain ⟨rfl, rfl⟩ := hs
    exact ⟨chain, h, t, sh, ⟨ok, t, le_refl _, sh.t_lt, sh.tail_eq⟩, le_refl _, le_refl _,
      le_refl _, Or.inl rfl, Or.inr (Or.inl rfl)⟩
  | push_load_next nn ct =>
    obtain ⟨hf, i, h1, h2, h3⟩ := ok
    simp only [thread_step] at hs
    cases hl : load_next q.mem ct with
    | none =>
      simp only [hl, Option.some.injEq, Prod.mk.injEq] at hs
      obtain ⟨rfl, rfl⟩ := hs
      exact ⟨chain, h, t, sh, trivial, le_refl _, le_refl _, le_refl _, Or.inl rfl, Or.inl rfl⟩
    | some x =>
      simp only [hl] at hs
      obtain ⟨a, hca, hnx, _⟩ := load_next_inv _ _ _ hl
      have hia : chain[i]? = some a := by rw [← h3, hca]
      by_cases hx : x = none
      · simp only [hx, ne_eq, not_true_eq_false, if_false, Option.some.injEq,
          Prod.mk.injEq] at hs
        obtain ⟨rfl, rfl⟩ := hs
        exact ⟨chain, h, t, sh, ⟨hf, i, h1, h2, h3⟩, le_refl _, le_refl _, le_refl _,
          Or.inl rfl, Or.inr (Or.inl rfl)⟩
      · simp only [ne_eq, hx, not_false_eq_true, if_true, Option.some.injEq,
          Prod.mk.injEq] at hs
        obtain ⟨rfl, rfl⟩ := hs
        rcases sh.nxt_of_idx i a x hia hnx with ⟨h4, h5⟩ | ⟨_, h5⟩
        · exact ⟨chain, h, t, sh, ⟨hf, i, h1, h4, h3, h5⟩, le_refl _, le_refl _, le_refl _,
            Or.inl rfl, Or.inr (Or.inl rfl)⟩
        · exact absurd h5 hx
  | push_swing_stale nn ct ctn =>
    obtain ⟨hf, i, h1, h2, h3, h4⟩ := ok
    simp only [thread_step, Option.some.injEq, Prod.mk.injEq] at hs
    obtain ⟨rfl, rfl⟩ := hs
    obtain ⟨t', ht', sh', i', hi1, hi2, hi3⟩ := sh.cas_tail i ct ctn h1 h2 h3 h4
    refine ⟨chain, h, t', sh', ⟨?_, i', hi1, hi2, hi3⟩, le_refl _, ht', le_refl _,
      Or.inl rfl, Or.inr (Or.inl rfl)⟩
    exact hf
  | push_cas_next nn ct =>
    obtain ⟨hf, i, h1, h2, h3⟩ := ok
    simp only [thread_step] at hs
    cases hl : cas_next q.mem ct nn with
    | none =>
      simp only [hl, Option.some.injEq, Prod.mk.injEq] at hs
      obtain ⟨rfl, rfl⟩ := hs
      exact ⟨chain, h, t, sh, trivial, le_refl _, le_refl _, le_refl _, Or.inl rfl, Or.inl rfl⟩
    | some r =>
      obtain ⟨mem', b⟩ := r
      obtain ⟨a, c, hca, hc, _, hcase⟩ := cas_next_inv _ _ _ _ _ hl
      have hia : chain[i]? = some a := by rw [← h3, hca]
      rcases hcase with ⟨hn, rfl, rfl⟩ | ⟨_, rfl, rfl⟩
      · simp only [hl, Option.some.injEq, Prod.mk.injEq] at hs
        obtain ⟨rfl, rfl⟩ := hs
        obtain ⟨n0, rfl, hn0, hn0c⟩ := hf
        obtain ⟨sh', hit, hlen⟩ := sh.link_new i a n0 c hia h1 hc hn hn0 hn0c
        refine ⟨chain ++ [n0], h, t, sh', ?_, le_refl _, le_refl _, by simp,
          Or.inr ⟨n0, rfl, rfl⟩, Or.inl rfl⟩
        refine ⟨i, h1, by simp; omega, ?_, ?_⟩
        · rw [hca]; exact (getElem?_snoc_of_some _ _ _ _ hia).symm
        · rw [hlen]; simp
      · simp only [hl, Option.some.injEq, Prod.mk.injEq] at hs
        obtain ⟨rfl, rfl⟩ := hs
        exact ⟨chain, h, t, sh, ⟨hf, i, h1, h2, h3⟩, le_refl _, le_refl _, le_refl _,
          Or.inl rfl, Or.inr (Or.inl rfl)⟩
  | push_swing_new nn ct =>
    obtain ⟨i, h1, h2, h3, h4⟩ := ok
    simp only [thread_step, Option.some.injEq, Prod.mk.injEq] at hs
    obtain ⟨rfl, rfl⟩ := hs
    obtain ⟨t', ht', sh', _⟩ := sh.cas_tail i ct nn h1 h2 h3 h4
    exact ⟨chain, h, t', sh', trivial, le_refl _, ht', le_refl _, Or.inl rfl, Or.inl rfl⟩
  | pop_load_head =>
    simp only [thread_step, Option.some.injEq, Prod.mk.injEq] at hs
    obtain ⟨rfl, rfl⟩ := hs
    exact ⟨chain, h, t, sh, ⟨h, le_refl _, lt_of_le_of_lt sh.h_le_t sh.t_lt, sh.head_eq⟩,
      le_refl _, le_refl _, le_refl _, Or.inl rfl, Or.inl rfl⟩
  | pop_load_tail ch =>
    obtain ⟨i, h1, h2, h3⟩ := ok
    simp only [thread_step, Option.some.injEq, Prod.mk.injEq] at hs
    obtain ⟨rfl, rfl⟩ := hs
    exact ⟨chain, h, t, sh,
      ⟨i, t, h1, le_trans h1 sh.h_le_t, le_refl _, sh.t_lt, h3, sh.tail_eq⟩,
      le_refl _, le_refl _, le_refl _, Or.inl rfl, Or.inl rfl⟩
  | pop_load_next ch ct =>
    obtain ⟨i, j, h1, h2, h3, h4, h5, h6⟩ := ok
    simp only [thread_step] at hs
    cases hl : load_next q.mem ch with
    | none =>
      simp only [hl, Option.some.injEq, Prod.mk.injEq] at hs
      obtain ⟨rfl, rfl⟩ := hs
      exact ⟨chain, h, t, sh, trivial, le_refl _, le_refl _, le_refl _, Or.inl rfl, Or.inl rfl⟩
    | some x =>
      simp only [hl] at hs
      obtain ⟨a, hca, hnx, _⟩ := load_next_inv _ _ _ hl
      have hia : chain[i]? = some a := by rw [← h5, hca]
      by_cases e : ch = ct
      · by_cases hx : x = none
        · simp only [e, hx, ne_eq, not_true_eq_false, if_true, if_false, Option.some.injEq,
            Prod.mk.injEq] at hs
          obtain ⟨rfl, rfl⟩ := hs
          exact ⟨chain, h, t, sh, trivial, le_refl _, le_refl _, le_refl _, Or.inl rfl,
            Or.inl rfl⟩
        · simp only [e, hx, ne_eq, not_false_eq_true, if_true, Option.some.injEq,
            Prod.mk.injEq] at hs
          obtain ⟨rfl, rfl⟩ := hs
          rcases sh.nxt_of_idx i a x hia hnx with ⟨h7, h8⟩ | ⟨_, h8⟩
          · exact ⟨chain, h, t, sh, ⟨i, by omega, h7, by rw [← e]; exact h5, h8⟩,
              le_refl _, le_refl _, le_refl _, Or.inl rfl, Or.inl rfl⟩
          · exact absurd h8 hx
      · simp only [e, if_false, Option.some.injEq, Prod.mk.injEq] at hs
        obtain ⟨rfl, rfl⟩ := hs
        have hij : i ≠ j := by
          rintro rfl
          exact e (h5.trans h6.symm)
        rcases sh.nxt_of_idx i a x hia hnx with ⟨h7, h8⟩ | ⟨h7, _⟩
        · exact ⟨chain, h, t, sh, ⟨i, h1, by omega, h7, h5, h8⟩,
            le_refl _, le_refl _, le_refl _, Or.inl rfl, Or.inl rfl⟩
        · omega
  | pop_help ct chn =>
    obtain ⟨j, h1, h2, h3, h4⟩ := ok
    simp only [thread_step, Option.some.injEq, Prod.mk.injEq] at hs
    obtain ⟨rfl, rfl⟩ := hs
    obtain ⟨t', ht', sh', _⟩ := sh.cas_tail j ct chn h1 h2 h3 h4
    exact ⟨chain, h, t', sh', trivial, le_refl _, ht', le_refl _, Or.inl rfl, Or.inl rfl⟩
  | pop_cas_head ch chn =>
    obtain ⟨i, h1, h2, h3, h4, h5⟩ := ok
    simp only [thread_step] at hs
    by_cases e : q.head = ch
    · simp only [compare_exchange_strong, e, if_true, Option.some.injEq,
        Prod.mk.injEq] at hs
      obtain ⟨rfl, rfl⟩ := hs
      have hhi : h = i := by
        have h6 : chain[h]? = chain[i]? := by rw [← sh.head_eq, e, h4]
        exact List.getElem?_inj (lt_of_le_of_lt sh.h_le_t sh.t_lt) sh.nodup h6
      subst hhi
      refine ⟨chain, h + 1, t, ?_, ⟨h, Nat.lt_succ_self _, h3, h4, h5⟩, Nat.le_succ _,
        le_refl _, le_refl _, Or.inl rfl, Or.inl rfl⟩
      rw [h5]
      exact sh.head_advance h2
    · simp only [compare_exchange_strong, e, if_false, Option.some.injEq, Prod.mk.injEq,
        Bool.false_eq_true] at hs
      obtain ⟨rfl, rfl⟩ := hs
      exact ⟨chain, h, t, sh, trivial, le_refl _, le_refl _, le_refl _, Or.inl rfl,
        Or.inl rfl⟩
  | pop_exchange ch chn =>
    obtain ⟨i, h1, h2, h3, h4⟩ := ok
    simp only [thread_step] at hs
    cases hl : exchange_value q.mem chn with
    | none =>
      simp only [hl, Option.some.injEq, Prod.mk.injEq] at hs
      obtain ⟨rfl, rfl⟩ := hs
      exact ⟨chain, h, t, sh, trivial, le_refl _, le_refl _, le_refl _, Or.inl rfl, Or.inl rfl⟩
    | some r =>
      obtain ⟨mem1, rv⟩ := r
      obtain ⟨a, c, hca, hc, _, _, rfl⟩ := exchange_value_inv _ _ _ _ hl
      have hia : chain[i + 1]? = some a := by rw [← h4, hca]
      have sh' := sh.exchange (i + 1) a c h1 hia hc
      cases rv with
      | none =>
        simp only [hl, Option.some.injEq, Prod.mk.injEq] at hs
        obtain ⟨rfl, rfl⟩ := hs
        exact ⟨chain, h, t, sh', trivial, le_refl _, le_refl _, by simp, Or.inl rfl,
          Or.inl rfl⟩
      | some res =>
        simp only [hl, Option.some.injEq, Prod.mk.injEq] at hs
        obtain ⟨rfl, rfl⟩ := hs
        exact ⟨chain, h, t, sh', ⟨i, h1, by omega, h3⟩, le_refl _, le_refl _, by simp,
          Or.inl rfl, Or.inl rfl⟩
  | pop_delete ch res =>
    obtain ⟨i, h1, h2, h3⟩ := ok
    simp only [thread_step] at hs
    cases hl : delete_node q.mem ch with
    | none =>
      simp only [hl, Option.some.injEq, Prod.mk.injEq] at hs
      obtain ⟨rfl, rfl⟩ := hs
      exact ⟨chain, h, t, sh, trivial, le_refl _, le_refl _, le_refl _, Or.inl rfl, Or.inl rfl⟩
    | some mem2 =>
      simp only [hl, Option.some.injEq, Prod.mk.injEq] at hs
      obtain ⟨rfl, rfl⟩ := hs
      have hch : ch = some chain[i] := by rw [h3, List.getElem?_eq_getElem h2]
      subst hch
      obtain ⟨c, hc, _, rfl⟩ := delete_node_inv _ _ _ hl
      exact ⟨chain, h, t, sh.delete i chain[i] c h1 (List.getElem?_eq_getElem h2) hc, trivial,
        le_refl _, le_refl _, by simp, Or.inl rfl, Or.inl rfl⟩

/-! ## The invariant holds in every reachable state -/

theorem thread.fresh_lt (chain : List Nat) (h t n : Nat) (l : thread) (a : Nat)
    (ok : l.ok chain h t n) (hf : l.fresh = some a) : a < n ∧ a ∉ chain := by
  have key : is_fresh chain n l.fresh → a < n ∧ a ∉ chain := by
    rintro ⟨b, hb, h1, h2⟩
    rw [hf] at hb
    cases hb
    exact ⟨h1, h2⟩
  cases l with
  | push_load_tail nn => exact key ok
  | push_load_next nn ct => exact key ok.1
  | push_swing_stale nn ct ctn => exact key ok.1
  | push_cas_next nn ct => exact key ok.1
  | _ => simp [thread.fresh] at hf

theorem op.enter_fresh (o : op) : o.enter.fresh = none := by
  cases o <;> rfl

theorem op.enter_ok (o : op) (chain : List Nat) (h t n : Nat) : o.enter.ok chain h t n := by
  cases o <;> trivial

theorem threads_set_get (ts : List thread) (t i : Nat) (x l : thread)
    (h : (ts.set t x)[i]? = some l) : (t = i ∧ l = x) ∨ (t ≠ i ∧ ts[i]? = some l) := by
  rw [List.getElem?_set] at h
  by_cases e : t = i
  · left
    simp only [e, if_true] at h
    by_cases h2 : i < ts.length
    · simp only [h2, if_true, Option.some.injEq] at h
      exact ⟨e, h.symm⟩
    · simp [h2] at h
  · right
    simp only [e, if_false] at h
    exact ⟨e, h⟩

theorem system.inv_call (s : system) (chain : List Nat) (h t : Nat) (inv : s.inv chain h t)
    (i : Nat) (o : op) : system.inv { s with threads := s.threads.set i o.enter } chain h t := by
  refine ⟨inv.shape, ?_, ?_⟩
  · intro j l hj
    rcases threads_set_get _ _ _ _ _ hj with ⟨_, rfl⟩ | ⟨_, hj'⟩
    · exact op.enter_ok o _ _ _ _
    · exact inv.locals j l hj'
  · intro j k lj lk a hjk hj hk hfj
    rcases threads_set_get _ _ _ _ _ hj with ⟨_, rfl⟩ | ⟨_, hj'⟩
    · rw [op.enter_fresh] at hfj; cases hfj
    · rcases threads_set_get _ _ _ _ _ hk with ⟨_, rfl⟩ | ⟨_, hk'⟩
      · rw [op.enter_fresh]; simp
      · exact inv.distinct j k lj lk a hjk hj' hk' hfj

theorem system.inv_step (s : system) (chain : List Nat) (h t : Nat) (inv : s.inv chain h t)
    (i : Nat) (l l' : thread) (q' : ms_queue) (hl : s.threads[i]? = some l)
    (hs : thread_step s.q l = some (q', l')) :
    ∃ chain' h' t', system.inv { q := q', threads := s.threads.set i l' } chain' h' t' := by
  obtain ⟨chain', h', t', fr⟩ := thread_step_inv s.q q' l l' chain h t inv.shape
    (inv.locals i l hl) hs
  have hext : ∃ ext, chain' = chain ++ ext ∧ ∀ a ∈ ext, l.fresh = some a := by
    rcases fr.ext with rfl | ⟨a, ha, rfl⟩
    · exact ⟨[], by simp, by simp⟩
    · exact ⟨[a], rfl, by simpa using ha⟩
  obtain ⟨ext, rfl, hext⟩ := hext
  have others : ∀ j lj, i ≠ j → s.threads[j]? = some lj →
      lj.ok (chain ++ ext) h' t' q'.mem.length := by
    intro j lj hij hj
    refine thread.ok_mono chain ext h t _ h' t' _ lj (inv.locals j lj hj) fr.h_le fr.t_le
      fr.n_le ?_
    intro a ha
    exact inv.distinct i j l lj a hij hl hj (hext a ha)
  have new_fresh : ∀ j lj a, i ≠ j → s.threads[j]? = some lj → l'.fresh = some a →
      lj.fresh ≠ some a := by
    intro j lj a hij hj hfa
    rcases fr.fresh with h1 | h1 | ⟨h1, _⟩
    · rw [h1] at hfa; cases hfa
    · rw [h1] at hfa
      exact inv.distinct i j l lj a hij hl hj hfa
    · rw [h1] at hfa
      cases hfa
      intro hc
      have := (thread.fresh_lt chain h t _ lj _ (inv.locals j lj hj) hc).1
      exact lt_irrefl _ this
  refine ⟨chain ++ ext, h', t', fr.shape, ?_, ?_⟩
  · intro j lj hj
    rcases threads_set_get _ _ _ _ _ hj with ⟨_, rfl⟩ | ⟨hij, hj'⟩
    · exact fr.ok
    · exact others j lj hij hj'
  · intro j k lj lk a hjk hj hk hfj
    rcases threads_set_get _ _ _ _ _ hj with ⟨hij, rfl⟩ | ⟨hij, hj'⟩
    · rcases threads_set_get _ _ _ _ _ hk with ⟨hik, rfl⟩ | ⟨hik, hk'⟩
      · omega
      · exact new_fresh k lk a hik hk' hfj
    · rcases threads_set_get _ _ _ _ _ hk with ⟨hik, rfl⟩ | ⟨hik, hk'⟩
      · intro hc
        exact new_fresh j lj a hij hj' hc hfj
      · exact inv.distinct j k lj lk a hjk hj' hk' hfj

theorem system.inv_next (s s' : system) (e : event) (chain : List Nat) (h t : Nat)
    (inv : s.inv chain h t) (hn : s.next e = some s') :
    ∃ chain' h' t', s'.inv chain' h' t' := by
  cases e with
  | call i o =>
    simp only [system.next] at hn
    cases hl : s.threads[i]? with
    | none => simp [hl] at hn
    | some l =>
      cases l <;> simp only [hl, Option.some.injEq] at hn <;>
        first
          | (subst hn; exact ⟨chain, h, t, system.inv_call s chain h t inv i o⟩)
          | cases hn
  | step i =>
    simp only [system.next] at hn
    cases hl : s.threads[i]? with
    | none => simp [hl] at hn
    | some l =>
      simp only [hl] at hn
      cases hs : thread_step s.q l with
      | none => simp [hs] at hn
      | some r =>
        obtain ⟨q', l'⟩ := r
        simp only [hs, Option.some.injEq] at hn
        subst hn
        exact system.inv_step s chain h t inv i l l' q' hl hs

theorem system.inv_run (es : List event) (s s' : system) (chain : List Nat) (h t : Nat)
    (inv : s.inv chain h t) (hr : s.run es = some s') :
    ∃ chain' h' t', s'.inv chain' h' t' := by
  induction es generalizing s chain h t with
  | nil =>
    simp only [system.run, Option.some.injEq] at hr
    subst hr
    exact ⟨chain, h, t, inv⟩
  | cons e es ih =>
    simp only [system.run] at hr
    cases hn : s.next e with
    | none => simp [hn] at hr
    | some s1 =>
      simp only [hn] at hr
      obtain ⟨c1, h1, t1, inv1⟩ := system.inv_next s s1 e chain h t inv hn
      exact ih s1 c1 h1 t1 inv1 hr

theorem system.inv_init (n : Nat) : (system.init n).inv [0] 0 0 := by
  refine ⟨?_, ?_, ?_⟩
  · refine
      { nodup := by simp, link := ?_, last := ?_, head_eq := rfl, tail_eq := rfl,
        h_le_t := le_refl _, t_lt := by simp, lag := by simp, unlinked := ?_, live := ?_,
        vals := ?_, bound := ?_ }
    · intro k a b hk hk1
      simp at hk1
    · intro a ha
      simp at ha
      subst ha
      rfl
    · intro a ha hnc
      simp [system.init, ms_queue.new, new_node] at ha
      subst ha
      simp at hnc
    · intro k a _ hka
      cases k with
      | zero => simp at hka; subst hka; rfl
      | succ k => simp at hka
    · intro k a hk hka
      cases k with
      | zero => omega
      | succ k => simp at hka
    · intro a ha
      simp at ha
      subst ha
      simp [system.init, ms_queue.new, new_node]
  · intro i l hi
    simp only [system.init, List.getElem?_replicate] at hi
    split at hi
    · cases hi; trivial
    · cases hi
  · intro i j li lj a _ hi _ hfi
    simp only [system.init, List.getElem?_replicate] at hi
    split at hi
    · cases hi; simp [thread.fresh] at hfi
    · cases hi

theorem reachable_inv (n : Nat) (s : system) (hr : reachable n s) :
    ∃ chain h t, s.inv chain h t := by
  obtain ⟨es, hes⟩ := hr
  exact system.inv_run es _ s [0] 0 0 (system.inv_init n) hes

/-! ## Calls that run without interference, from a state of the invariant -/

theorem alive_cell (mem : List cell) (a : Nat) (hl : alive mem a) :
    ∃ c, mem[a]? = some c ∧ c.live = true := by
  simp only [alive, Option.map_eq_some'] at hl
  exact hl

theorem shape.reaches_tail {q : ms_queue} {chain : List Nat} {h t : Nat}
    (sh : shape q chain h t) (d k : Nat) (hk : k + d = t) (hh : h ≤ k) :
    reaches q.mem chain[k]? chain[t]? := by
  induction d generalizing k with
  | zero =>
    have : k = t := by omega
    subst this
    exact reaches.here _
  | succ d ih =>
    have htl := sh.t_lt
    have hk1 : k + 1 < chain.length := by omega
    have hk0 : k < chain.length := by omega
    have h1 : chain[k]? = some chain[k] := List.getElem?_eq_getElem hk0
    have h2 : chain[k + 1]? = some chain[k + 1] := List.getElem?_eq_getElem hk1
    have hl := load_next_of q.mem chain[k] (some chain[k + 1]) (sh.link k _ _ h1 h2)
      (sh.live k _ hh h1)
    rw [h1]
    refine reaches.next _ _ _ hl ?_
    rw [← h2]
    exact ih (k + 1) (by omega) (by omega)

theorem shape.load_tail {q : ms_queue} {chain : List Nat} {h t : Nat}
    (sh : shape q chain h t) :
    (t + 1 = chain.length ∧ load_next q.mem q.tail = some none) ∨
    (t + 2 = chain.length ∧ load_next q.mem q.tail = some chain[t + 1]? ∧
      load_next q.mem chain[t + 1]? = some none) := by
  have htl := sh.t_lt
  have hlag := sh.lag
  have h1 : chain[t]? = some chain[t] := List.getElem?_eq_getElem htl
  have hlive := sh.live t _ sh.h_le_t h1
  by_cases hc : t + 1 = chain.length
  · left
    refine ⟨hc, ?_⟩
    rw [sh.tail_eq, h1]
    refine load_next_of _ _ _ (sh.last _ ?_) hlive
    have : chain.length - 1 = t := by omega
    rw [this]; exact h1
  · right
    have hk1 : t + 1 < chain.length := by omega
    have h2 : chain[t + 1]? = some chain[t + 1] := List.getElem?_eq_getElem hk1
    refine ⟨by omega, ?_, ?_⟩
    · rw [sh.tail_eq, h1, h2]
      exact load_next_of _ _ _ (sh.link t _ _ h1 h2) hlive
    · rw [h2]
      refine load_next_of _ _ _ (sh.last _ ?_) (sh.live (t + 1) _ (by have := sh.h_le_t; omega) h2)
      have : chain.length - 1 = t + 1 := by omega
      rw [this]; exact h2

theorem shape.tail_ok {q : ms_queue} {chain : List Nat} {h t : Nat}
    (sh : shape q chain h t) : tail_ok q := by
  refine ⟨?_, ?_⟩
  · rw [sh.head_eq, sh.tail_eq]
    exact sh.reaches_tail (t - h) h (by have := sh.h_le_t; omega) (le_refl _)
  · rcases sh.load_tail with ⟨_, h1⟩ | ⟨h0, h1, h2⟩
    · exact Or.inl h1
    · right
      have hk1 : t + 1 < chain.length := by omega
      have h3 : chain[t + 1]? = some chain[t + 1] := List.getElem?_eq_getElem hk1
      rw [h3] at h1 h2
      exact ⟨chain[t + 1], h1, h2⟩

theorem shape.tail_is_last_iff {q : ms_queue} {chain : List Nat} {h t : Nat}
    (sh : shape q chain h t) : tail_is_last q ↔ t + 1 = chain.length := by
  unfold tail_is_last
  rcases sh.load_tail with ⟨h0, h1⟩ | ⟨h0, h1, _⟩
  · simp [h0, h1]
  · have hk1 : t + 1 < chain.length := by omega
    rw [h1, List.getElem?_eq_getElem hk1]
    constructor
    · intro hc; cases hc
    · intro hc; omega

theorem push_loop_last {q : ms_queue} {chain : List Nat} {h t : Nat}
    (sh : shape q chain h t) (ht : t + 1 = chain.length) (nn : Nat)
    (hnn : nn < q.mem.length) (hnc : nn ∉ chain) (fuel : Nat) :
    ∃ q', push_loop (fuel + 1) q (some nn) q.tail = .ok (q', 1) ∧
      shape q' (chain ++ [nn]) h (t + 1) ∧ q'.tail = some nn ∧ q'.head = q.head := by
  have htl := sh.t_lt
  have h1 : chain[t]? = some chain[t] := List.getElem?_eq_getElem htl
  obtain ⟨c, hc, hlive⟩ := alive_cell _ _ (sh.live t _ sh.h_le_t h1)
  have hnx : c.obj.next_ = none := by
    have := sh.last chain[t] (by
      have : chain.length - 1 = t := by omega
      rw [this]; exact h1)
    simpa [nxt, hc] using this
  obtain ⟨sh', _, _⟩ := sh.link_new t chain[t] nn c h1 (le_refl _) hc hnx hnn hnc
  have sh2 := sh'.tail_advance (by simp; omega)
  have e : (chain ++ [nn])[t + 1]? = some nn := by rw [ht]; simp
  rw [e] at sh2
  refine ⟨_, ?_, sh2, rfl, rfl⟩
  have htail : q.tail = some chain[t] := by rw [sh.tail_eq, h1]
  simp [push_loop, load_next, deref, htail, hc, hlive, hnx, cas_next, compare_exchange_strong,
    store]

theorem push_solo {q : ms_queue} {chain : List Nat} {h t : Nat}
    (sh : shape q chain h t) (v : Int) (fuel : Nat) :
    ∃ q' k, push_with true true (fuel + 3) q v = (q', .ok k) ∧ k ≤ 3 ∧
      shape q' (chain ++ [q.mem.length]) h chain.length ∧ q'.tail = some q.mem.length ∧
      q'.head = q.head := by
  have sh1 := sh.alloc v
  have hnn : q.mem.length
      < (q.mem ++ [({ obj := { value_ := some v, next_ := none }, live := true } : cell)]).length := by
    simp
  have hnc : q.mem.length ∉ chain := fun hm => absurd (sh.bound _ hm) (lt_irrefl _)
  rcases sh1.load_tail with ⟨h0, _⟩ | ⟨h0, hl1, _⟩
  · obtain ⟨q', hq', sh', ht', hh'⟩ := push_loop_last sh1 h0 q.mem.length hnn hnc (fuel + 2)
    refine ⟨q', 1, ?_, by omega, by rw [← h0]; exact sh', ht', hh'⟩
    simp only [push_with, new_node, if_true]
    simp only at hq'
    rw [hq']
  · have hk1 : t + 1 < chain.length := by omega
    have htl := sh.t_lt
    have e1 : chain[t + 1]? = some chain[t + 1] := List.getElem?_eq_getElem hk1
    have e0 : chain[t]? = some chain[t] := List.getElem?_eq_getElem htl
    have sh2 := sh1.tail_advance hk1
    obtain ⟨q', hq', sh', ht', hh'⟩ := push_loop_last sh2 (by omega) q.mem.length hnn hnc fuel
    refine ⟨q', 3, ?_, le_refl _, by rw [← h0]; exact sh', ht', hh'⟩
    have hne : chain[t + 1] ≠ chain[t] := by
      intro hc
      have := chain_idx_inj chain sh.nodup (t + 1) t chain[t + 1] e1 (by rw [e0, hc])
      omega
    simp only [e1] at hq' hl1
    have htail : q.tail = some chain[t] := by rw [sh.tail_eq, e0]
    simp only [htail] at hl1
    simp only [push_with, new_node, if_true, htail]
    rw [push_loop]
    simp only [hl1, ne_eq, not_false_eq_true, if_true, compare_exchange_strong,
      Option.some.injEq, reduceCtorEq]
    rw [push_loop]
    simp only [hl1, ne_eq, not_false_eq_true, if_true, compare_exchange_strong,
      Option.some.injEq, reduceCtorEq, hne, if_false]
    rw [hq']

theorem pop_solo {q : ms_queue} {chain : List Nat} {h t : Nat}
    (sh : shape q chain h t) (fuel : Nat) :
    ∃ q' r h' t', pop_loop (fuel + 1) q = .ok (q', r, 1) ∧ shape q' chain h' t' ∧
      ((h = t ∧ r = none ∧ h' = h ∧ t' + 1 = chain.length ∧ q'.mem = q.mem ∧
          q'.head = q.head) ∨
       (h < t ∧ h' = h + 1 ∧ t' = t ∧ q'.tail = q.tail ∧ ∃ v, r = some v)) := by
  have htl := sh.t_lt
  have hhl : h < chain.length := lt_of_le_of_lt sh.h_le_t htl
  have eh : chain[h]? = some chain[h] := List.getElem?_eq_getElem hhl
  have et : chain[t]? = some chain[t] := List.getElem?_eq_getElem htl
  have hhead : q.head = some chain[h] := by rw [sh.head_eq, eh]
  have htail : q.tail = some chain[t] := by rw [sh.tail_eq, et]
  obtain ⟨c, hc, hlive⟩ := alive_cell _ _ (sh.live h _ (le_refl _) eh)
  have hnxc : nxt q.mem chain[h] = some c.obj.next_ := by simp [nxt, hc]
  by_cases hht : h = t
  · subst hht
    rcases sh.nxt_of_idx h chain[h] c.obj.next_ eh hnxc with ⟨h1, h2⟩ | ⟨h1, h2⟩
    · have e1 : chain[h + 1]? = some chain[h + 1] := List.getElem?_eq_getElem h1
      rw [e1] at h2
      refine ⟨_, none, h, h + 1, ?_, sh.tail_advance h1, Or.inl ⟨rfl, rfl, rfl, ?_, rfl, rfl⟩⟩
      · simp [pop_loop, load_next, deref, hhead, htail, hc, hlive, h2,
          compare_exchange_strong, e1]
      · have := sh.lag; omega
    · refine ⟨q, none, h, h, ?_, sh, Or.inl ⟨rfl, rfl, rfl, h1, rfl, rfl⟩⟩
      simp [pop_loop, load_next, deref, hhead, htail, hc, hlive, h2]
  · have hlt : h < t := lt_of_le_of_ne sh.h_le_t hht
    have h1 : h + 1 < chain.length := by omega
    have e1 : chain[h + 1]? = some chain[h + 1] := List.getElem?_eq_getElem h1
    have hne : chain[h] ≠ chain[t] := by
      intro hcc
      exact hht (chain_idx_inj chain sh.nodup h t chain[h] eh (by rw [et, hcc]))
    have hne1 : chain[h + 1] ≠ chain[h] := by
      intro hcc
      have := chain_idx_inj chain sh.nodup (h + 1) h chain[h + 1] e1 (by rw [eh, hcc])
      omega
    have h2 : c.obj.next_ = some chain[h + 1] := by
      rcases sh.nxt_of_idx h chain[h] c.obj.next_ eh hnxc with ⟨_, h2⟩ | ⟨h3, _⟩
      · rw [h2, e1]
      · omega
    obtain ⟨cb, hcb, hbl⟩ := alive_cell _ _ (sh.live (h + 1) _ (Nat.le_succ _) e1)
    obtain ⟨v, hv⟩ := sh.vals (h + 1) _ (Nat.lt_succ_self _) e1
    have hvb : cb.obj.value_ = some v := by simpa [val, hcb] using hv
    have sh1 := sh.head_advance hlt
    have sh2 := sh1.exchange (h + 1) chain[h + 1] cb (le_refl _) e1 hcb
    have hc' : (q.mem.set chain[h + 1]
        { obj := { cb.obj with value_ := none }, live := true })[chain[h]]? = some c := by
      rw [List.getElem?_set_ne hne1]; exact hc
    have sh3 := sh2.delete h chain[h] c (Nat.lt_succ_self _) eh hc'
    refine ⟨_, some v, h + 1, t, ?_, sh3, Or.inr ⟨hlt, rfl, rfl, rfl, v, rfl⟩⟩
    simp only [pop_loop, load_next, deref, hhead, htail, hc, hlive, h2, if_true,
      Option.map_some', Option.some.injEq, hne, if_false, compare_exchange_strong,
      exchange_value, hcb, hbl, store, hvb, delete_node, hc', e1]

/-! ## A call run by the step machine alone is the call of the sequential embedding -/

theorem push_loop_solo (fuel : Nat) (q q' : ms_queue) (nn ct : Option Nat) (n : Nat)
    (h : push_loop fuel q nn ct = .ok (q', n)) :
    ∃ k, solo k q (.push_load_next nn ct) = some (q', .returned .monostate) := by
  induction fuel generalizing q ct n with
  | zero => simp [push_loop] at h
  | succ fuel ih =>
    rw [push_loop] at h
    cases hl : load_next q.mem ct with
    | none => simp [hl] at h
    | some x =>
      simp only [hl] at h
      by_cases hx : x = none
      · simp only [hx, ne_eq, not_true_eq_false, if_false] at h
        cases hc : cas_next q.mem ct nn with
        | none => simp [hc] at h
        | some r =>
          obtain ⟨mem', b⟩ := r
          cases b with
          | true =>
            simp only [hc, Except.ok.injEq, Prod.mk.injEq] at h
            obtain ⟨rfl, _⟩ := h
            exact ⟨3, by simp [solo, thread_step, hl, hx, hc]⟩
          | false =>
            simp only [hc] at h
            cases hp : push_loop fuel { q with mem := mem' } nn ct with
            | error e => simp [hp] at h
            | ok r =>
              obtain ⟨q1, n1⟩ := r
              simp only [hp, Except.ok.injEq, Prod.mk.injEq] at h
              obtain ⟨rfl, _⟩ := h
              obtain ⟨k, hk⟩ := ih _ _ _ hp
              exact ⟨k + 2, by simp [solo, thread_step, hl, hx, hc, hk]⟩
      · simp only [ne_eq, hx, not_false_eq_true, if_true] at h
        cases hp : push_loop fuel
            { q with tail := (compare_exchange_strong q.tail ct x).1 } nn
            (compare_exchange_strong q.tail ct x).2.1 with
        | error e => simp [hp] at h
        | ok r =>
          obtain ⟨q1, n1⟩ := r
          simp only [hp, Except.ok.injEq, Prod.mk.injEq] at h
          obtain ⟨rfl, _⟩ := h
          obtain ⟨k, hk⟩ := ih _ _ _ hp
          exact ⟨k + 2, by simp [solo, thread_step, hl, hx, hk]⟩

theorem push_solo_run (fuel : Nat) (q q' : ms_queue) (v : Int)
    (h : push fuel q v = .ok q') :
    ∃ k, solo k q (.push_new v) = some (q', .returned .monostate) := by
  simp only [push, push_with, if_true, new_node] at h
  cases hp : push_loop fuel
      { q with mem := q.mem ++ [{ obj := { value_ := some v, next_ := none }, live := true }] }
      (some q.mem.length) q.tail with
  | error e => simp [hp] at h
  | ok r =>
    obtain ⟨q1, n1⟩ := r
    simp only [hp, Except.ok.injEq] at h
    subst h
    obtain ⟨k, hk⟩ := push_loop_solo _ _ _ _ _ _ hp
    exact ⟨k + 2, by simp [solo, thread_step, new_node, hk]⟩

theorem pop_loop_solo (fuel : Nat) (q q' : ms_queue) (r : Option Int) (n : Nat)
    (h : pop_loop fuel q = .ok (q', r, n)) :
    ∃ k, solo k q .pop_load_head = some (q', .returned (.optional r)) := by
  induction fuel generalizing q n with
  | zero => simp [pop_loop] at h
  | succ fuel ih =>
    rw [pop_loop] at h
    cases hl : load_next q.mem q.head with
    | none => simp [hl] at h
    | some x =>
      simp only [hl] at h
      by_cases e : q.head = q.tail
      · simp only [e, if_true] at h
        have hl' : load_next q.mem q.tail = some x := e ▸ hl
        by_cases hx : x = none
        · simp only [hx, ne_eq, not_true_eq_false, if_false, Except.ok.injEq,
            Prod.mk.injEq] at h
          obtain ⟨rfl, rfl, _⟩ := h
          exact ⟨3, by simp [solo, thread_step, hl', hx, e]⟩
        · simp only [ne_eq, hx, not_false_eq_true, if_true, Except.ok.injEq,
            Prod.mk.injEq] at h
          obtain ⟨rfl, rfl, _⟩ := h
          exact ⟨4, by simp [solo, thread_step, hl', hx, e]⟩
      · simp only [e, if_false, compare_exchange_strong, if_true] at h
        cases hx : exchange_value q.mem x with
        | none => simp [hx] at h
        | some r1 =>
          obtain ⟨mem1, rp⟩ := r1
          cases rp with
          | none => simp [hx] at h
          | some res =>
            simp only [hx] at h
            cases hd : delete_node mem1 q.head with
            | none => simp [hd] at h
            | some mem2 =>
              simp only [hd, Except.ok.injEq, Prod.mk.injEq] at h
              obtain ⟨rfl, rfl, _⟩ := h
              exact ⟨6, by simp [solo, thread_step, hl, e, compare_exchange_strong, hx, hd]⟩

theorem pop_solo_run (fuel : Nat) (q q' : ms_queue) (r : Option Int)
    (h : pop fuel q = .ok (q', r)) :
    ∃ k, solo k q .pop_load_head = some (q', .returned (.optional r)) := by
  simp only [pop] at h
  cases hp : pop_loop fuel q with
  | error e => simp [hp] at h
  | ok x =>
    obtain ⟨q1, r1, n1⟩ := x
    simp only [hp, Except.ok.injEq, Prod.mk.injEq] at h
    obtain ⟨rfl, rfl⟩ := h
    exact pop_loop_solo _ _ _ _ _ hp

/-! ## Claims about concurrent executions -/

/-- C3, the failing execution: with three threads, thread 0 enters `push(1)` and reads
`tail`; thread 1 then completes `push(2)` and `pop()`, and that `pop` deletes the node
thread 0 has read; the next step of thread 0, the load `cur_tail->next_`, dereferences the
deleted node. -/
theorem push_reads_deleted_node :
    (system.init 3).run (schedule_uaf.take 16) = some state_uaf ∧
    state_uaf.threads[0]? = some (.push_load_next (some 1) (some 0)) ∧
    (state_uaf.q.mem[0]?).map (fun c => c.live) = some false ∧
    thread_step state_uaf.q (.push_load_next (some 1) (some 0)) = some (state_uaf.q, .crashed) ∧
    ((system.init 3).run schedule_uaf).map (fun s => s.threads[0]?) = some (some .crashed) := by
  refine ⟨by decide, by decide, by decide, by decide, by decide⟩

/-- C10, counterexample: `schedule_lag` leads to a state in which `tail` is the node before
the last; a `pop()` run alone from there returns 1 and leaves `tail` at a node whose `next_`
is not null, so `tail` is not the last node after that operation. -/
theorem tail_not_last_after_pop :
    (system.init 2).run schedule_lag = some state_lag ∧
    pop 1 state_lag.q = .ok (queue_lag_popped, some 1) ∧
    solo 6 state_lag.q .pop_load_head
      = some (queue_lag_popped, .returned (.optional (some 1))) ∧
    load_next queue_lag_popped.mem queue_lag_popped.tail = some (some 2) ∧
    ¬ tail_is_last queue_lag_popped := by
  refine ⟨by decide, by decide, by decide, by decide, ?_⟩
  unfold tail_is_last
  decide

/-- C10, amended: in every state reachable from a fresh queue by any interleaving of the
steps of any number of threads, `tail` is reachable from `head` and is the last node or
the node immediately before the last.  A `push` run alone from such a state returns (as the
function `push` and as steps of one thread) and leaves `tail` the last node.  A `pop` run
alone from such a state returns; it leaves `tail` the last node when `head` equalled `tail`
or `tail` was the last node before, and it leaves `tail` unchanged when `head` differed from
`tail`. -/
theorem tail_lags_at_most_one (n : Nat) (s : system) (hr : reachable n s) :
    tail_ok s.q ∧
    (∀ fuel v, ∃ q' k, push (fuel + 3) s.q v = .ok q' ∧
      solo k s.q (.push_new v) = some (q', .returned .monostate) ∧ tail_is_last q') ∧
    (∀ fuel, ∃ q' r k, pop (fuel + 1) s.q = .ok (q', r) ∧
      solo k s.q .pop_load_head = some (q', .returned (.optional r)) ∧
      ((s.q.head = s.q.tail ∨ tail_is_last s.q) → tail_is_last q') ∧
      (s.q.head ≠ s.q.tail → q'.tail = s.q.tail)) := by
  obtain ⟨chain, h, t, inv⟩ := reachable_inv n s hr
  have sh := inv.shape
  refine ⟨sh.tail_ok, ?_, ?_⟩
  · intro fuel v
    obtain ⟨q', k, hq', _, sh', _, _⟩ := push_solo sh v fuel
    have hp : push (fuel + 3) s.q v = .ok q' := by simp [push, hq']
    obtain ⟨m, hm⟩ := push_solo_run _ _ _ _ hp
    refine ⟨q', m, hp, hm, ?_⟩
    rw [sh'.tail_is_last_iff]
    simp
  · intro fuel
    obtain ⟨q', r, h', t', hq', sh', hcase⟩ := pop_solo sh fuel
    have hp : pop (fuel + 1) s.q = .ok (q', r) := by simp [pop, hq']
    obtain ⟨m, hm⟩ := pop_solo_run _ _ _ _ hp
    refine ⟨q', r, m, hp, hm, ?_, ?_⟩
    · intro hpre
      rw [sh'.tail_is_last_iff]
      rcases hcase with ⟨_, _, _, h1, _, _⟩ | ⟨h1, _, h2, _, _⟩
      · exact h1
      · subst h2
        rcases hpre with hpre | hpre
        · exfalso
          have hhl : h < chain.length := lt_of_le_of_lt sh.h_le_t sh.t_lt
          have e : chain[h]? = chain[t']? := by
            rw [← sh.head_eq, ← sh.tail_eq]; exact hpre
          have := List.getElem?_inj hhl sh.nodup e
          omega
        · exact sh.tail_is_last_iff.mp hpre
    · intro hne
      rcases hcase with ⟨h1, _, _, _, _, _⟩ | ⟨_, _, _, h2, _⟩
      · exfalso
        apply hne
        rw [sh.head_eq, sh.tail_eq, h1]
      · exact h2

theorem tail_lags_at_most_one_witness :
    reachable 2 state_lag ∧ tail_ok state_lag.q :=
  ⟨⟨schedule_lag, by decide⟩, (tail_lags_at_most_one 2 state_lag ⟨schedule_lag, by decide⟩).1⟩

/-! ## Links are written once -/

theorem nxt_set_same (mem : List cell) (a b : Nat) (c c' : cell) (hc : mem[a]? = some c)
    (hn : c'.obj.next_ = c.obj.next_) : nxt (mem.set a c') b = nxt mem b := by
  have hlt : a < mem.length := (List.getElem?_eq_some.mp hc).1
  rw [nxt_set _ _ _ _ hlt]
  by_cases e : a = b
  · subst e
    simp [nxt, hc, hn]
  · simp [e]

theorem thread_step_nxt (q q' : ms_queue) (l l' : thread)
    (hs : thread_step q l = some (q', l')) (a : Nat) :
    nxt q'.mem a = nxt q.mem a ∨
    (nxt q.mem a = some none ∧ ∃ nn, l = .push_cas_next nn (some a) ∧ nxt q'.mem a = some nn) ∨
    (a = q.mem.length ∧ nxt q.mem a = none ∧ nxt q'.mem a = some none ∧
      ∃ v, l = .push_new v) := by
  cases l with
  | idle => simp [thread_step] at hs
  | returned r => simp [thread_step] at hs
  | crashed => simp [thread_step] at hs
  | push_new v =>
    simp only [thread_step, new_node, Option.some.injEq, Prod.mk.injEq] at hs
    obtain ⟨rfl, rfl⟩ := hs
    simp only [nxt_append]
    by_cases e : a = q.mem.length
    · right; right
      subst e
      exact ⟨rfl, by simp [nxt], by simp, v, rfl⟩
    · left; simp [e]
  | push_load_tail nn =>
    simp only [thread_step, Option.some.injEq, Prod.mk.injEq] at hs
    obtain ⟨rfl, rfl⟩ := hs
    exact Or.inl rfl
  | push_load_next nn ct =>
    simp only [thread_step] at hs
    cases hl : load_next q.mem ct with
    | none =>
      simp only [hl, Option.some.injEq, Prod.mk.injEq] at hs
      obtain ⟨rfl, rfl⟩ := hs
      exact Or.inl rfl
    | some x =>
      simp only [hl] at hs
      split at hs <;>
        (simp only [Option.some.injEq, Prod.mk.injEq] at hs
         obtain ⟨rfl, rfl⟩ := hs
         exact Or.inl rfl)
  | push_swing_stale nn ct ctn =>
    simp only [thread_step, Option.some.injEq, Prod.mk.injEq] at hs
    obtain ⟨rfl, rfl⟩ := hs
    exact Or.inl rfl
  | push_cas_next nn ct =>
    simp only [thread_step] at hs
    cases hl : cas_next q.mem ct nn with
    | none =>
      simp only [hl, Option.some.injEq, Prod.mk.injEq] at hs
      obtain ⟨rfl, rfl⟩ := hs
      exact Or.inl rfl
    | some r =>
      obtain ⟨mem', b⟩ := r
      obtain ⟨a0, c, hca, hc, _, hcase⟩ := cas_next_inv _ _ _ _ _ hl
      have hlt : a0 < q.mem.length := (List.getElem?_eq_some.mp hc).1
      rcases hcase with ⟨hn, rfl, rfl⟩ | ⟨_, rfl, rfl⟩
      · simp only [hl, Option.some.injEq, Prod.mk.injEq] at hs
        obtain ⟨rfl, rfl⟩ := hs
        simp only [nxt_set _ _ _ _ hlt]
        by_cases e : a0 = a
        · subst e
          right; left
          exact ⟨by simp [nxt, hc, hn], nn, by rw [hca], by simp⟩
        · left; simp [e]
      · simp only [hl, Option.some.injEq, Prod.mk.injEq] at hs
        obtain ⟨rfl, rfl⟩ := hs
        exact Or.inl rfl
  | push_swing_new nn ct =>
    simp only [thread_step, Option.some.injEq, Prod.mk.injEq] at hs
    obtain ⟨rfl, rfl⟩ := hs
    exact Or.inl rfl
  | pop_load_head =>
    simp only [thread_step, Option.some.injEq, Prod.mk.injEq] at hs
    obtain ⟨rfl, rfl⟩ := hs
    exact Or.inl rfl
  | pop_load_tail ch =>
    simp only [thread_step, Option.some.injEq, Prod.mk.injEq] at hs
    obtain ⟨rfl, rfl⟩ := hs
    exact Or.inl rfl
  | pop_load_next ch ct =>
    simp only [thread_step] at hs
    cases hl : load_next q.mem ch with
    | none =>
      simp only [hl, Option.some.injEq, Prod.mk.injEq] at hs
      obtain ⟨rfl, rfl⟩ := hs
      exact Or.inl rfl
    | some x =>
      simp only [hl] at hs
      split at hs
      · split at hs <;>
          (simp only [Option.some.injEq, Prod.mk.injEq] at hs
           obtain ⟨rfl, rfl⟩ := hs
           exact Or.inl rfl)
      · simp only [Option.some.injEq, Prod.mk.injEq] at hs
        obtain ⟨rfl, rfl⟩ := hs
        exact Or.inl rfl
  | pop_help ct chn =>
    simp only [thread_step, Option.some.injEq, Prod.mk.injEq] at hs
    obtain ⟨rfl, rfl⟩ := hs
    exact Or.inl rfl
  | pop_cas_head ch chn =>
    simp only [thread_step] at hs
    split at hs <;>
      (simp only [Option.some.injEq, Prod.mk.injEq] at hs
       obtain ⟨rfl, rfl⟩ := hs
       exact Or.inl rfl)
  | pop_exchange ch chn =>
    simp only [thread_step] at hs
    cases hl : exchange_value q.mem chn with
    | none =>
      simp only [hl, Option.some.injEq, Prod.mk.injEq] at hs
      obtain ⟨rfl, rfl⟩ := hs
      exact Or.inl rfl
    | some r =>
      obtain ⟨mem1, rv⟩ := r
      obtain ⟨a0, c, _, hc, _, _, rfl⟩ := exchange_value_inv _ _ _ _ hl
      cases rv <;>
        (simp only [hl, Option.some.injEq, Prod.mk.injEq] at hs
         obtain ⟨rfl, rfl⟩ := hs
         exact Or.inl (nxt_set_same _ _ _ _ _ hc rfl))
  | pop_delete ch res =>
    simp only [thread_step] at hs
    cases hl : delete_node q.mem ch with
    | none =>
      simp only [hl, Option.some.injEq, Prod.mk.injEq] at hs
      obtain ⟨rfl, rfl⟩ := hs
      exact Or.inl rfl
    | some mem2 =>
      simp only [hl, Option.some.injEq, Prod.mk.injEq] at hs
      obtain ⟨rfl, rfl⟩ := hs
      cases ch with
      | none =>
        simp only [delete_node, Option.some.injEq] at hl
        subst hl
        exact Or.inl rfl
      | some a0 =>
        obtain ⟨c, hc, _, rfl⟩ := delete_node_inv _ _ _ hl
        exact Or.inl (nxt_set_same _ _ _ _ _ hc rfl)

theorem thread_step_nxt_keep (q q' : ms_queue) (l l' : thread)
    (hs : thread_step q l = some (q', l')) (a b : Nat) (hn : nxt q.mem a = some (some b)) :
    nxt q'.mem a = some (some b) := by
  rcases thread_step_nxt q q' l l' hs a with h | ⟨h, _⟩ | ⟨_, h, _⟩
  · rw [h, hn]
  · rw [hn] at h; cases h
  · rw [hn] at h; cases h

theorem system_next_nxt_keep (s s' : system) (e : event) (hn : s.next e = some s')
    (a b : Nat) (h : nxt s.q.mem a = some (some b)) : nxt s'.q.mem a = some (some b) := by
  cases e with
  | call i o =>
    simp only [system.next] at hn
    cases hl : s.threads[i]? with
    | none => simp [hl] at hn
    | some l =>
      cases l <;> simp only [hl, Option.some.injEq] at hn <;>
        first
          | (subst hn; exact h)
          | cases hn
  | step i =>
    simp only [system.next] at hn
    cases hl : s.threads[i]? with
    | none => simp [hl] at hn
    | some l =>
      simp only [hl] at hn
      cases hs : thread_step s.q l with
      | none => simp [hs] at hn
      | some r =>
        obtain ⟨q', l'⟩ := r
        simp only [hs, Option.some.injEq] at hn
        subst hn
        exact thread_step_nxt_keep s.q q' l l' hs a b h

theorem system_run_nxt_keep (es : List event) (s s' : system) (hr : s.run es = some s')
    (a b : Nat) (h : nxt s.q.mem a = some (some b)) : nxt s'.q.mem a = some (some b) := by
  induction es generalizing s with
  | nil =>
    simp only [system.run, Option.some.injEq] at hr
    subst hr
    exact h
  | cons e es ih =>
    simp only [system.run] at hr
    cases hn : s.next e with
    | none => simp [hn] at hr
    | some s1 =>
      simp only [hn] at hr
      exact ih s1 hr (system_next_nxt_keep s s1 e hn a b h)

/-- C12: a step of `push` or `pop` leaves the `next_` field of every node whose `next_` is
non-null unchanged; a step that changes the `next_` field of an allocated node is the
`cas_next` of `push` on a node whose `next_` was null, storing the new node; hence a
`next_` that is set keeps its value in every later state of every execution. -/
theorem next_written_once :
    (∀ (q q' : ms_queue) (l l' : thread) (a b : Nat),
      thread_step q l = some (q', l') → nxt q.mem a = some (some b) →
      nxt q'.mem a = some (some b)) ∧
    (∀ (q q' : ms_queue) (l l' : thread) (a : Nat),
      thread_step q l = some (q', l') → a < q.mem.length → nxt q'.mem a ≠ nxt q.mem a →
      nxt q.mem a = some none ∧
        ∃ nn, l = .push_cas_next nn (some a) ∧ nxt q'.mem a = some nn) ∧
    (∀ (s s' : system) (es : List event) (a b : Nat),
      s.run es = some s' → nxt s.q.mem a = some (some b) →
      nxt s'.q.mem a = some (some b)) := by
  refine ⟨?_, ?_, ?_⟩
  · intro q q' l l' a b hs hn
    exact thread_step_nxt_keep q q' l l' hs a b hn
  · intro q q' l l' a hs ha hne
    rcases thread_step_nxt q q' l l' hs a with h | h | ⟨h, _⟩
    · exact absurd h hne
    · exact h
    · omega
  · intro s s' es a b hr hn
    exact system_run_nxt_keep es s s' hr a b hn

theorem next_written_once_witness :
    thread_step state_lag.q (.push_cas_next (some 2) (some 0))
      = some (state_lag.q, .push_load_next (some 2) (some 0)) ∧
    nxt state_lag.q.mem 0 = some (some 1) :=
  ⟨by decide,
    next_written_once.1 state_lag.q state_lag.q (.push_cas_next (some 2) (some 0))
      (.push_load_next (some 2) (some 0)) 0 1 (by decide) (by decide)⟩

/-! ## A `pop` that finds `tail` behind -/

/-- C13: in every state in which `head` equals `tail` and the `next_` of the node at `head`
is a non-null node `n`, a `pop` run without interference returns nothing and sets `tail` to
`n`; `head` and the whole memory (every `next_` and every `value_`) stay as they were. -/
theorem pop_swings_stale_tail (fuel : Nat) (q : ms_queue) (n : Nat)
    (hht : q.head = q.tail) (hn : load_next q.mem q.head = some (some n)) :
    pop (fuel + 1) q = .ok ({ q with tail := some n }, none) ∧
    solo 4 q .pop_load_head
      = some ({ q with tail := some n }, .returned (.optional none)) := by
  have hn' : load_next q.mem q.tail = some (some n) := hht ▸ hn
  constructor
  · simp [pop, pop_loop, hn, hht, hn', compare_exchange_strong]
  · simp [solo, thread_step, hn, hht, hn', compare_exchange_strong]

theorem pop_swings_stale_tail_witness :
    pop 1 queue_lag_popped = .ok ({ queue_lag_popped with tail := some 2 }, none) ∧
    solo 4 queue_lag_popped .pop_load_head
      = some ({ queue_lag_popped with tail := some 2 }, .returned (.optional none)) :=
  pop_swings_stale_tail 0 queue_lag_popped 2 (by decide) (by decide)

/-! ## The list of nodes after sequential calls -/

theorem slots_canon (m : Nat) (xs : List (Option Int)) (d j k : Nat)
    (hj : j + d = xs.length) (hd : 0 < d) :
    slots_from (canon_mem m xs) (d + k) (some (m + j)) = some (xs.drop j) := by
  induction d generalizing j with
  | zero => omega
  | succ d ih =>
    have hjl : j < xs.length := by omega
    have h1 : m + j < m + xs.length := by omega
    have h2 : ¬ (m + j < m) := by omega
    have h3 : m + j - m = j := by omega
    have hd0 : deref (canon_mem m xs) (some (m + j))
        = some { value_ := xs[j]?.getD none,
                 next_ := if m + j + 1 < m + xs.length then some (m + j + 1) else none } := by
      simp only [deref, canon_mem_get, h1, if_true, canon_cell, h2, if_false, h3,
        List.getD_eq_getElem?_getD]
    have e : d + 1 + k = (d + k) + 1 := by omega
    rw [e, slots_from, hd0]
    rw [List.drop_eq_getElem_cons hjl]
    simp only [List.getElem?_eq_getElem hjl, Option.getD_some]
    by_cases hz : d = 0
    · subst hz
      have h4 : ¬ (m + j + 1 < m + xs.length) := by omega
      have h5 : xs.drop (j + 1) = [] := List.drop_eq_nil_of_le (by omega)
      simp [h4, h5, slots_from]
    · have h4 : m + j + 1 < m + xs.length := by omega
      simp only [h4, if_true]
      have := ih (j + 1) (by omega) (by omega)
      rw [Nat.add_assoc m j 1, this]
      rfl

theorem run_ms_canon_count (fuel : Nat) (ops : List op) (m : Nat) (vs : List Int) :
    run_ms (fuel + 1) (canon m vs) ops
      = .ok (canon (m + ((run_seq { q := vs } ops).2.filterMap id).length)
          (run_seq { q := vs } ops).1.q, (run_seq { q := vs } ops).2) := by
  induction ops generalizing m vs with
  | nil => simp [run_ms, run_seq]
  | cons o rest ih =>
    cases o with
    | push v =>
      simp [run_ms, push_canon, run_seq, seq_queue.push, ih]
    | pop =>
      cases vs with
      | nil => simp [run_ms, pop_canon_nil, run_seq, seq_queue.pop, ih]
      | cons x xs =>
        simp only [run_ms, pop_canon_cons, run_seq, seq_queue.pop, ih, List.filterMap_cons,
          id_eq, List.length_cons]
        rw [Nat.add_assoc, Nat.add_comm 1]

/-- C11: after construction and after every completed push or pop of a single-threaded
sequence, the value slots of the nodes from `head` on are: an empty slot for the node at
`head`, then one populated slot per node, holding the contents of the queue from oldest to
newest (the contents of the reference queue after the same calls, which are also the values
that further pops return). -/
theorem head_is_dummy_and_slots_are_contents (fuel k : Nat) (ops : List op) :
    ∃ q rs q2,
      run_ms (fuel + 1) ms_queue.new ops = .ok (q, rs) ∧
      slots_from q.mem ((run_seq { q := [] } ops).1.q.length + 1 + k) q.head
        = some (none :: (run_seq { q := [] } ops).1.q.map some) ∧
      drain (fuel + 1) ((run_seq { q := [] } ops).1.q.length + 1 + k) q
        = .ok (q2, (run_seq { q := [] } ops).1.q) := by
  have h := run_ms_canon_count fuel ops 0 []
  rw [← new_eq_canon] at h
  refine ⟨_, _, _, h, ?_, drain_canon fuel k _ _⟩
  have := slots_canon (0 + ((run_seq { q := [] } ops).2.filterMap id).length)
    (none :: (run_seq { q := [] } ops).1.q.map some)
    ((run_seq { q := [] } ops).1.q.length + 1) 0 k (by simp) (by omega)
  simpa [canon] using this

/-- C18: in every state reached from a fresh queue by calls made one at a time, a `pop`
either finds `head` equal to `tail`, or it advances `head` to the node `n` after it, the
slot it then exchanges out of `n` is non-null and holds the value `v` of the push that
allocated `n` (the `n`-th push), and the `pop` returns `v` without any invalid access. -/
theorem pop_exchanges_pushed_value (fuel : Nat) (ops : List op) :
    ∃ q rs,
      run_ms (fuel + 1) ms_queue.new ops = .ok (q, rs) ∧
      (q.head = q.tail ∨
        ∃ n v mem1 q',
          load_next q.mem q.head = some (some n) ∧
          exchange_value q.mem (some n) = some (mem1, some v) ∧
          (pushed ops)[n - 1]? = some v ∧
          pop (fuel + 1) q = .ok (q', some v) ∧ q'.head = some n) := by
  have h := run_ms_canon_count fuel ops 0 []
  rw [← new_eq_canon] at h
  refine ⟨_, _, h, ?_⟩
  have hp := run_seq_pushed ops { q := [] }
  simp only [List.nil_append] at hp
  cases hvs : (run_seq { q := [] } ops).1.q with
  | nil => left; simp [canon]
  | cons v vs =>
    right
    rw [hvs] at hp
    generalize ((run_seq { q := [] } ops).2.filterMap id) = popped at hp
    simp only [Nat.zero_add]
    have hd : deref (canon_mem popped.length (none :: some v :: vs.map some))
        (some popped.length) = some { value_ := none, next_ := some (popped.length + 1) } := by
      simp [deref, canon_mem_get, canon_cell]
    have hd1 : deref (canon_mem popped.length (none :: some v :: vs.map some))
        (some (popped.length + 1))
        = some { value_ := some v,
                 next_ := if popped.length + 1 + 1 < popped.length + (vs.length + 1 + 1)
                   then some (popped.length + 1 + 1) else none } := by
      simp [deref, canon_mem_get, canon_cell]
    have hex : ∃ mem1, exchange_value (canon popped.length (v :: vs)).mem
        (some (popped.length + 1)) = some (mem1, some v) :=
      ⟨_, by simp only [canon, List.map_cons, exchange_value, hd1]; rfl⟩
    obtain ⟨mem1, hex⟩ := hex
    refine ⟨popped.length + 1, v, mem1, canon (popped.length + 1) vs, ?_, hex, ?_,
      pop_canon_cons fuel _ v vs, rfl⟩
    · simp [canon, load_next, hd]
    · rw [hp, Nat.add_sub_cancel, List.getElem?_append_right (le_refl _)]
      simp

/-! ## Iterations of the loops of `push` and `pop` -/

theorem deref_append (mem : List cell) (c : cell) (p : Option Nat) (nd : node)
    (h : deref mem p = some nd) : deref (mem ++ [c]) p = some nd := by
  cases p with
  | none => simp [deref] at h
  | some a =>
    simp only [deref] at h ⊢
    cases hc : mem[a]? with
    | none => simp [hc] at h
    | some c0 =>
      have hlt : a < mem.length := (List.getElem?_eq_some.mp hc).1
      rw [List.getElem?_append_left hlt, hc]
      simpa [hc] using h

theorem load_next_deref (mem : List cell) (p : Option Nat) (x : Option Nat)
    (h : load_next mem p = some x) : ∃ a nd, p = some a ∧ a < mem.length ∧
      deref mem (some a) = some nd ∧ nd.next_ = x := by
  cases p with
  | none => simp [load_next, deref] at h
  | some a =>
    simp only [load_next, Option.map_eq_some'] at h
    obtain ⟨nd, h1, h2⟩ := h
    refine ⟨a, nd, rfl, ?_, h1, h2⟩
    simp only [deref] at h1
    cases hc : mem[a]? with
    | none => simp [hc] at h1
    | some c0 => exact (List.getElem?_eq_some.mp hc).1

theorem push_loop_at_last (fuel : Nat) (mem : List cell) (head : Option Nat) (a nn : Nat)
    (nd ndn : node) (ha : deref mem (some a) = some nd) (hnx : nd.next_ = none)
    (hn : deref mem (some nn) = some ndn) (hne : a ≠ nn) (hal : a < mem.length) :
    push_loop (fuel + 1) { mem := mem, head := head, tail := some a } (some nn) (some a)
      = .ok ({ mem := store mem a { nd with next_ := some nn }, head := head,
               tail := some nn }, 1) ∧
    deref (store mem a { nd with next_ := some nn }) (some a)
      = some { nd with next_ := some nn } ∧
    deref (store mem a { nd with next_ := some nn }) (some nn) = some ndn ∧
    ∀ b, b ≠ a → (store mem a { nd with next_ := some nn })[b]? = mem[b]? := by
  refine ⟨?_, ?_, ?_, ?_⟩
  · simp [push_loop, load_next, ha, hnx, cas_next, compare_exchange_strong]
  · simp [deref, store, hal]
  · simp only [deref, store, List.getElem?_set_ne hne]
    simpa [deref] using hn
  · intro b hb
    simp [store, List.getElem?_set_ne (Ne.symm hb)]

theorem push_from_tail_ok (q : ms_queue) (ht : tail_ok q) (fuel : Nat) (v : Int) :
    ∃ q' k last nd, push_with true true (fuel + 3) q v = (q', .ok k) ∧ k ≤ 3 ∧
      q'.head = q.head ∧ q'.tail = some q.mem.length ∧
      deref q'.mem q'.tail = some { value_ := some v, next_ := none } ∧
      reaches q.mem q.tail (some last) ∧
      deref q.mem (some last) = some nd ∧ nd.next_ = none ∧
      deref q'.mem (some last) = some { nd with next_ := some q.mem.length } ∧
      ∀ b, b ≠ last → b < q.mem.length → q'.mem[b]? = q.mem[b]? := by
  have hnew : deref (q.mem ++ [{ obj := { value_ := some v, next_ := none }, live := true }])
      (some q.mem.length) = some { value_ := some v, next_ := none } := by
    simp [deref]
  rcases ht.2 with h1 | ⟨n, h1, h2⟩
  · obtain ⟨a, nd, hta, hal, hd, hnx⟩ := load_next_deref _ _ _ h1
    have hd' := deref_append q.mem { obj := { value_ := some v, next_ := none }, live := true }
      _ _ hd
    have hne : a ≠ q.mem.length := by omega
    obtain ⟨e1, e2, e3, e4⟩ := push_loop_at_last (fuel + 2) _ q.head a q.mem.length nd _
      hd' hnx hnew hne (by simp; omega)
    refine ⟨{ mem := store (q.mem ++ [{ obj := { value_ := some v, next_ := none },
                                        live := true }]) a
                      { nd with next_ := some q.mem.length },
              head := q.head, tail := some q.mem.length },
      1, a, nd, ?_, by omega, rfl, rfl, e3, by rw [hta]; exact reaches.here _, hd,
      hnx, e2, ?_⟩
    · simp only [push_with, new_node, if_true, hta]
      rw [e1]
    · intro b hb hbl
      rw [e4 b hb, List.getElem?_append_left hbl]
  · obtain ⟨a, nd, hta, hal, hd, hnx⟩ := load_next_deref _ _ _ h1
    obtain ⟨n', ndn, hn', hnl, hdn, hnnx⟩ := load_next_deref _ _ _ h2
    cases hn'
    have han : a ≠ n := by
      rintro rfl
      rw [hd] at hdn
      cases hdn
      rw [hnx] at hnnx
      cases hnnx
    have hd' := deref_append q.mem { obj := { value_ := some v, next_ := none }, live := true }
      _ _ hd
    have hdn' := deref_append q.mem { obj := { value_ := some v, next_ := none }, live := true }
      _ _ hdn
    have hne : n ≠ q.mem.length := by omega
    obtain ⟨e1, e2, e3, e4⟩ := push_loop_at_last fuel _ q.head n q.mem.length ndn _
      hdn' hnnx hnew hne (by simp; omega)
    refine ⟨{ mem := store (q.mem ++ [{ obj := { value_ := some v, next_ := none },
                                        live := true }]) n
                      { ndn with next_ := some q.mem.length },
              head := q.head, tail := some q.mem.length },
      3, n, ndn, ?_, le_refl _, rfl, rfl, e3, ?_, hdn, hnnx, e2, ?_⟩
    · simp only [push_with, new_node, if_true, hta]
      rw [push_loop]
      simp only [load_next, hd', Option.map_some', hnx, ne_eq, reduceCtorEq,
        not_false_eq_true, if_true, compare_exchange_strong]
      rw [push_loop]
      have hna : ¬ (some n = some a) := fun h => han (Option.some.inj h).symm
      simp only [load_next, hd', Option.map_some', hnx, ne_eq, reduceCtorEq,
        not_false_eq_true, if_true, compare_exchange_strong, hna, if_false]
      rw [e1]
    · rw [hta]
      exact reaches.next _ _ _ (hta ▸ h1) (reaches.here _)
    · intro b hb hbl
      rw [e4 b hb, List.getElem?_append_left hbl]

theorem pop_loop_one (fuel : Nat) (q : ms_queue) : pop_loop (fuel + 1) q = pop_loop 1 q := by
  rw [pop_loop, pop_loop]
  cases hl : load_next q.mem q.head with
  | none => rfl
  | some x =>
    simp only [compare_exchange_strong, if_true]

theorem reaches_cases (mem : List cell) (p p' : Option Nat) (h : reaches mem p p') :
    p = p' ∨ ∃ p1, load_next mem p = some p1 ∧ reaches mem p1 p' := by
  cases h with
  | here => exact Or.inl rfl
  | next _ p1 _ h1 hr => exact Or.inr ⟨p1, h1, hr⟩

theorem pop_from_tail_ok (q : ms_queue) (ht : tail_ok q)
    (hv : ∀ n, q.head ≠ q.tail → load_next q.mem q.head = some (some n) →
      ∃ v, val q.mem n = some (some v)) :
    ∃ q' r, pop_loop 1 q = .ok (q', r, 1) := by
  have htl : ∃ x, load_next q.mem q.tail = some x := by
    rcases ht.2 with h | ⟨n, h, _⟩
    · exact ⟨_, h⟩
    · exact ⟨_, h⟩
  by_cases e : q.head = q.tail
  · obtain ⟨x, hx⟩ := htl
    have hx' : load_next q.mem q.head = some x := e ▸ hx
    rw [pop_loop]
    simp only [hx', e, hx, if_true]
    by_cases hxn : x = none
    · simp only [hxn, ne_eq, not_true_eq_false, if_false]
      exact ⟨_, _, rfl⟩
    · simp only [ne_eq, hxn, not_false_eq_true, if_true]
      exact ⟨_, _, rfl⟩
  · rcases reaches_cases _ _ _ ht.1 with h | ⟨p1, h1, hr⟩
    · exact absurd h e
    · have hp1 : ∃ x, load_next q.mem p1 = some x := by
        rcases reaches_cases _ _ _ hr with h | ⟨p2, h2, _⟩
        · rw [h]; exact htl
        · exact ⟨_, h2⟩
      obtain ⟨x, hx⟩ := hp1
      obtain ⟨n, ndn, rfl, _, hdn, _⟩ := load_next_deref _ _ _ hx
      obtain ⟨a, nda, hha, hal, hda, _⟩ := load_next_deref _ _ _ h1
      obtain ⟨v, hval⟩ := hv n e h1
      have hcn : ∃ cn, q.mem[n]? = some cn ∧ cn.live = true ∧ cn.obj = ndn := by
        simp only [deref] at hdn
        cases hc : q.mem[n]? with
        | none => simp [hc] at hdn
        | some cn =>
          simp only [hc] at hdn
          by_cases hl : cn.live = true
          · simp only [hl, if_true, Option.some.injEq] at hdn
            exact ⟨cn, rfl, hl, hdn⟩
          · simp [hl] at hdn
      obtain ⟨cn, hcn, _, hobj⟩ := hcn
      have hvn : ndn.value_ = some v := by
        simp only [val, hcn, Option.map_some', Option.some.injEq] at hval
        rw [← hobj]; exact hval
      have hca : ∃ ca, q.mem[a]? = some ca ∧ ca.live = true := by
        simp only [deref] at hda
        cases hc : q.mem[a]? with
        | none => simp [hc] at hda
        | some ca =>
          simp only [hc] at hda
          by_cases hl : ca.live = true
          · exact ⟨ca, rfl, hl⟩
          · simp [hl] at hda
      obtain ⟨ca, hca, hcal⟩ := hca
      have hnl : n < q.mem.length := (List.getElem?_eq_some.mp hcn).1
      have hc1 : ∃ c1, (store q.mem n { ndn with value_ := none })[a]? = some c1 ∧
          c1.live = true := by
        simp only [store, List.getElem?_set, hnl, if_true]
        by_cases ena : n = a
        · exact ⟨{ obj := { ndn with value_ := none }, live := true },
            by simp only [ena, if_true], rfl⟩
        · exact ⟨ca, by simp only [ena, if_false, hca], hcal⟩
      obtain ⟨c1, hc1, hc1l⟩ := hc1
      rw [pop_loop]
      rw [hha] at h1 e
      simp only [hha, h1, e, if_false, compare_exchange_strong, if_true, exchange_value, hdn,
        hvn, delete_node, hc1, hc1l]
      exact ⟨_, _, rfl⟩

/-- C14: run without interference from any state in which `tail` is reachable from `head`
and is the last node or the node immediately before the last, `push` returns after at most
three iterations of its loop, the new node (holding the pushed value, `next_` null) is
linked behind the node that was last, every other node is unchanged and `tail` points at
the new node.  `pop` never makes a second iteration: one iteration decides it, and it
returns after that iteration whenever the node after `head` holds a value, which is so in
every reachable state. -/
theorem push_three_iterations_pop_one (q : ms_queue) (ht : tail_ok q) :
    (∀ (fuel : Nat) (v : Int), ∃ q' k last nd,
      push_with true true (fuel + 3) q v = (q', .ok k) ∧ k ≤ 3 ∧
      q'.head = q.head ∧ q'.tail = some q.mem.length ∧
      deref q'.mem q'.tail = some { value_ := some v, next_ := none } ∧
      reaches q.mem q.tail (some last) ∧
      deref q.mem (some last) = some nd ∧ nd.next_ = none ∧
      deref q'.mem (some last) = some { nd with next_ := some q.mem.length } ∧
      ∀ b, b ≠ last → b < q.mem.length → q'.mem[b]? = q.mem[b]?) ∧
    (∀ fuel : Nat, pop_loop (fuel + 1) q = pop_loop 1 q ∧
      pop_loop 1 q ≠ .error .out_of_fuel) ∧
    ((∀ n, q.head ≠ q.tail → load_next q.mem q.head = some (some n) →
        ∃ v, val q.mem n = some (some v)) →
      ∃ q' r, pop_loop 1 q = .ok (q', r, 1)) ∧
    (∀ (n : Nat) (s : system), reachable n s → s.q = q →
      ∃ q' r, pop_loop 1 q = .ok (q', r, 1)) := by
  refine ⟨fun fuel v => push_from_tail_ok q ht fuel v, ?_, pop_from_tail_ok q ht, ?_⟩
  · intro fuel
    refine ⟨pop_loop_one fuel q, ?_⟩
    rw [pop_loop]
    cases hl : load_next q.mem q.head with
    | none => simp
    | some x =>
      simp only [compare_exchange_strong, if_true]
      split
      · split <;> simp
      · cases exchange_value q.mem x with
        | none => simp
        | some r =>
          obtain ⟨mem1, rp⟩ := r
          cases rp with
          | none => simp
          | some res =>
            cases hdel : delete_node mem1 q.head <;> simp [hdel]
  · rintro n s hr rfl
    obtain ⟨chain, h, t, inv⟩ := reachable_inv n s hr
    obtain ⟨q', r, _, _, hq', _⟩ := pop_solo inv.shape 0
    exact ⟨q', r, hq'⟩

theorem push_three_iterations_pop_one_witness :
    tail_ok state_lag.q ∧
    ∃ q' r, pop_loop 1 state_lag.q = .ok (q', r, 1) :=
  have ht : tail_ok state_lag.q :=
    ⟨reaches.next _ (some 1) _ (by decide) (reaches.here _), Or.inr ⟨2, by decide, by decide⟩⟩
  ⟨ht, (push_three_iterations_pop_one state_lag.q ht).2.2.2 2 state_lag
    ⟨schedule_lag, by decide⟩ rfl⟩

/-! ## Cursors of the validator -/

theorem getElem?_some_lt {α : Type} (l : List α) (i : Nat) (a : α) (h : l[i]? = some a) :
    i < l.length := (List.getElem?_eq_some.mp h).1

theorem validate_loop_matched_false (scenario : List (List thread_action))
    (self : List Nat → seq_queue → Option (Bool × List Nat)) (q : seq_queue)
    (t : Nat) (ts : List Nat) (fin : Bool) (cursors : List Nat) (a : thread_action)
    (ht : t < cursors.length)
    (ha : (scenario.getD t [])[cursors.getD t 0]? = some a)
    (hr : (a.action.call q).2 = a.result)
    (hs : self (cursors.set t (cursors.getD t 0 + 1)) (a.action.call q).1
      = some (false, cursors.set t (cursors.getD t 0 + 1))) :
    validate_loop scenario self q (t :: ts) fin cursors
      = validate_loop scenario self q ts false cursors := by
  have hrestore : (cursors.set t (cursors.getD t 0 + 1)).set t
      ((cursors.set t (cursors.getD t 0 + 1)).getD t 0 - 1) = cursors := by
    rw [cursors_getD_set _ _ _ ht, Nat.add_sub_cancel]
    exact cursors_restore _ _ _ ht
  simp only [validate_loop, ha, hr, if_true, hs, hrestore]

theorem validate_loop_matched_true (scenario : List (List thread_action))
    (self : List Nat → seq_queue → Option (Bool × List Nat)) (q : seq_queue)
    (t : Nat) (ts : List Nat) (fin : Bool) (cursors c1 : List Nat) (a : thread_action)
    (ha : (scenario.getD t [])[cursors.getD t 0]? = some a)
    (hr : (a.action.call q).2 = a.result)
    (hs : self (cursors.set t (cursors.getD t 0 + 1)) (a.action.call q).1 = some (true, c1)) :
    validate_loop scenario self q (t :: ts) fin cursors = some (true, c1) := by
  simp only [validate_loop, ha, hr, if_true, hs]

theorem validate_loop_cursors (scenario : List (List thread_action))
    (self : List Nat → seq_queue → Option (Bool × List Nat)) (q : seq_queue)
    (cursors : List Nat) (hlen : cursors.length = scenario.length)
    (hle : ∀ t, cursors.getD t 0 ≤ (scenario.getD t []).length)
    (hself : ∀ cur' q' b c, self cur' q' = some (b, c) → cur'.length = scenario.length →
      (∀ t, cur'.getD t 0 ≤ (scenario.getD t []).length) →
      (b = false → c = cur') ∧
      (b = true → ∀ t, t < scenario.length → c.getD t 0 = (scenario.getD t []).length))
    (ts : List Nat) (hts : ∀ t ∈ ts, t < scenario.length) (fin : Bool)
    (hfin : fin = true → ∀ t, t < scenario.length → t ∉ ts →
      (scenario.getD t []).length ≤ cursors.getD t 0)
    (b : Bool) (c : List Nat)
    (h : validate_loop scenario self q ts fin cursors = some (b, c)) :
    (b = false → c = cursors) ∧
    (b = true → ∀ t, t < scenario.length → c.getD t 0 = (scenario.getD t []).length) := by
  induction ts generalizing fin with
  | nil =>
    simp only [validate_loop, Option.some.injEq, Prod.mk.injEq] at h
    obtain ⟨rfl, rfl⟩ := h
    refine ⟨fun _ => rfl, ?_⟩
    intro hb t ht
    exact le_antisymm (hle t) (hfin hb t ht (List.not_mem_nil _))
  | cons t ts ih =>
    have ht : t < scenario.length := hts t (List.mem_cons_self _ _)
    have hts' : ∀ t ∈ ts, t < scenario.length := fun x hx => hts x (List.mem_cons_of_mem _ hx)
    have hvac : (false : Bool) = true → ∀ t, t < scenario.length → t ∉ ts →
        (scenario.getD t []).length ≤ cursors.getD t 0 := fun hc => by cases hc
    cases ha : (scenario.getD t [])[cursors.getD t 0]? with
    | none =>
      simp only [validate_loop, ha] at h
      refine ih hts' fin ?_ h
      intro hf t' ht' hnot
      by_cases e : t' = t
      · subst e
        exact List.getElem?_eq_none_iff.mp ha
      · exact hfin hf t' ht' (fun hm => by
          rcases List.mem_cons.mp hm with h1 | h1
          · exact e h1
          · exact hnot h1)
    | some a =>
      have hlt := getElem?_some_lt _ _ _ ha
      by_cases hr : (a.action.call q).2 = a.result
      · cases hs : self (cursors.set t (cursors.getD t 0 + 1)) (a.action.call q).1 with
        | none =>
          exfalso
          revert h
          simp only [validate_loop, ha, hr, if_true, hs]
          simp
        | some r =>
          obtain ⟨b1, c1⟩ := r
          have hset_le : ∀ t', (cursors.set t (cursors.getD t 0 + 1)).getD t' 0
              ≤ (scenario.getD t' []).length := by
            intro t'
            rw [cursors_getD_set_ite _ _ _ (by omega)]
            by_cases e : t' = t
            · subst e; simp only [if_true]; omega
            · simp only [e, if_false]; exact hle t'
          have hs1 := hself _ _ b1 c1 hs (by simpa using hlen) hset_le
          cases b1 with
          | true =>
            rw [validate_loop_matched_true scenario self q t ts fin cursors c1 a ha hr hs] at h
            simp only [Option.some.injEq, Prod.mk.injEq] at h
            obtain ⟨rfl, rfl⟩ := h
            exact ⟨fun hc => Bool.noConfusion hc, fun _ => hs1.2 rfl⟩
          | false =>
            have hc1 := hs1.1 rfl
            subst hc1
            rw [validate_loop_matched_false scenario self q t ts fin cursors a (by omega) ha hr
              hs] at h
            exact ih hts' false hvac h
      · simp only [validate_loop, ha, hr, if_false] at h
        exact ih hts' false hvac h

theorem validate_rec_cursors (scenario : List (List thread_action)) (fuel : Nat)
    (cursors : List Nat) (q : seq_queue) (b : Bool) (c : List Nat)
    (h : validate_rec scenario fuel cursors q = some (b, c))
    (hlen : cursors.length = scenario.length)
    (hle : ∀ t, cursors.getD t 0 ≤ (scenario.getD t []).length) :
    (b = false → c = cursors) ∧
    (b = true → ∀ t, t < scenario.length → c.getD t 0 = (scenario.getD t []).length) := by
  induction fuel generalizing cursors q b c with
  | zero => simp [validate_rec] at h
  | succ fuel ih =>
    simp only [validate_rec] at h
    refine validate_loop_cursors scenario (validate_rec scenario fuel) q cursors hlen hle
      (fun cur' q' b' c' h' hl' hle' => ih cur' q' b' c' h' hl' hle')
      (List.range scenario.length) (fun t ht => List.mem_range.mp ht) true ?_ b c h
    intro _ t ht hnot
    exact absurd (List.mem_range.mpr ht) hnot

/-- C15, counterexample: on the scenario A = [push(1), push(2)], B = [pop, pop] recorded
as (1, 2), `validate` returns true and the cursors of both threads are 2 at the return, not
0: the success path leaves through `return true` before `i--`. -/
theorem cursors_not_restored_on_success :
    validate_run (scenario_AB (some 1) (some 2)) = some (true, [2, 2]) := by decide

/-- C15, amended: when the recursive call made for a thread's matching action returns
false, the loop continues with that thread's cursor restored to the value it had before the
action was tried; when it returns true the lambda returns true at once, cursors as the
recursive call left them.  Hence when `validate` returns false all cursors are back at 0,
and when it returns true every thread's cursor stands at the end of that thread's
sequence. -/
theorem cursors_after_validate (scenario : List (List thread_action)) :
    (∀ (self : List Nat → seq_queue → Option (Bool × List Nat)) (q : seq_queue)
        (t : Nat) (ts : List Nat) (fin : Bool) (cursors : List Nat) (a : thread_action),
      t < cursors.length →
      (scenario.getD t [])[cursors.getD t 0]? = some a →
      (a.action.call q).2 = a.result →
      self (cursors.set t (cursors.getD t 0 + 1)) (a.action.call q).1
        = some (false, cursors.set t (cursors.getD t 0 + 1)) →
      validate_loop scenario self q (t :: ts) fin cursors
        = validate_loop scenario self q ts false cursors) ∧
    (∀ (self : List Nat → seq_queue → Option (Bool × List Nat)) (q : seq_queue)
        (t : Nat) (ts : List Nat) (fin : Bool) (cursors c1 : List Nat) (a : thread_action),
      (scenario.getD t [])[cursors.getD t 0]? = some a →
      (a.action.call q).2 = a.result →
      self (cursors.set t (cursors.getD t 0 + 1)) (a.action.call q).1 = some (true, c1) →
      validate_loop scenario self q (t :: ts) fin cursors = some (true, c1)) ∧
    (∃ b c, validate_run scenario = some (b, c) ∧
      (b = false → c = List.replicate scenario.length 0) ∧
      (b = true → ∀ t, t < scenario.length → c.getD t 0 = (scenario.getD t []).length)) := by
  refine ⟨?_, ?_, ?_⟩
  · intro self q t ts fin cursors a ht ha hr hs
    exact validate_loop_matched_false scenario self q t ts fin cursors a ht ha hr hs
  · intro self q t ts fin cursors c1 a ha hr hs
    exact validate_loop_matched_true scenario self q t ts fin cursors c1 a ha hr hs
  · obtain ⟨b, c, h1, _, h3⟩ := validate_run_spec scenario
    refine ⟨b, c, h1, h3, ?_⟩
    have := validate_rec_cursors scenario _ _ _ b c h1 (by simp)
      (fun t => by rw [getD_replicate_zero]; exact Nat.zero_le _)
    exact this.2

theorem cursors_after_validate_witness :
    validate_loop (scenario_AB (some 1) (some 2)) (fun c _ => some (false, c)) { q := [] }
        [0, 1] true [0, 0]
      = validate_loop (scenario_AB (some 1) (some 2)) (fun c _ => some (false, c)) { q := [] }
        [1] false [0, 0] :=
  (cursors_after_validate (scenario_AB (some 1) (some 2))).1 (fun c _ => some (false, c))
    { q := [] } 0 [1] true [0, 0]
    { action := .push_fn 1, result := .monostate, value := 1 }
    (by decide) (by decide) (by decide) (by decide)

/-! ## Termination of the validator -/

theorem validate_loop_done (scenario : List (List thread_action))
    (self : List Nat → seq_queue → Option (Bool × List Nat)) (q : seq_queue)
    (cursors : List Nat) (ts : List Nat) (fin : Bool)
    (h : ∀ t ∈ ts, (scenario.getD t []).length ≤ cursors.getD t 0) :
    validate_loop scenario self q ts fin cursors = some (fin, cursors) := by
  induction ts with
  | nil => rfl
  | cons t ts ih =>
    have h1 : (scenario.getD t [])[cursors.getD t 0]? = none :=
      List.getElem?_eq_none_iff.mpr (h t (List.mem_cons_self _ _))
    simp only [validate_loop, h1]
    exact ih (fun x hx => h x (List.mem_cons_of_mem _ hx))

theorem validate_rec_done (scenario : List (List thread_action)) (fuel : Nat)
    (cursors : List Nat) (q : seq_queue)
    (h : ∀ t, t < scenario.length → (scenario.getD t []).length ≤ cursors.getD t 0) :
    validate_rec scenario (fuel + 1) cursors q = some (true, cursors) := by
  simp only [validate_rec]
  exact validate_loop_done scenario _ q cursors _ true
    (fun t ht => h t (List.mem_range.mp ht))

/-- C16: for every scenario the recursive search returns whenever its depth bound exceeds
the number of remaining actions, as it does in `validate`; each recursive call is made with
strictly fewer remaining actions; and when no thread has a remaining action the lambda
returns true at once, without a recursive call, so `validate` returns true for a scenario
with no threads and for a scenario of empty sequences. -/
theorem validate_terminates (scenario : List (List thread_action)) :
    (∀ (fuel : Nat) (cursors : List Nat) (q : seq_queue),
      cursors.length = scenario.length → remaining scenario cursors < fuel →
      ∃ b c, validate_rec scenario fuel cursors q = some (b, c)) ∧
    (∃ b, validate scenario = some b) ∧
    (∀ (cursors : List Nat) (t : Nat), cursors.length = scenario.length →
      cursors.getD t 0 < (scenario.getD t []).length →
      remaining scenario (cursors.set t (cursors.getD t 0 + 1))
        < remaining scenario cursors) ∧
    (∀ (self : List Nat → seq_queue → Option (Bool × List Nat)) (cursors : List Nat)
        (q : seq_queue),
      (∀ t, t < scenario.length → (scenario.getD t []).length ≤ cursors.getD t 0) →
      validate_loop scenario self q (List.range scenario.length) true cursors
        = some (true, cursors)) ∧
    validate [] = some true ∧
    ((∀ row ∈ scenario, row = []) → validate scenario = some true) := by
  refine ⟨?_, (validate_spec scenario).1, ?_, ?_, by decide, ?_⟩
  · intro fuel cursors q hlen hfuel
    obtain ⟨b, c, h, _⟩ := validate_rec_spec scenario fuel cursors q hlen hfuel
    exact ⟨b, c, h⟩
  · intro cursors t hlen hlt
    have := remaining_set scenario cursors t hlen hlt
    omega
  · intro self cursors q h
    exact validate_loop_done scenario self q cursors _ true
      (fun t ht => h t (List.mem_range.mp ht))
  · intro hempty
    have hz : ∀ t, t < scenario.length →
        (scenario.getD t []).length ≤ (List.replicate scenario.length 0).getD t 0 := by
      intro t ht
      have hrow : scenario.getD t [] = [] := by
        rw [List.getD_eq_getElem?_getD, List.getElem?_eq_getElem ht]
        exact hempty _ (List.getElem_mem ht)
      rw [hrow]
      exact Nat.zero_le _
    simp only [validate, validate_run]
    rw [validate_rec_done scenario _ _ _ hz]
    rfl

theorem validate_terminates_witness :
    (∀ row ∈ ([[], [], []] : List (List thread_action)), row = []) ∧
    validate ([[], [], []] : List (List thread_action)) = some true :=
  ⟨by decide, (validate_terminates [[], [], []]).2.2.2.2.2 (by decide)⟩

/-! ## Calls executed one at a time validate -/

theorem action_at_set_self (scenario : List (List thread_action)) (e : Nat × Nat)
    (a a' : thread_action) (h : action_at scenario e = some a) :
    action_at (set_action scenario e a') e = some a' := by
  obtain ⟨t, i⟩ := e
  simp only [action_at] at h ⊢
  have hi : i < (scenario.getD t []).length := getElem?_some_lt _ _ _ h
  have ht : t < scenario.length := by
    by_contra hc
    simp [List.getD_eq_getElem?_getD, List.getElem?_eq_none (not_lt.mp hc)] at hi
  simp only [set_action, List.getD_eq_getElem?_getD, List.getElem?_set, ht, if_true,
    Option.getD_some]
  simp only [List.getD_eq_getElem?_getD] at hi
  simp [hi]

theorem action_at_set_ne (scenario : List (List thread_action)) (e e' : Nat × Nat)
    (a' : thread_action) (h : e' ≠ e) :
    action_at (set_action scenario e a') e' = action_at scenario e' := by
  obtain ⟨t, i⟩ := e
  obtain ⟨t', i'⟩ := e'
  simp only [action_at, set_action, List.getD_eq_getElem?_getD, List.getElem?_set]
  by_cases ht : t = t'
  · subst ht
    by_cases hl : t < scenario.length
    · have hi : i ≠ i' := by
        rintro rfl
        exact h rfl
      simp [hl, List.getElem?_set, hi]
    · simp [hl, List.getElem?_eq_none (not_lt.mp hl)]
  · simp [ht]

theorem call_conq_canon (fuel m : Nat) (vs : List Int) (f : action_fn) :
    ∃ m', f.call_conq (fuel + 1) { q := canon m vs }
      = .ok ({ q := canon m' (f.call { q := vs }).1.q }, (f.call { q := vs }).2) := by
  cases f with
  | push_fn val =>
    exact ⟨m, by simp [action_fn.call_conq, conq_queue.push, push_canon, action_fn.call,
      seq_queue.push]⟩
  | pop_fn =>
    cases vs with
    | nil =>
      exact ⟨m, by simp [action_fn.call_conq, conq_queue.pop, pop_canon_nil, action_fn.call,
        seq_queue.pop]⟩
    | cons v vs =>
      exact ⟨m + 1, by simp [action_fn.call_conq, conq_queue.pop, pop_canon_cons,
        action_fn.call, seq_queue.pop]⟩

theorem harness_canon (fuel : Nat) (ord : List (Nat × Nat))
    (scenario : List (List thread_action)) (m : Nat) (vs : List Int) (hnd : ord.Nodup)
    (hpos : ∀ e ∈ ord, ∃ a, action_at scenario e = some a) :
    ∃ sc' c', harness_run (fuel + 1) scenario { q := canon m vs } ord = .ok (sc', c') ∧
      replay sc' { q := vs } ord ∧
      (∀ e, e ∉ ord → action_at sc' e = action_at scenario e) ∧
      (∀ e, (action_at sc' e).isSome = (action_at scenario e).isSome) := by
  induction ord generalizing scenario m vs with
  | nil => exact ⟨scenario, _, rfl, trivial, fun _ _ => rfl, fun _ => rfl⟩
  | cons e rest ih =>
    obtain ⟨a, ha⟩ := hpos e (List.mem_cons_self _ _)
    obtain ⟨m1, hcall⟩ := call_conq_canon fuel m vs a.action
    have hnd' := List.nodup_cons.mp hnd
    have hpos' : ∀ e' ∈ rest, ∃ a1,
        action_at (set_action scenario e { a with result := (a.action.call { q := vs }).2 }) e'
          = some a1 := by
      intro e' he'
      have hne : e' ≠ e := by
        rintro rfl
        exact hnd'.1 he'
      rw [action_at_set_ne _ _ _ _ hne]
      exact hpos e' (List.mem_cons_of_mem _ he')
    obtain ⟨sc', c', hrun, hrep, hframe, hsome⟩ := ih _ m1 (a.action.call { q := vs }).1.q
      hnd'.2 hpos'
    refine ⟨sc', c', ?_, ?_, ?_, ?_⟩
    · simp only [harness_run, ha, thread_action.set_result, hcall]
      exact hrun
    · refine ⟨{ a with result := (a.action.call { q := vs }).2 }, ?_, rfl, hrep⟩
      rw [hframe e hnd'.1]
      exact action_at_set_self _ _ _ _ ha
    · intro e' he'
      have hne : e' ≠ e := fun h => he' (h ▸ List.mem_cons_self _ _)
      rw [hframe e' (fun h => he' (List.mem_cons_of_mem _ h)), action_at_set_ne _ _ _ _ hne]
    · intro e'
      rw [hsome e']
      by_cases hne : e' = e
      · subst hne
        rw [action_at_set_self _ _ _ _ ha, ha]
        rfl
      · rw [action_at_set_ne _ _ _ _ hne]

theorem action_at_isSome (scenario : List (List thread_action)) (t i : Nat) :
    (action_at scenario (t, i)).isSome = true ↔ i < (scenario.getD t []).length := by
  simp only [action_at]
  constructor
  · intro h
    obtain ⟨a, ha⟩ := Option.isSome_iff_exists.mp h
    exact getElem?_some_lt _ _ _ ha
  · intro h
    rw [List.getElem?_eq_getElem h]
    rfl

/-- C17: for every scenario and every order of its actions that preserves each thread's
order, when the calls `set_result` execute one at a time in that order against a fresh
`ms_queue` every call returns, and `validate` returns true on the annotated scenario. -/
theorem sequential_execution_validates (fuel : Nat) (scenario : List (List thread_action))
    (ord : List (Nat × Nat)) (hord : is_total_order scenario ord) :
    ∃ sc' c',
      harness_run (fuel + 1) scenario { q := ms_queue.new } ord = .ok (sc', c') ∧
      validate sc' = some true := by
  have hpos : ∀ e ∈ ord, ∃ a, action_at scenario e = some a := by
    rintro ⟨t, i⟩ he
    exact Option.isSome_iff_exists.mp
      ((action_at_isSome scenario t i).mpr ((hord.all t i).mp he))
  obtain ⟨sc', c', hrun, hrep, _, hsome⟩ := harness_canon fuel ord scenario 0 [] hord.nodup hpos
  refine ⟨sc', c', by rw [new_eq_canon]; exact hrun, ?_⟩
  refine (validate_spec sc').2.mpr ⟨ord, ⟨hord.nodup, ?_, hord.thread_order⟩, hrep⟩
  intro t i
  rw [hord.all t i, ← action_at_isSome, ← action_at_isSome, hsome]

theorem sequential_execution_validates_witness :
    is_total_order (scenario_AB none none) [(0, 0), (1, 0), (0, 1), (1, 1)] ∧
    ∃ sc' c',
      harness_run 1 (scenario_AB none none) { q := ms_queue.new }
          [(0, 0), (1, 0), (0, 1), (1, 1)] = .ok (sc', c') ∧
      validate sc' = some true :=
  have hord : is_total_order (scenario_AB none none) [(0, 0), (1, 0), (0, 1), (1, 1)] :=
    ⟨by decide,
     by
      intro t i
      rcases t with _ | _ | t <;> rcases i with _ | _ | i <;> simp [scenario_AB],
     by decide⟩
  ⟨hord, sequential_execution_validates 0 (scenario_AB none none)
    [(0, 0), (1, 0), (0, 1), (1, 1)] hord⟩

theorem harness_run_example :
    (match harness_run 1 (scenario_AB none none) { q := ms_queue.new }
        [(0, 0), (1, 0), (0, 1), (1, 1)] with
      | .ok (sc', _) => some sc'
      | .error _ => none) = some (scenario_AB (some 1) (some 2)) := by decide

/-! ## The scenario generator -/

theorem generate_thread_spec {G : Type} (next : G → Nat × G) (n : Nat) (g : G)
    (acc : List thread_action) :
    ∃ new, (generate_thread next n g acc).1 = acc ++ new ∧ new.length = n ∧
      (∀ a ∈ new, generated_action a) ∧
      (generate_thread next n g acc).2 = advance next (2 * n) g := by
  induction n generalizing g acc with
  | zero => exact ⟨[], by simp [generate_thread], rfl, by simp, rfl⟩
  | succ n ih =>
    have hadv : advance next (2 * (n + 1)) g = advance next (2 * n) (next (next g).2).2 := by
      have : 2 * (n + 1) = (2 * n + 1) + 1 := by omega
      rw [this, advance, advance]
    have hv0 : (0 : Int) ≤ (((next g).1 % 10 : Nat) : Int) := Int.ofNat_nonneg _
    have hv9 : (((next g).1 % 10 : Nat) : Int) ≤ 9 := by
      have : (next g).1 % 10 < 10 := Nat.mod_lt _ (by decide)
      omega
    rcases Nat.mod_two_eq_zero_or_one (next (next g).2).1 with hm | hm
    · obtain ⟨new, h1, h2, h3, h4⟩ := ih (next (next g).2).2
        (acc ++ [{ action := .push_fn (((next g).1 % 10 : Nat) : Int), result := .monostate,
                   value := (((next g).1 % 10 : Nat) : Int) }])
      rw [generate_thread]
      simp only [hm]
      refine ⟨{ action := .push_fn (((next g).1 % 10 : Nat) : Int), result := .monostate,
                value := (((next g).1 % 10 : Nat) : Int) } :: new, ?_, by simp [h2], ?_,
        by rw [h4, hadv]⟩
      · rw [h1]; simp
      · intro a ha
        rcases List.mem_cons.mp ha with rfl | ha
        · exact ⟨rfl, Or.inr ⟨_, rfl, hv0, hv9⟩⟩
        · exact h3 a ha
    · obtain ⟨new, h1, h2, h3, h4⟩ := ih (next (next g).2).2
        (acc ++ [{ action := .pop_fn, result := .monostate,
                   value := (((next g).1 % 10 : Nat) : Int) }])
      rw [generate_thread]
      simp only [hm]
      refine ⟨{ action := .pop_fn, result := .monostate,
                value := (((next g).1 % 10 : Nat) : Int) } :: new, ?_, by simp [h2], ?_,
        by rw [h4, hadv]⟩
      · rw [h1]; simp
      · intro a ha
        rcases List.mem_cons.mp ha with rfl | ha
        · exact ⟨rfl, Or.inl rfl⟩
        · exact h3 a ha

theorem generate_threads_spec {G : Type} (next : G → Nat × G) (n : Nat) (g : G)
    (sc : List (List thread_action)) :
    ∃ new, (generate_threads next n g sc).1 = sc ++ new ∧ new.length = n ∧
      (∀ row ∈ new, row.length = ACTIONS_PER_THREAD ∧ ∀ a ∈ row, generated_action a) ∧
      (generate_threads next n g sc).2 = advance next (2 * ACTIONS_PER_THREAD * n) g := by
  induction n generalizing g sc with
  | zero => exact ⟨[], by simp [generate_threads], rfl, by simp, rfl⟩
  | succ n ih =>
    obtain ⟨row, r1, r2, r3, r4⟩ := generate_thread_spec next ACTIONS_PER_THREAD g []
    simp only [List.nil_append] at r1
    obtain ⟨new, h1, h2, h3, h4⟩ := ih (generate_thread next ACTIONS_PER_THREAD g []).2
      (sc ++ [(generate_thread next ACTIONS_PER_THREAD g []).1])
    rw [generate_threads]
    refine ⟨row :: new, ?_, by simp [h2], ?_, ?_⟩
    · rw [h1, r1]; simp
    · intro x hx
      rcases List.mem_cons.mp hx with rfl | hx
      · exact ⟨r2, r3⟩
      · exact h3 x hx
    · rw [h4, r4]
      have : ∀ a b (g : G), advance next a (advance next b g) = advance next (b + a) g := by
        intro a b
        induction b with
        | zero => intro g; simp [advance]
        | succ b ihb =>
          intro g
          have e : b + 1 + a = (b + a) + 1 := by omega
          rw [e, advance, advance, ihb]
      rw [this]
      congr 1
      simp [ACTIONS_PER_THREAD]
      omega

theorem draws_length {G : Type} (next : G → Nat × G) (n : Nat) (g : G) :
    (draws next n g).length = n := by
  induction n generalizing g with
  | zero => rfl
  | succ n ih => simp [draws, ih]

theorem draws_add {G : Type} (next : G → Nat × G) (a b : Nat) (g : G) :
    draws next (a + b) g = draws next a g ++ draws next b (advance next a g) := by
  induction a generalizing g with
  | zero => simp [draws, advance]
  | succ a ih =>
    have e : a + 1 + b = (a + b) + 1 := by omega
    rw [e, draws, draws, advance, ih]
    rfl

theorem generate_thread_det {G1 G2 : Type} (next1 : G1 → Nat × G1) (next2 : G2 → Nat × G2)
    (n : Nat) (g1 : G1) (g2 : G2) (acc : List thread_action)
    (h : draws next1 (2 * n) g1 = draws next2 (2 * n) g2) :
    (generate_thread next1 n g1 acc).1 = (generate_thread next2 n g2 acc).1 := by
  induction n generalizing g1 g2 acc with
  | zero => rfl
  | succ n ih =>
    have e : 2 * (n + 1) = (2 * n + 1) + 1 := by omega
    rw [e, draws, draws, draws, draws] at h
    simp only [List.cons.injEq] at h
    obtain ⟨h1, h2, h3⟩ := h
    rw [generate_thread, generate_thread, h1, h2]
    rcases Nat.mod_two_eq_zero_or_one (next2 (next2 g2).2).1 with hm | hm
    · simp only [hm]
      exact ih _ _ _ h3
    · simp only [hm]
      exact ih _ _ _ h3

theorem generate_threads_det {G1 G2 : Type} (next1 : G1 → Nat × G1) (next2 : G2 → Nat × G2)
    (n : Nat) (g1 : G1) (g2 : G2) (sc : List (List thread_action))
    (h : draws next1 (2 * ACTIONS_PER_THREAD * n) g1
      = draws next2 (2 * ACTIONS_PER_THREAD * n) g2) :
    (generate_threads next1 n g1 sc).1 = (generate_threads next2 n g2 sc).1 := by
  induction n generalizing g1 g2 sc with
  | zero => rfl
  | succ n ih =>
    have e : 2 * ACTIONS_PER_THREAD * (n + 1)
        = 2 * ACTIONS_PER_THREAD + 2 * ACTIONS_PER_THREAD * n := by
      rw [Nat.mul_succ, Nat.add_comm]
    rw [e, draws_add, draws_add] at h
    obtain ⟨h1, h2⟩ := List.append_inj h (by rw [draws_length, draws_length])
    obtain ⟨_, _, _, _, s1⟩ := generate_thread_spec next1 ACTIONS_PER_THREAD g1 []
    obtain ⟨_, _, _, _, s2⟩ := generate_thread_spec next2 ACTIONS_PER_THREAD g2 []
    rw [generate_threads, generate_threads,
      generate_thread_det next1 next2 ACTIONS_PER_THREAD g1 g2 [] h1]
    apply ih
    rw [s1, s2]
    exact h2

/-- C19: for every state of the random generator, `generate_scenario` returns exactly
`THREADS_COUNT` = 3 thread sequences of exactly `ACTIONS_PER_THREAD` = 4 actions each; every
action has its result unset (monostate) and is a pop or a push of a value in 0..9.  The
scenario is determined by the generator state: the call draws 24 numbers from it, and any
generator state yielding the same 24 numbers gives the same scenario. -/
theorem generate_scenario_spec {G : Type} (next : G → Nat × G) (g : G) :
    (generate_scenario next g).1.length = THREADS_COUNT ∧ THREADS_COUNT = 3 ∧
    (∀ row ∈ (generate_scenario next g).1,
      row.length = ACTIONS_PER_THREAD ∧ ACTIONS_PER_THREAD = 4 ∧
      ∀ a ∈ row, a.result = .monostate ∧
        (a.action = .pop_fn ∨ ∃ v : Int, a.action = .push_fn v ∧ 0 ≤ v ∧ v ≤ 9)) ∧
    (generate_scenario next g).2 = advance next 24 g ∧
    (∀ (G' : Type) (next' : G' → Nat × G') (g' : G'),
      draws next' 24 g' = draws next 24 g →
      (generate_scenario next' g').1 = (generate_scenario next g).1) := by
  obtain ⟨new, h1, h2, h3, h4⟩ := generate_threads_spec next THREADS_COUNT g []
  simp only [List.nil_append] at h1
  refine ⟨?_, rfl, ?_, ?_, ?_⟩
  · simp only [generate_scenario, h1, h2]
  · intro row hrow
    simp only [generate_scenario, h1] at hrow
    obtain ⟨r1, r2⟩ := h3 row hrow
    exact ⟨r1, rfl, fun a ha => r2 a ha⟩
  · simp only [generate_scenario, h4]
    rfl
  · intro G' next' g' hd
    exact generate_threads_det next' next THREADS_COUNT g' g [] hd

theorem generate_scenario_spec_witness :
    draws list_next 24 (draws counter_next 24 0 ++ [99]) = draws counter_next 24 0 ∧
    (generate_scenario list_next (draws counter_next 24 0 ++ [99])).1
      = (generate_scenario counter_next 0).1 :=
  ⟨by decide,
    (generate_scenario_spec counter_next 0).2.2.2.2 (List Nat) list_next
      (draws counter_next 24 0 ++ [99]) (by decide)⟩

end MSQueue
